import Mathlib

/-!
# git_filter: a verification development

Shallow embedding of `git_filter.c` (include-set loading, sparse tree
builder, parent resolver, commit rewriter) and theorems about it.

Conventions of the embedding

* A C string is the list of its bytes before the terminating NUL
  (`CStr`); `'/'` is byte 47, `'\n'` is byte 10.
* Objects of the store are content addressed: the identity of a tree is
  its list of entries, the identity of a commit is the commit value.
* `die(...)`, `A(cond, ...)` and a failing `C(...)` end the process; the
  embedding returns `Except.error` with a `Fatal` value.
-/

namespace GitFilter

/-! ## C strings -/

/-- A C string: the bytes before the terminating NUL. -/
abbrev CStr := List Nat

/-- The byte of the path separator. -/
def SLASH : Nat := 47

/-- The byte that ends a line. -/
def NEWLINE : Nat := 10

/-- Reasons for which the program terminates (`die`, `A`, `C`), and the one
outcome that stands for memory-unsafe behaviour of the C code. -/
inductive Fatal where
  /-- Outcome of `die("cannot open %s\n", file)`. -/
  | cannot_open
  /-- Outcome of `die("duplicate entries for '%s'", dirs[i])`. -/
  | duplicate_entries (entry : CStr)
  /-- Outcome of `die("'%s' is a subdir of '%s'", dirs[i], dirs[i-1])`. -/
  | subdir (entry parent : CStr)
  /-- Outcome of `A(s->tb == 0, "stack overflow\n")`. -/
  | stack_overflow
  /-- Outcome of `A(..., "stack error")`. -/
  | stack_error
  /-- Outcome of `A(commit_list->len >= OIDLIST_MAX, "too many parents")`. -/
  | too_many_parents
  /-- A libgit2 call wrapped in `C(...)` failed, or was handed a null handle. -/
  | git2_error
  /-- The C code reads or writes outside an allocation, or reads a value that
  was never assigned. -/
  | undefined_behaviour
  /-- Outcome of `die("can only specify one repository in %s at %d\n", ...)`. -/
  | one_repository
  /-- Outcome of `die("can only specify one tag prefix in %s at %d\n", ...)`. -/
  | one_tpfx
  /-- Outcome of `die("can only specify one revision in %s at %d\n", ...)`. -/
  | one_revision
  /-- Outcome of `die("can't find revision %s at %d\n", ...)`. -/
  | no_revision_string
  /-- Outcome of `die("invalid syntax for filter in %s at %d\n", ...)`. -/
  | invalid_filter
  /-- Outcome of `die("no REVN: line found in %s\n", cfgfile)`. -/
  | no_revn
  /-- Outcome of `die("no TPFX: line found in %s\n", cfgfile)`. -/
  | no_tpfx
  /-- Outcome of `die("no REPO: line found in %s\n", cfgfile)`. -/
  | no_repo
  /-- Outcome of `die("no fiter specified in %s\n", cfgfile)`. -/
  | no_filter
  /-- Outcome of `die("invalid revision type %s in REVN", rev_type)`. -/
  | invalid_revision_type
  /-- Outcome of `exit(1)` after the usage message of `main`. -/
  | usage
  deriving DecidableEq, Repr

deriving instance DecidableEq for Except

/-- Library `strcmp`: sign of the first differing byte (unsigned compare),
the terminator being smaller than every byte. -/
def strcmp : CStr → CStr → Int
  | [], [] => 0
  | [], _ :: _ => -1
  | _ :: _, [] => 1
  | a :: as, b :: bs => if a = b then strcmp as bs else if a < b then -1 else 1

/-- Library `strncmp`: as `strcmp`, over at most `n` bytes. -/
def strncmp : CStr → CStr → Nat → Int
  | _, _, 0 => 0
  | [], [], _ + 1 => 0
  | [], _ :: _, _ + 1 => -1
  | _ :: _, [], _ + 1 => 1
  | a :: as, b :: bs, n + 1 => if a = b then strncmp as bs n else if a < b then -1 else 1

/-- Library `strlen`. -/
def strlen (s : CStr) : Nat := s.length

/-- The byte `s[i]` of a C string, the terminator (0) at `i = strlen s`. -/
def charAt (s : CStr) (i : Nat) : Nat := s.getD i 0

/-! ## Reading lines -/

/-- A stdio input stream: the bytes not read yet and the end-of-file flag. -/
structure FILE where
  data : List Nat
  eof : Bool
  deriving DecidableEq, Repr

/-- Library `feof`. -/
def feof (f : FILE) : Bool := f.eof

/-- The bytes one `fgets` call stores when `room` bytes fit before the
terminator: it stops after a newline, at end of input, or when full.
Returns the bytes stored, the rest of the input, and whether the end of
input was hit. -/
def fgets_bytes : Nat → List Nat → List Nat × List Nat × Bool
  | 0, rest => ([], rest, false)
  | _ + 1, [] => ([], [], true)
  | room + 1, c :: rest =>
    if c = NEWLINE then ([c], rest, false)
    else
      let r := fgets_bytes room rest
      (c :: r.1, r.2.1, r.2.2)

/-- Library `fgets(buf, n, f)`: `none` when nothing could be read. -/
def fgets (n : Nat) (f : FILE) : Option (List Nat) × FILE :=
  match f.data with
  | [] => (none, { f with eof := true })
  | _ :: _ =>
    let r := fgets_bytes (n - 1) f.data
    (some r.1, { data := r.2.1, eof := f.eof || r.2.2 })

/-- The bytes `strlen` sees in a buffer: those before the first NUL. -/
def cstr_of_buffer (buf : List Nat) : CStr := buf.takeWhile (fun c => c ≠ 0)

/-- The buffer size `BUFLEN`. -/
def BUFLEN : Nat := 128

/-- The `do ... while` loop of `local_fgets`: `line` holds the `slen` bytes
read so far, `len` is the size of the buffer. Every round that does not
leave the loop consumes input, so `fuel` rounds suffice when `fuel`
exceeds the length of the input. -/
def local_fgets_loop : Nat → FILE → CStr → Nat → Except Fatal (Option CStr × FILE)
  | 0, _, _, _ => .error .undefined_behaviour
  | fuel + 1, f, line, len =>
    let slen := strlen line
    match fgets (len - slen) f with
    | (none, f1) =>
      if slen ≠ 0 then .ok (some line.dropLast, f1) else .ok (none, f1)
    | (some r, f1) =>
      let line1 := cstr_of_buffer (line ++ r)
      if strlen line1 = 0 then .error .undefined_behaviour
      else if line1.getLast? ≠ some NEWLINE then local_fgets_loop fuel f1 line1 (len + BUFLEN)
      else .ok (some line1.dropLast, f1)

/-- The function `local_fgets`: one line of the stream without its last byte,
`none` when the stream is exhausted. -/
def local_fgets (f : FILE) : Except Fatal (Option CStr × FILE) :=
  local_fgets_loop (f.data.length + 1) f [] BUFLEN

/-! ## Include-Set -/

/-- The struct `include_dirs`; `len` is the length of `dirs`. -/
structure include_dirs where
  dirs : List CStr
  deriving DecidableEq, Repr

/-- The comparison callback `sort_string`. -/
def sort_string (a b : CStr) : Int := strcmp a b

/-- Insertion of one element in a list ordered by `cmp`. -/
def qsort_insert (cmp : CStr → CStr → Int) (x : CStr) : List CStr → List CStr
  | [] => [x]
  | y :: ys => if cmp x y ≤ 0 then x :: y :: ys else y :: qsort_insert cmp x ys

/-- Library `qsort` on an array of strings: the array in ascending order of
`cmp`. -/
def qsort (cmp : CStr → CStr → Int) : List CStr → List CStr
  | [] => []
  | x :: xs => qsort_insert cmp x (qsort cmp xs)

/-- The read loop of `include_dirs_init`: the entries `local_fgets` returns
until the stream is exhausted. -/
def include_dirs_read : Nat → FILE → Except Fatal (List CStr)
  | 0, _ => .error .undefined_behaviour
  | fuel + 1, f =>
    if feof f then .ok []
    else
      match local_fgets f with
      | .error e => .error e
      | .ok (none, _) => .ok []
      | .ok (some e, f1) =>
        match include_dirs_read fuel f1 with
        | .error err => .error err
        | .ok es => .ok (e :: es)

/-- The validation loop of `include_dirs_init` (`for (i=1; i<id->len; i++)`),
run over the sorted array; `prev :: cur :: _` are `dirs[i-1]`, `dirs[i]`. -/
def include_dirs_check : List CStr → Except Fatal Unit
  | [] => .ok ()
  | [_] => .ok ()
  | prev :: cur :: rest =>
    if strcmp cur prev = 0 then .error (.duplicate_entries cur)
    else
      let cmplen := strlen prev
      if strncmp cur prev cmplen = 0 ∧ charAt cur cmplen = SLASH then
        .error (.subdir cur prev)
      else include_dirs_check (cur :: rest)

/-- The function `include_dirs_init`. It assigns `id->dirs` (a new array)
and `id->alloc`, and never `id->len`: the entries are stored from the index
the field holds on entry, which is the parameter `len`, and the field is
incremented from there. `file` is `none` when `fopen` fails. When `len` is
not zero, the slots of the new array below that index are never assigned
(and from `INCLUDE_CHUNKS` on the stores leave the array); `qsort` and the
validation loop, or with a single such slot the first reader of the
Include-Set, hand a slot without a value to `strcmp`: the outcome is
`undefined_behaviour`. -/
def include_dirs_init (len : Nat) (file : Option FILE) : Except Fatal include_dirs :=
  match file with
  | none => .error .cannot_open
  | some f =>
    match include_dirs_read (f.data.length + 2) f with
    | .error e => .error e
    | .ok entries =>
      if len ≠ 0 then .error .undefined_behaviour
      else
        let dirs := qsort sort_string entries
        match include_dirs_check dirs with
        | .error e => .error e
        | .ok () => .ok { dirs := dirs }

/-- An entry `q` lies inside the directory `p`: `q` is `p`, a `'/'`, and more
text (the rest `r`, of any length). -/
def IsSubdirOf (q p : CStr) : Prop := ∃ r : CStr, q = p ++ SLASH :: r

/-! ## Objects of the store -/

/-- Identity of an object a tree entry points to. Objects are content
addressed, so the identity of a tree is the list of its entries
(name, file mode, identity); `raw n` is the identity of any other object
(blob, submodule commit). -/
inductive git_oid where
  | raw (n : Nat)
  | tree (entries : List (CStr × Nat × git_oid))

/-- An entry of a tree: name, file mode, identity of the object. -/
abbrev git_tree_entry := CStr × Nat × git_oid

/-- A tree object: its entries. -/
abbrev git_tree := List git_tree_entry

mutual
/-- Decision procedure for the equality of two identities (`git_oid_equal`). -/
def git_oid.decEq : (a b : git_oid) → Decidable (a = b)
  | .raw a, .raw b =>
    if h : a = b then isTrue (by rw [h])
    else isFalse (by intro h2; injection h2; contradiction)
  | .raw _, .tree _ => isFalse (by intro h; cases h)
  | .tree _, .raw _ => isFalse (by intro h; cases h)
  | .tree xs, .tree ys =>
    match git_oid.decEqList xs ys with
    | isTrue h => isTrue (by rw [h])
    | isFalse h => isFalse (by intro h2; injection h2; contradiction)
/-- Decision procedure for the equality of two lists of entries. -/
def git_oid.decEqList : (a b : List (CStr × Nat × git_oid)) → Decidable (a = b)
  | [], [] => isTrue rfl
  | [], _ :: _ => isFalse (by intro h; cases h)
  | _ :: _, [] => isFalse (by intro h; cases h)
  | (n1, m1, o1) :: xs, (n2, m2, o2) :: ys =>
    if hn : n1 = n2 then
      if hm : m1 = m2 then
        match git_oid.decEq o1 o2 with
        | isTrue ho =>
          match git_oid.decEqList xs ys with
          | isTrue hl => isTrue (by rw [hn, hm, ho, hl])
          | isFalse hl => isFalse (by intro h; injection h; contradiction)
        | isFalse ho =>
          isFalse (by
            intro h; injection h with h1 h2; injection h1 with _ h3
            injection h3; contradiction)
      else
        isFalse (by
          intro h; injection h with h1 h2; injection h1 with _ h3
          injection h3; contradiction)
    else isFalse (by intro h; injection h with h1 h2; injection h1; contradiction)
end

instance : DecidableEq git_oid := git_oid.decEq

/-- Accessor `git_tree_entry_name`. -/
def git_tree_entry_name (e : git_tree_entry) : CStr := e.1

/-- Accessor `git_tree_entry_filemode`. -/
def git_tree_entry_filemode (e : git_tree_entry) : Nat := e.2.1

/-- Accessor `git_tree_entry_id`. -/
def git_tree_entry_id (e : git_tree_entry) : git_oid := e.2.2

/-- Accessor `git_tree_id`: the identity of a tree is its content. -/
def git_tree_id (t : git_tree) : git_oid := .tree t

/-- Library `git_tree_lookup`: the tree with the given identity, if the
identity is that of a tree. -/
def git_tree_lookup (oid : git_oid) : Option git_tree :=
  match oid with
  | .tree entries => some entries
  | .raw _ => none

/-- Library `git_tree_entrycount`. -/
def git_tree_entrycount (t : git_tree) : Nat := t.length

/-- The macro `tree_equal`. -/
def tree_equal (tree1 tree2 : git_tree) : Bool :=
  decide (git_tree_id tree1 = git_tree_id tree2)

/-- The file mode `GIT_FILEMODE_TREE` (octal 040000). -/
def GIT_FILEMODE_TREE : Nat := 16384

/-- Test `git_tree_entry__is_tree` of libgit2: the type bits of the mode
(mask octal 0170000) are those of a directory. -/
def git_tree_entry_is_tree (e : git_tree_entry) : Bool :=
  decide (e.2.1 / 4096 % 16 = 4)

/-- The components of a path between its `'/'` bytes, `cur` being the bytes
of the component read so far. There is always at least one component. -/
def path_components_from (cur : CStr) : CStr → List CStr
  | [] => [cur]
  | c :: rest =>
    if c = SLASH then cur :: path_components_from [] rest
    else path_components_from (cur ++ [c]) rest

/-- The components of a path between its `'/'` bytes. -/
def path_components (path : CStr) : List CStr := path_components_from [] path

/-- Lookup `entry_fromname` of libgit2: the entry of a tree with a given name. -/
def entry_fromname (t : git_tree) (name : CStr) : Option git_tree_entry :=
  t.find? (fun e => decide (e.1 = name))

/-- Walk of `git_tree_entry_bypath` over the components of the path: an empty
component is an invalid path, except that one trailing `'/'` after the name
of a directory is accepted; every component before the last must name a
directory whose tree can be loaded. -/
def bypath_walk : git_tree → List CStr → Option git_tree_entry
  | _, [] => none
  | t, [name] => if name = [] then none else entry_fromname t name
  | t, name :: next :: rest =>
    if name = [] then none
    else
      match entry_fromname t name with
      | none => none
      | some e =>
        if git_tree_entry_is_tree e = false then none
        else if next = [] ∧ rest = [] then some e
        else
          match e.2.2 with
          | .tree sub => bypath_walk sub (next :: rest)
          | .raw _ => none

/-- Library `git_tree_entry_bypath`: the entry at a path of a tree; `none`
stands for every non-zero return value. -/
def git_tree_entry_bypath (root : git_tree) (path : CStr) : Option git_tree_entry :=
  bypath_walk root (path_components path)

/-! ## Tree builder -/

/-- A libgit2 tree builder: the entries inserted so far, kept in the order of
their names (the canonical order a written tree has), one entry per name. -/
abbrev git_treebuilder := List git_tree_entry

/-- Library `git_treebuilder_insert`: adds the entry, replacing the entry of
the same name if there is one. Names and modes taken from an existing tree
are valid, so the call is taken to succeed. -/
def git_treebuilder_insert : git_treebuilder → CStr → git_oid → Nat → git_treebuilder
  | [], filename, id, filemode => [(filename, filemode, id)]
  | e :: es, filename, id, filemode =>
    if strcmp filename e.1 < 0 then (filename, filemode, id) :: e :: es
    else if strcmp filename e.1 = 0 then (filename, filemode, id) :: es
    else e :: git_treebuilder_insert es filename id filemode

/-- Library `git_treebuilder_write`: the identity of the tree holding the
entries of the builder. -/
def git_treebuilder_write (bld : git_treebuilder) : git_oid := .tree bld

/-! ## Directory builder stack -/

/-- The struct `dirstack_item_t`; `none` is the null pointer. -/
structure dirstack_item_t where
  tb : Option git_treebuilder
  name : Option CStr

/-- The zero-filled item `memset` leaves in a fresh slot. -/
def dirstack_item_zero : dirstack_item_t := { tb := none, name := none }

/-- The struct `dirstack_t`. The array `item` grows in zero-filled chunks when
`stack_get_item` is asked for a level beyond `alloc`; it is read as a map
from levels to items that is zero wherever it was never written. -/
structure dirstack_t where
  item : Nat → dirstack_item_t
  depth : Nat

/-- The function `stack_get_item`: the slot of a level. -/
def stack_get_item (stack : dirstack_t) (level : Nat) : dirstack_item_t :=
  stack.item level

/-- Write through the pointer `stack_get_item` returned. -/
def stack_set_item (stack : dirstack_t) (level : Nat) (it : dirstack_item_t) : dirstack_t :=
  { stack with item := fun l => if l = level then it else stack.item l }

/-- One round of the loop of `_stack_close_to` at index `i`: the builder of
level `i` is written and inserted under its name in the builder of level
`i-1`, and the slot is cleared. -/
def stack_close_level (stack : dirstack_t) (i : Nat) : Except Fatal dirstack_t :=
  let cur := stack_get_item stack i
  let prev := stack_get_item stack (i - 1)
  match cur.tb, cur.name, prev.tb with
  | some tb, some name, some ptb =>
    let new_oid := git_treebuilder_write tb
    let stack1 := stack_set_item stack (i - 1)
      { prev with tb := some (git_treebuilder_insert ptb name new_oid GIT_FILEMODE_TREE) }
    .ok (stack_set_item stack1 i { tb := none, name := none })
  | _, _, _ => .error .git2_error

/-- The loop of `_stack_close_to`, `n` rounds left: indices
`level + n - 1` down to `level`. -/
def stack_close_loop (level : Nat) : Nat → dirstack_t → Except Fatal dirstack_t
  | 0, stack => .ok stack
  | n + 1, stack =>
    match stack_close_level stack (level + n) with
    | .error e => .error e
    | .ok stack1 => stack_close_loop level n stack1

/-- The function `_stack_close_to` (callers pass `level ≥ 1`, and
`depth ≥ 1` holds from `stack_open` on): closes the levels `depth - 1`
down to `level`, then sets `depth` to `level`. -/
def _stack_close_to (stack : dirstack_t) (level : Nat) : Except Fatal dirstack_t :=
  match stack_close_loop level (stack.depth - level) stack with
  | .error e => .error e
  | .ok stack1 => .ok { stack1 with depth := level }

/-- The loop of `_handle_stack` from `level` on; the list holds
`path_c[level-1], ..., path_c[len-1]`. -/
def handle_stack_loop : List CStr → Nat → dirstack_t → Except Fatal dirstack_t
  | [], _, stack => .ok stack
  | seg :: rest, level, stack =>
    let s := stack_get_item stack level
    match s.name with
    | none =>
      let stack1 := stack_set_item stack level { tb := some [], name := some seg }
      handle_stack_loop rest (level + 1) { stack1 with depth := level + 1 }
    | some name =>
      if name = seg then handle_stack_loop rest (level + 1) stack
      else if s.tb = none then .error .stack_overflow
      else
        match _stack_close_to stack level with
        | .error e => .error e
        | .ok stack1 =>
          let s1 := stack_get_item stack1 level
          if stack1.depth ≠ level then .error .stack_error
          else if s1.name ≠ none then .error .stack_error
          else if s1.tb ≠ none then .error .stack_error
          else
            let stack2 := stack_set_item stack1 level { tb := some [], name := some seg }
            handle_stack_loop rest (level + 1) { stack2 with depth := level + 1 }

/-- The function `_handle_stack`: `path_c` are the first `len` components. -/
def _handle_stack (stack : dirstack_t) (path_c : List CStr) (len : Nat) :
    Except Fatal dirstack_t :=
  if len = 0 then .ok stack
  else handle_stack_loop (path_c.take len) 1 stack

/-- The function `stack_open`. -/
def stack_open : dirstack_t :=
  { item := fun l => if l = 0 then { tb := some [], name := none } else dirstack_item_zero,
    depth := 1 }

/-- The size `STACK_CHUNKS`. -/
def STACK_CHUNKS : Nat := 32

/-- The function `split_path`: the components of the path. The array of
components has `STACK_CHUNKS` slots; when the count reaches that size the
macro `add_pathc` executes `*p += STACK_CHUNKS` (which moves the first
component pointer) and reallocates to the unchanged `path_size`, so the
next store lies outside the array. -/
def split_path (path : CStr) : Except Fatal (List CStr) :=
  let p := path_components path
  if p.length < STACK_CHUNKS then .ok p else .error .undefined_behaviour

/-- The function `stack_add`. -/
def stack_add (stack : dirstack_t) (path : CStr) (ent : git_tree_entry) :
    Except Fatal dirstack_t :=
  let name := git_tree_entry_name ent
  let t_oid := git_tree_entry_id ent
  let t_fm := git_tree_entry_filemode ent
  match split_path path with
  | .error e => .error e
  | .ok path_sp =>
    let cnt := path_sp.length
    match (if cnt > 1 then _handle_stack stack path_sp (cnt - 1) else .ok stack) with
    | .error e => .error e
    | .ok stack1 =>
      let di := stack_get_item stack1 (cnt - 1)
      match di.tb with
      | none => .error .git2_error
      | some tb =>
        .ok (stack_set_item stack1 (cnt - 1)
          { di with tb := some (git_treebuilder_insert tb name t_oid t_fm) })

/-- The function `stack_close`: the identity of the root tree. -/
def stack_close (stack : dirstack_t) : Except Fatal git_oid :=
  match _stack_close_to stack 1 with
  | .error e => .error e
  | .ok stack1 =>
    match (stack_get_item stack1 0).tb with
    | none => .error .git2_error
    | some tb => .ok (git_treebuilder_write tb)

/-- The loop of `filtered_tree` over the entries of the Include-Set. -/
def filtered_tree_loop (tree : git_tree) : List CStr → dirstack_t → Except Fatal dirstack_t
  | [], stack => .ok stack
  | path :: rest, stack =>
    match git_tree_entry_bypath tree path with
    | some out =>
      match stack_add stack path out with
      | .error e => .error e
      | .ok stack1 => filtered_tree_loop tree rest stack1
    | none => filtered_tree_loop tree rest stack

/-- The function `filtered_tree`. -/
def filtered_tree (id : include_dirs) (tree : git_tree) : Except Fatal git_tree :=
  match filtered_tree_loop tree id.dirs stack_open with
  | .error e => .error e
  | .ok stack =>
    match stack_close stack with
    | .error e => .error e
    | .ok new_oid =>
      match git_tree_lookup new_oid with
      | none => .error .git2_error
      | some new_tree => .ok new_tree

/-! ## Commits -/

/-- A signature (author or committer). -/
structure git_signature where
  name : CStr
  email : CStr
  time : Int
  deriving DecidableEq, Repr

/-- A commit object. Commits are content addressed: a commit is determined
by its tree, its parents in order, its author, committer and message, so
the original commit graph is finite and acyclic by construction. -/
inductive git_commit where
  | mk (tree : git_tree) (parents : List git_commit)
      (author committer : git_signature) (message : CStr)

mutual
/-- Decision procedure for the equality of two commits (`git_oid_cmp` on
their identities). -/
def git_commit.decEq : (a b : git_commit) → Decidable (a = b)
  | .mk t1 p1 a1 c1 m1, .mk t2 p2 a2 c2 m2 =>
    if ht : t1 = t2 then
      if ha : a1 = a2 then
        if hc : c1 = c2 then
          if hm : m1 = m2 then
            match git_commit.decEqList p1 p2 with
            | isTrue hp => isTrue (by rw [ht, ha, hc, hm, hp])
            | isFalse hp => isFalse (by intro h; injection h; contradiction)
          else isFalse (by intro h; injection h; contradiction)
        else isFalse (by intro h; injection h; contradiction)
      else isFalse (by intro h; injection h; contradiction)
    else isFalse (by intro h; injection h; contradiction)
/-- Decision procedure for the equality of two lists of commits. -/
def git_commit.decEqList : (a b : List git_commit) → Decidable (a = b)
  | [], [] => isTrue rfl
  | [], _ :: _ => isFalse (by intro h; cases h)
  | _ :: _, [] => isFalse (by intro h; cases h)
  | x :: xs, y :: ys =>
    match git_commit.decEq x y with
    | isTrue hx =>
      match git_commit.decEqList xs ys with
      | isTrue hl => isTrue (by rw [hx, hl])
      | isFalse hl => isFalse (by intro h; injection h; contradiction)
    | isFalse hx => isFalse (by intro h; injection h; contradiction)
end

instance : DecidableEq git_commit := git_commit.decEq

/-- Accessor `git_commit_tree`. -/
def git_commit_tree : git_commit → git_tree
  | .mk tree _ _ _ _ => tree

/-- The parents of a commit in order (`git_commit_parentcount`,
`git_commit_parent`). -/
def git_commit_parents : git_commit → List git_commit
  | .mk _ parents _ _ _ => parents

/-- Accessor `git_commit_author`. -/
def git_commit_author : git_commit → git_signature
  | .mk _ _ author _ _ => author

/-- Accessor `git_commit_committer`. -/
def git_commit_committer : git_commit → git_signature
  | .mk _ _ _ committer _ => committer

/-- Accessor `git_commit_message`. -/
def git_commit_message : git_commit → CStr
  | .mk _ _ _ _ message => message

/-- Accessor `git_commit_id`: the identity of a commit is the commit. -/
def git_commit_id (c : git_commit) : git_commit := c

/-- The repository as far as the rewriter changes it: the commits
`git_commit_create` has written, oldest first. -/
structure git_repository where
  commits : List git_commit
  deriving DecidableEq

/-- Library `git_commit_create` followed by `git_commit_lookup` of the new
identity: the repository with the commit written, and the commit. -/
def git_commit_create (repo : git_repository) (author committer : git_signature)
    (message : CStr) (tree : git_tree) (parents : List git_commit) :
    git_repository × git_commit :=
  let c := git_commit.mk tree parents author committer message
  ({ commits := repo.commits ++ [c] }, c)

/-! ## Revision map -/

/-- Modelled from the spec: the dictionary of `dict.h` (`dict_t`), which is
not part of the sources at hand. The Revision-Map is a mapping from
original commit identity to rewritten commit, with insert and lookup by
identity; it is kept as the list of its bindings, newest first. -/
abbrev dict_t := List (git_commit × git_commit)

/-- Modelled from the spec: `dict_init` of `dict.h`, the empty mapping. -/
def dict_init : dict_t := []

/-- Modelled from the spec: `dict_lookup` of `dict.h`, the value bound to a
key, if any. -/
def dict_lookup : dict_t → git_commit → Option git_commit
  | [], _ => none
  | (k, v) :: rest, key => if k = key then some v else dict_lookup rest key

/-- Modelled from the spec: `dict_add` of `dict.h`, binds a key to a value. -/
def dict_add (d : dict_t) (key value : git_commit) : dict_t := (key, value) :: d

/-! ## Parent resolver -/

/-- The bound `OIDLIST_MAX`. -/
def OIDLIST_MAX : Nat := 16

/-- The struct `commit_list_t`; `len` is the length of `list`. -/
structure commit_list_t where
  list : List git_commit
  deriving DecidableEq

/-- The field `len` of `commit_list_t`. -/
def commit_list_t.len (cl : commit_list_t) : Nat := cl.list.length

mutual
/-- The function `find_new_parents`. -/
def find_new_parents : git_commit → dict_t → commit_list_t → Except Fatal commit_list_t
  | .mk _ parents _ _ _, oid_dict, commit_list =>
    find_new_parents_loop parents oid_dict commit_list
/-- The loop `for (n = 0; n < cpcount; n++)` of `find_new_parents` over the
parents not visited yet. -/
def find_new_parents_loop : List git_commit → dict_t → commit_list_t →
    Except Fatal commit_list_t
  | [], _, commit_list => .ok commit_list
  | old_parent :: rest, oid_dict, commit_list =>
    match dict_lookup oid_dict (git_commit_id old_parent) with
    | none =>
      match find_new_parents old_parent oid_dict commit_list with
      | .error e => .error e
      | .ok commit_list1 => find_new_parents_loop rest oid_dict commit_list1
    | some newc =>
      if commit_list.len ≥ OIDLIST_MAX then .error .too_many_parents
      else find_new_parents_loop rest oid_dict { list := commit_list.list ++ [newc] }
end

/-! ## Commit rewriter -/

/-- The struct `tree_filter`; the repository the field `repo` points to is
passed alongside. -/
structure tree_filter where
  name : CStr
  include_file : CStr
  id : include_dirs
  last : Option git_commit
  revdict : dict_t
  deriving DecidableEq

/-- The function `create_commit`. -/
def create_commit (repo : git_repository) (tf : tree_filter) (tree : git_tree)
    (commit : git_commit) (commit_id : git_commit) :
    Except Fatal (git_repository × tree_filter) :=
  let message := git_commit_message commit
  let committer := git_commit_committer commit
  let author := git_commit_author commit
  match filtered_tree tf.id tree with
  | .error e => .error e
  | .ok new_tree =>
    if git_tree_entrycount new_tree = 0 then .ok (repo, tf)
    else
      match find_new_parents commit tf.revdict { list := [] } with
      | .error e => .error e
      | .ok commit_list =>
        let skip : Bool :=
          if commit_list.len = 1 then
            match commit_list.list with
            | parent :: _ => tree_equal (git_commit_tree parent) new_tree
            | [] => false
          else false
        if skip then .ok (repo, tf)
        else
          let created := git_commit_create repo author committer message new_tree
            commit_list.list
          .ok (created.1,
            { tf with last := some created.2,
                      revdict := dict_add tf.revdict commit_id created.2 })

/-- The revision walk of `main` for one filter: `create_commit` on every
commit the walker yields, in order. -/
def revwalk_loop : List git_commit → git_repository → tree_filter →
    Except Fatal (git_repository × tree_filter)
  | [], repo, tf => .ok (repo, tf)
  | commit :: rest, repo, tf =>
    match create_commit repo tf (git_commit_tree commit) commit (git_commit_id commit) with
    | .error e => .error e
    | .ok (repo1, tf1) => revwalk_loop rest repo1 tf1

/-! ## Specification-side definitions -/

mutual
/-- Parent resolution in the words of the specification: over the original
parents in order, the rewritten commit of a mapped parent, and the resolved
parents of an unmapped parent spliced in its place. -/
def resolve_parents : git_commit → dict_t → List git_commit
  | .mk _ parents _ _ _, m => resolve_parents_list parents m
/-- Concatenation of the resolutions of a list of original parents. -/
def resolve_parents_list : List git_commit → dict_t → List git_commit
  | [], _ => []
  | p :: rest, m =>
    (match dict_lookup m (git_commit_id p) with
      | some newc => [newc]
      | none => resolve_parents p m) ++ resolve_parents_list rest m
end

/-- The commit `h` is the image of a nearest mapped ancestor of `c`: there is
a path of parent links from `c` to a mapped commit with image `h` on which
every commit strictly between is unmapped. -/
inductive NearestMapped (m : dict_t) : git_commit → git_commit → Prop where
  | direct (c p h : git_commit) : p ∈ git_commit_parents c →
      dict_lookup m (git_commit_id p) = some h → NearestMapped m c h
  | skip (c p h : git_commit) : p ∈ git_commit_parents c →
      dict_lookup m (git_commit_id p) = none → NearestMapped m p h → NearestMapped m c h

/-- The commit `a` is an ancestor of `d`: reachable from `d` over one or more
parent links. -/
inductive IsAncestor : git_commit → git_commit → Prop where
  | parent {a d : git_commit} : a ∈ git_commit_parents d → IsAncestor a d
  | step {a p d : git_commit} : p ∈ git_commit_parents d → IsAncestor a p → IsAncestor a d

/-- The walk yields every commit after all of its parents (and so after all
of its ancestors). -/
def TopoOrdered (walk : List git_commit) : Prop :=
  ∀ (pre : List git_commit) (c : git_commit) (post : List git_commit),
    walk = pre ++ c :: post → ∀ p ∈ git_commit_parents c, p ∈ pre

/-- The de-duplication rule of the specification: there is exactly one
rewritten parent and its tree is the filtered tree. -/
def dedup_applies (parents : List git_commit) (new_tree : git_tree) : Bool :=
  match parents with
  | [parent] => decide (git_commit_tree parent = new_tree)
  | _ => false

/-- State of a walk after the commits `pre` were processed with the
Include-Set `id`, the Revision-Map being `m`: every key is bound to the
commit `create_commit` writes for it under `m` (filtered tree with an
entry, resolved parents, de-duplication rule not applicable); every
processed commit that is not a key has an empty filtered tree or falls
under the de-duplication rule; every key was processed; the processed
commits are closed under ancestors. -/
def WalkInv (id : include_dirs) (pre : List git_commit) (m : dict_t) : Prop :=
  (∀ k v, dict_lookup m k = some v →
    ∃ t, filtered_tree id (git_commit_tree k) = .ok t ∧ t ≠ [] ∧
      dedup_applies (resolve_parents k m) t = false ∧
      v = .mk t (resolve_parents k m) (git_commit_author k) (git_commit_committer k)
        (git_commit_message k)) ∧
  (∀ d ∈ pre, dict_lookup m d = none →
    ∃ t, filtered_tree id (git_commit_tree d) = .ok t ∧
      (t = [] ∨ dedup_applies (resolve_parents d m) t = true)) ∧
  (∀ k, dict_lookup m k ≠ none → k ∈ pre) ∧
  (∀ d ∈ pre, ∀ a, IsAncestor a d → a ∈ pre)

/-- Check of `TopoOrdered` for the commits still to come, `seen` being the
commits the walk has yielded. -/
def topo_ordered_from (seen : List git_commit) : List git_commit → Bool
  | [] => true
  | c :: rest =>
    (git_commit_parents c).all (fun p => decide (p ∈ seen)) &&
      topo_ordered_from (seen ++ [c]) rest

/-- The commits form a line: each has the commit before it as its only
parent; `prev` is the commit before the first one, if any. -/
def linear_from : Option git_commit → List git_commit → Bool
  | _, [] => true
  | prev, c :: rest =>
    decide (git_commit_parents c = prev.toList) && linear_from (some c) rest

/-- A linear history, oldest commit first: the first commit has no parent,
every other commit has the previous commit as its only parent. -/
def LinearHistory (walk : List git_commit) : Prop := linear_from none walk = true

instance (walk : List git_commit) : Decidable (LinearHistory walk) :=
  inferInstanceAs (Decidable (linear_from none walk = true))

/-- The derived history of a linear history in the words of the claim, as
pairs (original commit, derived commit): a commit is emitted when its
filtered tree has an entry and differs from the tree of the most recently
emitted commit `last` (or nothing was emitted yet); the derived commit
has `last` as its only parent (no parent when nothing was emitted yet). -/
def linear_emitted (id : include_dirs) :
    Option git_commit → List git_commit → Except Fatal (List (git_commit × git_commit))
  | _, [] => .ok []
  | last, c :: rest =>
    match filtered_tree id (git_commit_tree c) with
    | .error e => .error e
    | .ok t =>
      if t ≠ [] ∧ ∀ l ∈ last, git_commit_tree l ≠ t then
        let newc : git_commit :=
          .mk t last.toList (git_commit_author c) (git_commit_committer c)
            (git_commit_message c)
        match linear_emitted id (some newc) rest with
        | .error e => .error e
        | .ok pairs => .ok ((c, newc) :: pairs)
      else linear_emitted id last rest

/-- State of repository and filter after the pairs (original, derived) were
emitted in order. -/
def after_emitting (repo : git_repository) (tf : tree_filter)
    (pairs : List (git_commit × git_commit)) : git_repository × tree_filter :=
  ({ commits := repo.commits ++ pairs.map Prod.snd },
   { tf with
      last := pairs.foldl (fun _ pr => some pr.2) tf.last,
      revdict := pairs.foldl (fun d pr => dict_add d pr.1 pr.2) tf.revdict })

/-- Every commit of the list has the commit before it as its only parent;
the first has the parents `last.toList`. -/
def ParentChain : Option git_commit → List git_commit → Prop
  | _, [] => True
  | last, n :: rest => git_commit_parents n = last.toList ∧ ParentChain (some n) rest

/-- A path written from its components, with `'/'` between them. -/
def join_path : List CStr → CStr
  | [] => []
  | [s] => s
  | s :: t :: rest => s ++ SLASH :: join_path (t :: rest)

/-- The path with the components `segs` is accounted for by the Include-Set
`dirs`: it leads to a member, to a directory above a member, or into a
member. -/
def Justified (dirs : List CStr) (segs : List CStr) : Prop :=
  ∃ p ∈ dirs, segs <+: path_components p ∨ path_components p <+: segs

/-- Every entry reachable in the tree `t`, itself placed at the components
`pre`, is accounted for by the Include-Set. Paths are taken without a
trailing `'/'` (their last component is not empty). -/
def TreeJustified (dirs : List CStr) (pre : List CStr) (t : git_tree) : Prop :=
  ∀ (segs : List CStr) (e : git_tree_entry), segs.getLast? ≠ some [] →
    bypath_walk t segs = some e → Justified dirs (pre ++ segs)

/-- The names held by the levels `1..i` of the stack. -/
def stack_names (stack : dirstack_t) (i : Nat) : List CStr :=
  (List.range i).map (fun j => ((stack.item (j + 1)).name).getD [])

/-- Invariant of the builder stack with `d` open levels, for C4: the slots
from `d` on are cleared, each level below `d` holds an open builder whose
entries are accounted for by the Include-Set, and each level `1..d-1` has
a name, the names down to it being the first components of a member. -/
def StackJustified (dirs : List CStr) (stack : dirstack_t) (d : Nat) : Prop :=
  1 ≤ d ∧
  (∀ i, d ≤ i → (stack.item i).tb = none ∧ (stack.item i).name = none) ∧
  (∀ i, i < d → ∃ b, (stack.item i).tb = some b ∧
    TreeJustified dirs (stack_names stack i) b) ∧
  (∀ i, 1 ≤ i → i < d → (stack.item i).name ≠ none ∧
    ∃ p ∈ dirs, stack_names stack i <+: path_components p)

/-- The builder level `i` of the stack would hold if the `k` levels above
it were closed now (written and inserted under their names, from the top
down). With `i = 0` and `k = depth - 1` this is the root `stack_close`
writes. -/
def vbuilder (stack : dirstack_t) : Nat → Nat → git_treebuilder
  | i, 0 => ((stack.item i).tb).getD []
  | i, k + 1 =>
    git_treebuilder_insert (((stack.item i).tb).getD [])
      (((stack.item (i + 1)).name).getD []) (.tree (vbuilder stack (i + 1) k))
      GIT_FILEMODE_TREE

/-- The builder on top of a chain of (builder, name of the next level)
pairs, closed from the top down. -/
def vchain : List (git_treebuilder × CStr) → git_treebuilder → git_treebuilder
  | [], top => top
  | (b, n) :: rest, top =>
    git_treebuilder_insert b n (.tree (vchain rest top)) GIT_FILEMODE_TREE

/-- The chain of the `m` levels of the stack from level `j` on: the builder
of each level with the name of the level above it. -/
def stack_chain (stack : dirstack_t) (j : Nat) : Nat → List (git_treebuilder × CStr)
  | 0 => []
  | m + 1 =>
    (((stack.item j).tb).getD [], ((stack.item (j + 1)).name).getD []) ::
      stack_chain stack (j + 1) m

/-- Invariant of the builder stack with `d` open levels, for C3: no level
has an empty name; every path of `done` is found, with its source entry,
in the root the stack would close to; the names down to each open level
are the directory of a path of `srcs`. -/
def StackKeeps (done : List (CStr × git_tree_entry)) (srcs : List CStr) (stack : dirstack_t)
    (d : Nat) : Prop :=
  (∀ i, 1 ≤ i → i < d → (stack.item i).name ≠ some []) ∧
  (∀ qe ∈ done,
    bypath_walk (vbuilder stack 0 (d - 1)) (path_components qe.1) = some qe.2) ∧
  (∀ i, 1 ≤ i → i < d →
    ∃ q ∈ srcs, stack_names stack i <+: (path_components q).dropLast)

/-- A signature used in examples. -/
def example_sig : git_signature := { name := [65], email := [66], time := 0 }

/-- A root commit with an empty tree whose message is the byte `n`. -/
def example_root (n : Nat) : git_commit := .mk [] [] example_sig example_sig [n]

/-- Seventeen different root commits. -/
def example_roots17 : List git_commit := (List.range 17).map (fun n => example_root (n + 1))

/-- A merge of the seventeen roots. -/
def example_octopus17 : git_commit := .mk [] example_roots17 example_sig example_sig [77]

/-- A Revision-Map in which each of the seventeen roots is mapped (to itself). -/
def example_dict17 : dict_t := example_roots17.map (fun r => (r, r))

/-- The chain of the specification: the root `A`. -/
def example_chain_A : git_commit := example_root 1

/-- The chain of the specification: `B`, whose only parent is `A`. -/
def example_chain_B : git_commit := .mk [] [example_chain_A] example_sig example_sig [2]

/-- The chain of the specification: `C`, whose only parent is `B`. -/
def example_chain_C : git_commit := .mk [] [example_chain_B] example_sig example_sig [3]

/-- The rewritten commit of `A`. -/
def example_chain_A' : git_commit :=
  .mk [([97], 33188, .raw 1)] [] example_sig example_sig [1]

/-- The Revision-Map of the chain: `A` is mapped, `B` is not. -/
def example_chain_dict : dict_t := dict_add dict_init example_chain_A example_chain_A'

/-- File mode of a regular file (octal 100644). -/
def GIT_FILEMODE_BLOB : Nat := 33188

/-- A tree with the files `a/x` and `b/z`; `z` is the content of `b/z`. -/
def example_tree_1 (z : Nat) : git_tree :=
  [([97], GIT_FILEMODE_TREE, .tree [([120], GIT_FILEMODE_BLOB, .raw 1)]),
   ([98], GIT_FILEMODE_TREE, .tree [([122], GIT_FILEMODE_BLOB, .raw z)])]

/-- A tree with the files `a/x`, `a/y` and `b/z`. -/
def example_tree_3 (z : Nat) : git_tree :=
  [([97], GIT_FILEMODE_TREE,
      .tree [([120], GIT_FILEMODE_BLOB, .raw 1), ([121], GIT_FILEMODE_BLOB, .raw 2)]),
   ([98], GIT_FILEMODE_TREE, .tree [([122], GIT_FILEMODE_BLOB, .raw z)])]

/-- A filter with the given Include-Set, no commit emitted yet and an empty
Revision-Map. -/
def example_filter (dirs : List CStr) : tree_filter :=
  { name := [102], include_file := [105], id := { dirs := dirs }, last := none,
    revdict := dict_init }

/-- A repository to which no commit was written yet. -/
def example_repo : git_repository := { commits := [] }

/-- The tree with the directory `a` of `example_tree_1` alone. -/
def example_tree_a : git_tree :=
  [([97], GIT_FILEMODE_TREE, .tree [([120], GIT_FILEMODE_BLOB, .raw 1)])]

/-- An original root commit with tree `example_tree_1 z` and message `msg`. -/
def example_orig_root (z msg : Nat) : git_commit :=
  .mk (example_tree_1 z) [] example_sig example_sig [msg]

/-- A rewritten root commit with tree `example_tree_a` and message `msg`. -/
def example_new_root (msg : Nat) : git_commit :=
  .mk example_tree_a [] example_sig example_sig [msg]

/-- A merge of two original roots; its tree differs from theirs in `b/z` only. -/
def example_merge : git_commit :=
  .mk (example_tree_1 5) [example_orig_root 3 1, example_orig_root 4 2]
    example_sig example_sig [3]

/-- The filter `{a}` after both parents of `example_merge` were rewritten. -/
def example_merge_filter : tree_filter :=
  { example_filter [[97]] with
      last := some (example_new_root 2),
      revdict := dict_add (dict_add dict_init (example_orig_root 3 1) (example_new_root 1))
        (example_orig_root 4 2) (example_new_root 2) }

/-- Scenario of the specification, commit 1: adds `a/x` and `b/z`. -/
def example_commit_1 : git_commit := example_orig_root 3 1

/-- Scenario of the specification, commit 2: changes `b/z` only. -/
def example_commit_2 : git_commit :=
  .mk (example_tree_1 4) [example_commit_1] example_sig example_sig [2]

/-- Scenario of the specification, commit 3: adds `a/y`. -/
def example_commit_3 : git_commit :=
  .mk (example_tree_3 4) [example_commit_2] example_sig example_sig [3]

/-- A further commit on top of commit 2 that changes `b/z` only. -/
def example_commit_2b : git_commit :=
  .mk (example_tree_1 5) [example_commit_2] example_sig example_sig [4]

/-- The derived commit of commit 1 under the Include-Set `{a}`. -/
def example_derived_1 : git_commit := example_new_root 1

/-- The derived commit of commit 3 under the Include-Set `{a}`. -/
def example_derived_3 : git_commit :=
  .mk [([97], GIT_FILEMODE_TREE,
        .tree [([120], GIT_FILEMODE_BLOB, .raw 1), ([121], GIT_FILEMODE_BLOB, .raw 2)])]
    [example_derived_1] example_sig example_sig [3]

/-- The filter `{a}` after commit 1 was rewritten. -/
def example_filter_after_1 : tree_filter :=
  { example_filter [[97]] with
      last := some example_derived_1,
      revdict := dict_add dict_init example_commit_1 example_derived_1 }

/-- The path `b/a/.../a` with `n + 1` components. -/
def example_deep_path (n : Nat) : CStr := join_path ([98] :: List.replicate n [97])

/-- A tree in which the file `a` lies below `n` nested directories `a`. -/
def example_deep_tree : Nat → git_tree
  | 0 => [([97], GIT_FILEMODE_BLOB, .raw 1)]
  | n + 1 => [([97], GIT_FILEMODE_TREE, .tree (example_deep_tree n))]

/-- A tree in which the file `a` lies below the directory `b` and `n` nested
directories `a`: its one file is at the path of `n + 2` components
`example_deep_path (n + 1)`. -/
def example_deep_tree_b (n : Nat) : git_tree :=
  [([98], GIT_FILEMODE_TREE, .tree (example_deep_tree n))]

/-- A commit on top of commit 1 that changes `b/z` only (one side of a fork). -/
def example_fork_left : git_commit :=
  .mk (example_tree_1 4) [example_commit_1] example_sig example_sig [5]

/-- A second commit on top of commit 1 that changes `b/z` only (the other
side of the fork). -/
def example_fork_right : git_commit :=
  .mk (example_tree_1 5) [example_commit_1] example_sig example_sig [6]

/-- The merge of the two sides of the fork; it changes `b/z` only. -/
def example_fork_merge : git_commit :=
  .mk (example_tree_1 6) [example_fork_left, example_fork_right] example_sig example_sig [7]

/-- The commit written for the merge of the fork under the Include-Set `{a}`:
its two parents are the same derived commit. -/
def example_fork_derived : git_commit :=
  .mk example_tree_a [example_derived_1, example_derived_1] example_sig example_sig [7]

/-! ## Parent resolver over an explicit commit graph -/

/-- The loop `for (n = 0; n < cpcount; n++)` of `find_new_parents` over the
parents not visited yet; `self` is the recursive call of `find_new_parents`
on an unmapped parent, `none` when that call does not return. -/
def find_new_parents_graph_loop {α β : Type} (dict : α → Option β)
    (self : α → List β → Option (Except Fatal (List β))) :
    List α → List β → Option (Except Fatal (List β))
  | [], commit_list => some (.ok commit_list)
  | old_parent :: rest, commit_list =>
    match dict old_parent with
    | none =>
      match self old_parent commit_list with
      | none => none
      | some (.error e) => some (.error e)
      | some (.ok commit_list1) => find_new_parents_graph_loop dict self rest commit_list1
    | some newc =>
      if commit_list.length ≥ OIDLIST_MAX then some (.error .too_many_parents)
      else find_new_parents_graph_loop dict self rest (commit_list ++ [newc])

/-- The function `find_new_parents` over a commit graph given by its parent
function, in which parent links are free to form a cycle: `parents old`
are the parents `git_commit_parent` delivers for `old`, `dict` is
`dict_lookup` on the Revision-Map. The depth of the recursion is bounded by
`fuel`; the result is `none` when the bound is reached. -/
def find_new_parents_graph {α β : Type} (parents : α → List α) (dict : α → Option β) :
    Nat → α → List β → Option (Except Fatal (List β))
  | 0, _, _ => none
  | fuel + 1, old, commit_list =>
    find_new_parents_graph_loop dict (find_new_parents_graph parents dict fuel)
      (parents old) commit_list

/-- The result of `find_new_parents` as the result over a graph: the list of
the `commit_list_t`. -/
def commit_list_result (r : Except Fatal commit_list_t) : Except Fatal (List git_commit) :=
  match r with
  | .ok cl => .ok cl.list
  | .error e => .error e

/-- The bytes of a text file whose lines are `lines`, each line followed by
a newline. -/
def stream_of_lines : List CStr → List Nat
  | [] => []
  | l :: rest => l ++ NEWLINE :: stream_of_lines rest

/-- A line of text: it holds neither a newline nor a NUL byte. -/
def IsLine (l : CStr) : Prop := NEWLINE ∉ l ∧ 0 ∉ l

/-! ## Configuration file -/

/-- Library `vsnprintf(out, size, format, ...)`, `s` being the text the
format expands to with its arguments: at most `size - 1` bytes of the text
are stored before the terminator, and the length of the whole text is
returned. -/
def vsnprintf (size : Nat) (s : CStr) : CStr × Nat := (s.take (size - 1), s.length)

/-- The function `local_sprintf`, `s` being the text the format expands to
with its arguments. The text is written again to a larger buffer only
when `cnt > BUFLEN`. -/
def local_sprintf (s : CStr) : CStr :=
  let first := vsnprintf BUFLEN s
  let cnt := first.2
  if cnt > BUFLEN then (vsnprintf (cnt + 1) s).1 else first.1

/-- Library `strchr` for a byte other than the terminator: the index of its
first occurrence. -/
def strchr (s : CStr) (c : Nat) : Option Nat :=
  if s.indexOf c < s.length then some (s.indexOf c) else none

/-- The length `CONFIG_KEYLEN` of a key of the configuration file. -/
def CONFIG_KEYLEN : Nat := 5

/-- The macro `VALUE(buf)`, `buf + CONFIG_KEYLEN + 1`, on a line returned by
`local_fgets` that starts with a key, a line of five bytes or more. Behind
the terminator of such a line the buffer holds a second NUL: `local_fgets`
overwrites the last byte `fgets` stored and leaves the terminator of `fgets`
behind it. So for a line of exactly five bytes the pointer is at that
second NUL and the value is the empty string; for a longer line it is the
text from the seventh byte on. -/
def VALUE (buf : CStr) : CStr := buf.drop (CONFIG_KEYLEN + 1)

/-- The key text `"REPO: "`. -/
def KEY_REPO : CStr := [82, 69, 80, 79, 58, 32]

/-- The key text `"TPFX: "`. -/
def KEY_TPFX : CStr := [84, 80, 70, 88, 58, 32]

/-- The key text `"REVN: "`. -/
def KEY_REVN : CStr := [82, 69, 86, 78, 58, 32]

/-- The key text `"BASE: "`. -/
def KEY_BASE : CStr := [66, 65, 83, 69, 58, 32]

/-- The key text `"FILT: "`. -/
def KEY_FILT : CStr := [70, 73, 76, 84, 58, 32]

/-- The byte of the blank. -/
def BLANK : Nat := 32

/-- The byte `'#'`. -/
def HASH : Nat := 35

/-- The globals `parse_config_file` fills (`git_repo_name`, `git_tag_prefix`,
`rev_type`, `rev_string`, `tf_list` with `tf_len` its length) and its locals
`base` and `lineno`. In an element of `tf_list` only `name` and
`include_file` are assigned here. -/
structure config_t where
  git_repo_name : Option CStr
  git_tag_prefix : Option CStr
  rev_type : Option CStr
  rev_string : Option CStr
  tf_list : List tree_filter
  base : Option CStr
  lineno : Nat
  deriving DecidableEq

/-- The globals at the start of the program. -/
def config_zero : config_t :=
  { git_repo_name := none, git_tag_prefix := none, rev_type := none, rev_string := none,
    tf_list := [], base := none, lineno := 0 }

/-- The block `if (!strncmp(e, "REPO: ", CONFIG_KEYLEN))` of `parse_config_file`. -/
def parse_config_repo (e : CStr) (st : config_t) : Except Fatal config_t :=
  if strncmp e KEY_REPO CONFIG_KEYLEN = 0 then
    if st.git_repo_name ≠ none then .error .one_repository
    else
      .ok { st with git_repo_name := some (VALUE e) }
  else .ok st

/-- The block `if (!strncmp(e, "TPFX: ", CONFIG_KEYLEN))` of `parse_config_file`. -/
def parse_config_tpfx (e : CStr) (st : config_t) : Except Fatal config_t :=
  if strncmp e KEY_TPFX CONFIG_KEYLEN = 0 then
    if st.git_tag_prefix ≠ none then .error .one_tpfx
    else
      .ok { st with git_tag_prefix := some (VALUE e) }
  else .ok st

/-- The block `if (!strncmp(e, "REVN: ", CONFIG_KEYLEN))` of `parse_config_file`:
the value is cut at its first blank into `rev_type` and `rev_string`. -/
def parse_config_revn (e : CStr) (st : config_t) : Except Fatal config_t :=
  if strncmp e KEY_REVN CONFIG_KEYLEN = 0 then
    if st.rev_type ≠ none then .error .one_revision
    else
      let v := VALUE e
      match strchr v BLANK with
      | none => .error .no_revision_string
      | some i => .ok { st with rev_type := some (v.take i), rev_string := some (v.drop (i + 1)) }
  else .ok st

/-- The block `if (!strncmp(e, "BASE: ", CONFIG_KEYLEN))` of `parse_config_file`. -/
def parse_config_base (e : CStr) (st : config_t) : Except Fatal config_t :=
  if strncmp e KEY_BASE CONFIG_KEYLEN = 0 then
    .ok { st with base := some (VALUE e) }
  else .ok st

/-- The block `if (!strncmp(e, "FILT: ", CONFIG_KEYLEN))` of `parse_config_file`:
the value is cut at its first blank into the name of the filter and the
path of its include file; with a `base` the path is
`local_sprintf("%s%s", base, file)`. The fields of the new element other
than `name` and `include_file` are not assigned. -/
def parse_config_filt (e : CStr) (st : config_t) : Except Fatal config_t :=
  if strncmp e KEY_FILT CONFIG_KEYLEN = 0 then
    let v := VALUE e
    match strchr v BLANK with
    | none => .error .invalid_filter
    | some i =>
      let name := v.take i
      let file := v.drop (i + 1)
      let file1 :=
        match st.base with
        | some base => local_sprintf (base ++ file)
        | none => file
      .ok { st with
        tf_list := st.tf_list ++
          [{ name := name, include_file := file1, id := { dirs := [] }, last := none,
             revdict := dict_init }] }
  else .ok st

/-- The body of the loop of `parse_config_file` for the line `e`. -/
def parse_config_line (e : CStr) (st : config_t) : Except Fatal config_t :=
  if charAt e 0 = HASH then .ok st
  else
    match parse_config_repo e st with
    | .error err => .error err
    | .ok st1 =>
      match parse_config_tpfx e st1 with
      | .error err => .error err
      | .ok st2 =>
        match parse_config_revn e st2 with
        | .error err => .error err
        | .ok st3 =>
          match parse_config_base e st3 with
          | .error err => .error err
          | .ok st4 => parse_config_filt e st4

/-- The loop `while(!feof(f))` of `parse_config_file`. -/
def parse_config_loop : Nat → FILE → config_t → Except Fatal config_t
  | 0, _, _ => .error .undefined_behaviour
  | fuel + 1, f, st =>
    if feof f then .ok st
    else
      match local_fgets f with
      | .error err => .error err
      | .ok (none, _) => .ok st
      | .ok (some e, f1) =>
        match parse_config_line e { st with lineno := st.lineno + 1 } with
        | .error err => .error err
        | .ok st1 => parse_config_loop fuel f1 st1

/-- The function `parse_config_file`; `cfgfile` is `none` when `fopen` fails. -/
def parse_config_file (cfgfile : Option FILE) : Except Fatal config_t :=
  match cfgfile with
  | none => .error .cannot_open
  | some f =>
    match parse_config_loop (f.data.length + 2) f config_zero with
    | .error err => .error err
    | .ok st =>
      if st.rev_string = none then .error .no_revn
      else if st.git_tag_prefix = none then .error .no_tpfx
      else if st.git_repo_name = none then .error .no_repo
      else if st.tf_list.length = 0 then .error .no_filter
      else .ok st

/-- The Include-File path the specification records for a filter line: the
base, if there is one, followed by the path written on the line. -/
def include_path_spec (base : Option CStr) (file : CStr) : CStr :=
  match base with
  | some b => b ++ file
  | none => file

/-- A base directory of 64 bytes: 63 times `d`, then `'/'`. -/
def example_base : CStr := List.replicate 63 100 ++ [SLASH]

/-- A file name of 64 bytes: 64 times `f`. -/
def example_include_name : CStr := List.replicate 64 102

/-- A configuration file with the lines `REPO: r`, `TPFX: t`, `REVN: ref m`,
`BASE: ` followed by `base` and `FILT: n ` followed by `file`. -/
def example_config (base file : CStr) : FILE :=
  { data := stream_of_lines
      [KEY_REPO ++ [114], KEY_TPFX ++ [116], KEY_REVN ++ [114, 101, 102, 32, 109],
       KEY_BASE ++ base, KEY_FILT ++ [110, 32] ++ file],
    eof := false }

/-! ## The program -/

/-- The references of the repository: name and target of each. -/
abbrev git_refdb := List (CStr × git_commit)

/-- Library `git_reference_create`: a direct reference `name` to the commit
`id`; an existing reference of that name is replaced when `force` is set
and is an error otherwise. -/
def git_reference_create (refs : git_refdb) (name : CStr) (id : git_commit) (force : Bool) :
    Except Fatal git_refdb :=
  if refs.any (fun r => decide (r.1 = name)) then
    if force then .ok ((name, id) :: refs.filter (fun r => decide (r.1 ≠ name)))
    else .error .git2_error
  else .ok ((name, id) :: refs)

/-- What the program leaves behind: the references of the repository and
the revision-map files written by `rev_info_dump` (path and content). -/
structure output_t where
  refs : git_refdb
  revinfo : List (CStr × dict_t)
  deriving DecidableEq

/-- The text `"refs/heads/"`. -/
def REFS_HEADS : CStr := [114, 101, 102, 115, 47, 104, 101, 97, 100, 115, 47]

/-- The text `".revinfo"`. -/
def DOT_REVINFO : CStr := [46, 114, 101, 118, 105, 110, 102, 111]

/-- The function `rev_info_dump`: the map is written to the file
`local_sprintf("%s.revinfo", filename)`; `writable` tells for which paths
`fopen(path, "w")` succeeds. -/
def rev_info_dump (writable : CStr → Bool) (out : output_t) (d : dict_t) (filename : CStr) :
    Except Fatal output_t :=
  let full_path := local_sprintf (filename ++ DOT_REVINFO)
  if writable full_path then .ok { out with revinfo := out.revinfo ++ [(full_path, d)] }
  else .error .cannot_open

/-- The function `tree_filter_init`; `file` is the include file of the filter
as `fopen` finds it. `include_dirs_init` is handed the field `id` as it is
(its count is `tf.id.dirs.length`). The field `last` is not assigned. -/
def tree_filter_init (tf : tree_filter) (file : Option FILE) : Except Fatal tree_filter :=
  match include_dirs_init tf.id.dirs.length file with
  | .error e => .error e
  | .ok id => .ok { tf with id := id, revdict := dict_init }

/-- The loop `for (i = 0; i < tf_len; i++) tree_filter_init(&tf_list[i], repo)`
of `main`; `files` gives the file `fopen` finds at a path. -/
def main_init (files : CStr → Option FILE) : List tree_filter → Except Fatal (List tree_filter)
  | [] => .ok []
  | tf :: rest =>
    match tree_filter_init tf (files tf.include_file) with
    | .error e => .error e
    | .ok tf1 =>
      match main_init files rest with
      | .error e => .error e
      | .ok rest1 => .ok (tf1 :: rest1)

/-- The loop `for (i = 0; i < tf_len; i++) create_commit(&tf_list[i], ...)` of
the walk of `main`, for one commit. -/
def main_create_commits (tree : git_tree) (commit : git_commit) :
    List tree_filter → git_repository → Except Fatal (git_repository × List tree_filter)
  | [], repo => .ok (repo, [])
  | tf :: rest, repo =>
    match create_commit repo tf tree commit (git_commit_id commit) with
    | .error e => .error e
    | .ok (repo1, tf1) =>
      match main_create_commits tree commit rest repo1 with
      | .error e => .error e
      | .ok (repo2, rest1) => .ok (repo2, tf1 :: rest1)

/-- The loop `while (!git_revwalk_next(&commit_oid, walker))` of `main` over
the commits the walker yields. -/
def main_walk : List git_commit → git_repository → List tree_filter →
    Except Fatal (git_repository × List tree_filter)
  | [], repo, tfs => .ok (repo, tfs)
  | commit :: rest, repo, tfs =>
    match main_create_commits (git_commit_tree commit) commit tfs repo with
    | .error e => .error e
    | .ok (repo1, tfs1) => main_walk rest repo1 tfs1

/-- The last loop of `main`: for every filter a reference
`refs/heads/<prefix><name>` to `git_commit_id(tf->last)` is created and the
Revision-Map is dumped. The pointer `tf->last` is read without a test; it
holds a value only after `create_commit` has written a commit for the
filter (the array of filters comes from `realloc`, and neither
`parse_config_file` nor `tree_filter_init` assigns the field). -/
def main_finalize ( git_tag_prefix : CStr) (writable : CStr → Bool) :
    List tree_filter → output_t → Except Fatal output_t
  | [], out => .ok out
  | tf :: rest, out =>
    match tf.last with
    | none => .error .undefined_behaviour
    | some last =>
      let commit_id := git_commit_id last
      let tag := local_sprintf (REFS_HEADS ++ git_tag_prefix ++ tf.name)
      match git_reference_create out.refs tag commit_id true with
      | .error e => .error e
      | .ok refs1 =>
        match rev_info_dump writable { out with refs := refs1 } tf.revdict tf.name with
        | .error e => .error e
        | .ok out1 => main_finalize git_tag_prefix writable rest out1

/-- The text `"ref"`. -/
def REV_REF : CStr := [114, 101, 102]

/-- The text `"range"`. -/
def REV_RANGE : CStr := [114, 97, 110, 103, 101]

/-- The function `main`. The first argument is the configuration file named
on the command line (`none` when there is no argument), `files` gives the
file `fopen` finds at a path for reading, `writable` the paths that can be
opened for writing, `walker` the commits the revision walk yields for a
revision type and string (oldest first), `refs` the references the
repository has. -/
def main (cfgfile : Option CStr) (files : CStr → Option FILE) (writable : CStr → Bool)
    (walker : CStr → CStr → List git_commit) (refs : git_refdb) :
    Except Fatal (git_repository × output_t) :=
  match cfgfile with
  | none => .error .usage
  | some path =>
    match parse_config_file (files path) with
    | .error e => .error e
    | .ok cfg =>
      match main_init files cfg.tf_list with
      | .error e => .error e
      | .ok tfs =>
        let rev_type := cfg.rev_type.getD []
        let rev_string := cfg.rev_string.getD []
        if strcmp rev_type REV_REF ≠ 0 ∧ strcmp rev_type REV_RANGE ≠ 0 then
          .error .invalid_revision_type
        else
          match main_walk (walker rev_type rev_string) { commits := [] } tfs with
          | .error e => .error e
          | .ok (repo, tfs1) =>
            match main_finalize (cfg.git_tag_prefix.getD []) writable tfs1
                { refs := refs, revinfo := [] } with
            | .error e => .error e
            | .ok out => .ok (repo, out)

/-- A configuration file with the lines `REPO: r`, `TPFX: t`, `REVN: ref m`
and `FILT: n i`: one filter `n` with the include file `i`. -/
def example_config_filter : FILE :=
  { data := stream_of_lines
      [KEY_REPO ++ [114], KEY_TPFX ++ [116], KEY_REVN ++ [114, 101, 102, 32, 109],
       KEY_FILT ++ [110, 32, 105]],
    eof := false }

/-- The files of the example: the configuration file at the path `c` and an
include file with the bytes `text` at the path `i`. -/
def example_files (text : List Nat) : CStr → Option FILE :=
  fun path =>
    if path = [99] then some example_config_filter
    else if path = [105] then some { data := text, eof := false }
    else none

/-- The revision walk of the example: the three commits of the scenario of
the specification, oldest first. -/
def example_walker : CStr → CStr → List git_commit :=
  fun _ _ => [example_commit_1, example_commit_2, example_commit_3]

/-- State of the builder stack with `d` open levels: every level below `d`
has an open builder, the levels `1..d-1` have a name, and the slots from
`d` on are cleared. -/
def StackOpen (stack : dirstack_t) (d : Nat) : Prop :=
  1 ≤ d ∧
  (∀ i, i < d → (stack.item i).tb ≠ none) ∧
  (∀ i, 1 ≤ i → i < d → (stack.item i).name ≠ none) ∧
  (∀ i, d ≤ i → (stack.item i).tb = none ∧ (stack.item i).name = none)

/-- The levels `level`, `level + 1`, ... of the stack hold the names `segs`. -/
def LevelsNamed (stack : dirstack_t) : Nat → List CStr → Prop
  | _, [] => True
  | level, seg :: rest =>
    (stack.item level).name = some seg ∧ LevelsNamed stack (level + 1) rest

/-- The directory segments `d1..dk` of a path: its components without the
last one, the name of the entry. -/
def directory_segments (path : CStr) : List CStr := (path_components path).dropLast

/-- A tree with the files `a/x`, `a/z` and `b/y`. -/
def example_tree_reopen : git_tree :=
  [([97], GIT_FILEMODE_TREE,
      .tree [([120], GIT_FILEMODE_BLOB, .raw 1), ([122], GIT_FILEMODE_BLOB, .raw 3)]),
   ([98], GIT_FILEMODE_TREE, .tree [([121], GIT_FILEMODE_BLOB, .raw 2)])]

/-- A tree with the files `a/b/c` and `a/d`. -/
def example_tree_nested : git_tree :=
  [([97], GIT_FILEMODE_TREE,
      .tree [([98], GIT_FILEMODE_TREE, .tree [([99], GIT_FILEMODE_BLOB, .raw 1)]),
             ([100], GIT_FILEMODE_BLOB, .raw 2)])]

/-- The configuration in the words of the specification: the body of
`parse_config_file` applied to the lines of the file, in order. -/
def parse_config_lines : List CStr → config_t → Except Fatal config_t
  | [], st => .ok st
  | e :: rest, st =>
    match parse_config_line e { st with lineno := st.lineno + 1 } with
    | .error err => .error err
    | .ok st1 => parse_config_lines rest st1

/-- The relation of the specification between two entries: `q` is `p`
followed by `'/'` and more text (text of at least one byte). -/
def DirectoryPrefix (p q : CStr) : Prop := ∃ r : CStr, r ≠ [] ∧ q = p ++ SLASH :: r

/-- The builder stack after `stack_add` of the file `a/x` on `stack_open`:
the root and the level `a`, which holds `x`. -/
def example_stack_a : dirstack_t :=
  { item := fun l =>
      if l = 0 then { tb := some [], name := none }
      else if l = 1 then
        { tb := some [([120], GIT_FILEMODE_BLOB, .raw 1)], name := some [97] }
      else dirstack_item_zero,
    depth := 2 }

/-! ## Theorems: C strings and sorting -/

theorem strcmp_self (a : CStr) : strcmp a a = 0 := by
  induction a with
  | nil => rfl
  | cons x xs ih => simp [strcmp, ih]

theorem strcmp_eq_zero_iff (a b : CStr) : strcmp a b = 0 ↔ a = b := by
  induction a generalizing b with
  | nil => cases b <;> simp [strcmp]
  | cons x xs ih =>
    cases b with
    | nil => simp [strcmp]
    | cons y ys =>
      simp only [strcmp]
      by_cases hxy : x = y
      · simp [hxy, ih]
      · simp only [hxy, if_false, List.cons.injEq, false_and, iff_false]
        split_ifs <;> simp

theorem strcmp_swap (a b : CStr) : strcmp b a = - strcmp a b := by
  induction a generalizing b with
  | nil => cases b <;> simp [strcmp]
  | cons x xs ih =>
    cases b with
    | nil => simp [strcmp]
    | cons y ys =>
      simp only [strcmp]
      by_cases hxy : x = y
      · simp [hxy, ih]
      · have hyx : ¬ y = x := fun h => hxy h.symm
        simp only [hxy, hyx, if_false]
        by_cases hlt : x < y
        · have : ¬ y < x := by omega
          simp [hlt, this]
        · have : y < x := by omega
          simp [hlt, this]

theorem strcmp_le_trans (a b c : CStr) (hab : strcmp a b ≤ 0) (hbc : strcmp b c ≤ 0) :
    strcmp a c ≤ 0 := by
  induction a generalizing b c with
  | nil => cases c <;> simp [strcmp]
  | cons x xs ih =>
    cases b with
    | nil => simp [strcmp] at hab
    | cons y ys =>
      cases c with
      | nil => simp [strcmp] at hbc
      | cons z zs =>
        simp only [strcmp] at hab hbc ⊢
        by_cases hxy : x = y
        · subst hxy
          by_cases hxz : x = z
          · subst hxz
            simp only [if_true] at hab hbc ⊢
            exact ih ys zs hab hbc
          · simp only [hxz, if_false] at hbc ⊢
            exact hbc
        · simp only [hxy, if_false] at hab
          have hlt : x < y := by
            by_contra hn
            simp [hn] at hab
          by_cases hyz : y = z
          · subst hyz
            simp [hxy, hlt]
          · simp only [hyz, if_false] at hbc
            have hlt2 : y < z := by
              by_contra hn
              simp [hn] at hbc
            have hlt3 : x < z := Nat.lt_trans hlt hlt2
            have hxz : ¬ x = z := Nat.ne_of_lt hlt3
            simp [hxz, hlt3]

theorem strncmp_zero_prefix (prev cur : CStr) (h : strncmp cur prev prev.length = 0) :
    ∃ r, cur = prev ++ r := by
  induction prev generalizing cur with
  | nil => exact ⟨cur, rfl⟩
  | cons y ys ih =>
    cases cur with
    | nil => simp [strncmp] at h
    | cons x xs =>
      simp only [List.length_cons, strncmp] at h
      by_cases hxy : x = y
      · subst hxy
        simp only [if_true] at h
        obtain ⟨r, hr⟩ := ih xs h
        exact ⟨r, by rw [hr]; rfl⟩
      · simp only [hxy, if_false] at h
        split_ifs at h
        simp at h

theorem strncmp_prefix_zero (prev r : CStr) : strncmp (prev ++ r) prev prev.length = 0 := by
  induction prev with
  | nil => simp [strncmp]
  | cons y ys ih => simp [strncmp, ih]

theorem charAt_append_length (prev r : CStr) : charAt (prev ++ r) prev.length = r.headD 0 := by
  unfold charAt
  induction prev with
  | nil => cases r <;> simp
  | cons y ys ih => simpa using ih

/-- The two tests of the validation loop on neighbours `prev`, `cur` detect
exactly that `cur` lies inside the directory `prev`. -/
theorem subdir_test_iff (prev cur : CStr) :
    (strncmp cur prev (strlen prev) = 0 ∧ charAt cur (strlen prev) = SLASH) ↔
      IsSubdirOf cur prev := by
  unfold strlen
  constructor
  · rintro ⟨h1, h2⟩
    obtain ⟨r, rfl⟩ := strncmp_zero_prefix prev cur h1
    rw [charAt_append_length] at h2
    cases r with
    | nil => simp [SLASH] at h2
    | cons c r' =>
      simp only [List.headD_cons] at h2
      exact ⟨r', by rw [h2]⟩
  · rintro ⟨r, rfl⟩
    exact ⟨strncmp_prefix_zero prev _, by rw [charAt_append_length]; rfl⟩

theorem qsort_insert_perm (x : CStr) (l : List CStr) :
    (qsort_insert sort_string x l).Perm (x :: l) := by
  induction l with
  | nil => exact List.Perm.refl _
  | cons y ys ih =>
    simp only [qsort_insert]
    split_ifs
    · exact List.Perm.refl _
    · exact (List.Perm.cons y ih).trans (List.Perm.swap x y ys)

theorem qsort_perm (l : List CStr) : (qsort sort_string l).Perm l := by
  induction l with
  | nil => exact List.Perm.refl _
  | cons x xs ih =>
    simp only [qsort]
    exact (qsort_insert_perm x _).trans (List.Perm.cons x ih)

theorem qsort_insert_sorted (x : CStr) (l : List CStr)
    (h : l.Pairwise (fun a b => strcmp a b ≤ 0)) :
    (qsort_insert sort_string x l).Pairwise (fun a b => strcmp a b ≤ 0) := by
  induction l with
  | nil => simp [qsort_insert]
  | cons y ys ih =>
    simp only [qsort_insert]
    rw [List.pairwise_cons] at h
    split_ifs with hxy
    · refine List.Pairwise.cons ?_ (List.Pairwise.cons h.1 h.2)
      intro z hz
      rcases List.mem_cons.1 hz with rfl | hz
      · exact hxy
      · exact strcmp_le_trans x y z hxy (h.1 z hz)
    · refine List.Pairwise.cons ?_ (ih h.2)
      intro z hz
      rcases List.mem_cons.1 ((qsort_insert_perm x ys).subset hz) with rfl | hz
      · have := strcmp_swap z y
        unfold sort_string at hxy
        omega
      · exact h.1 z hz

theorem qsort_sorted (l : List CStr) :
    (qsort sort_string l).Pairwise (fun a b => strcmp a b ≤ 0) := by
  induction l with
  | nil => simp [qsort]
  | cons x xs ih => exact qsort_insert_sorted x _ ih

theorem include_dirs_check_ok (l : List CStr) (hdup : l.Nodup)
    (hsub : ∀ p ∈ l, ∀ q ∈ l, ¬ IsSubdirOf q p) : include_dirs_check l = .ok () := by
  induction l with
  | nil => rfl
  | cons prev t ih =>
    cases t with
    | nil => rfl
    | cons cur rest =>
      have hne : ¬ strcmp cur prev = 0 := by
        rw [strcmp_eq_zero_iff]
        rintro rfl
        simp at hdup
      have hns : ¬ (strncmp cur prev (strlen prev) = 0 ∧ charAt cur (strlen prev) = SLASH) := by
        rw [subdir_test_iff]
        exact hsub prev (by simp) cur (by simp)
      simp only [include_dirs_check, hne, hns, if_false]
      exact ih (List.nodup_cons.1 hdup).2
        (fun p hp q hq => hsub p (List.mem_cons_of_mem _ hp) q (List.mem_cons_of_mem _ hq))

/-! ## Theorems: Include-Set validation -/

/-- C1: the validation of `include_dirs_init` compares neighbours of the
sorted array only. The file with the lines `a`, `a.b`, `a/sub` is accepted
although `a/sub` lies inside `a`: `a.b` sorts between the two (`'.'` is
byte 46, `'/'` is byte 47). The file with the lines `a`, `a/sub` alone is
rejected. The count of the struct is zero on entry. -/
theorem include_dirs_init_misses_overlap :
    include_dirs_init 0
        (some { data := [97, 10, 97, 46, 98, 10, 97, 47, 115, 117, 98, 10], eof := false })
      = .ok { dirs := [[97], [97, 46, 98], [97, 47, 115, 117, 98]] } ∧
    IsSubdirOf [97, 47, 115, 117, 98] [97] ∧
    include_dirs_init 0 (some { data := [97, 10, 97, 47, 115, 117, 98, 10], eof := false })
      = .error (.subdir [97, 47, 115, 117, 98] [97]) := by
  refine ⟨by decide, ⟨[115, 117, 98], rfl⟩, by decide⟩

/-! ## Theorems: parent resolver -/

mutual
theorem find_new_parents_eq : ∀ (c : git_commit) (m : dict_t) (cl : commit_list_t),
    cl.list.length ≤ OIDLIST_MAX →
    find_new_parents c m cl =
      if cl.list.length + (resolve_parents c m).length ≤ OIDLIST_MAX then
        .ok { list := cl.list ++ resolve_parents c m }
      else .error .too_many_parents
  | .mk _ parents _ _ _, m, cl, hcl => by
    simp only [find_new_parents, resolve_parents]
    exact find_new_parents_loop_eq parents m cl hcl
theorem find_new_parents_loop_eq : ∀ (ps : List git_commit) (m : dict_t) (cl : commit_list_t),
    cl.list.length ≤ OIDLIST_MAX →
    find_new_parents_loop ps m cl =
      if cl.list.length + (resolve_parents_list ps m).length ≤ OIDLIST_MAX then
        .ok { list := cl.list ++ resolve_parents_list ps m }
      else .error .too_many_parents
  | [], m, cl, hcl => by
    simp [find_new_parents_loop, resolve_parents_list, hcl]
  | p :: rest, m, cl, hcl => by
    simp only [find_new_parents_loop, resolve_parents_list]
    cases hlook : dict_lookup m (git_commit_id p) with
    | some newc =>
      simp only [commit_list_t.len, ge_iff_le, List.length_append, List.length_singleton]
      by_cases hfull : OIDLIST_MAX ≤ cl.list.length
      · have hno : ¬ cl.list.length + (1 + (resolve_parents_list rest m).length) ≤ OIDLIST_MAX := by
          omega
        simp [hfull, hno]
      · have hcl1 : ({ list := cl.list ++ [newc] } : commit_list_t).list.length ≤ OIDLIST_MAX := by
          simp only [List.length_append, List.length_singleton]; omega
        rw [if_neg hfull, find_new_parents_loop_eq rest m _ hcl1]
        simp only [List.length_append, List.length_singleton, List.append_assoc,
          List.singleton_append]
        have : cl.list.length + 1 + (resolve_parents_list rest m).length =
            cl.list.length + (1 + (resolve_parents_list rest m).length) := by omega
        rw [this]
    | none =>
      simp only [List.length_append]
      rw [find_new_parents_eq p m cl hcl]
      by_cases h1 : cl.list.length + (resolve_parents p m).length ≤ OIDLIST_MAX
      · have hcl1 : ({ list := cl.list ++ resolve_parents p m } : commit_list_t).list.length
            ≤ OIDLIST_MAX := by
          simp only [List.length_append]; exact h1
        simp only [if_pos h1]
        rw [find_new_parents_loop_eq rest m _ hcl1]
        simp only [List.length_append, List.append_assoc, Nat.add_assoc]
      · have hno : ¬ cl.list.length +
            ((resolve_parents p m).length + (resolve_parents_list rest m).length)
              ≤ OIDLIST_MAX := by omega
        simp only [if_neg h1, if_neg hno]
end

theorem resolve_parents_list_eq_bind (ps : List git_commit) (m : dict_t) :
    resolve_parents_list ps m =
      ps.flatMap (fun p =>
        match dict_lookup m (git_commit_id p) with
        | some newc => [newc]
        | none => resolve_parents p m) := by
  induction ps with
  | nil => simp [resolve_parents_list]
  | cons p rest ih => simp [resolve_parents_list, ih]

theorem resolve_parents_eq_bind (c : git_commit) (m : dict_t) :
    resolve_parents c m =
      (git_commit_parents c).flatMap (fun p =>
        match dict_lookup m (git_commit_id p) with
        | some newc => [newc]
        | none => resolve_parents p m) := by
  cases c with
  | mk t ps a co msg =>
    simp only [resolve_parents, git_commit_parents]
    exact resolve_parents_list_eq_bind ps m

mutual
theorem resolve_parents_nearest : ∀ (c : git_commit) (m : dict_t) (h : git_commit),
    h ∈ resolve_parents c m → NearestMapped m c h
  | .mk t ps a co msg, m, h, hmem => by
    simp only [resolve_parents] at hmem
    obtain ⟨p, hp, hcase⟩ := resolve_parents_list_nearest ps m h hmem
    rcases hcase with hd | ⟨hn, hrec⟩
    · exact NearestMapped.direct _ p h hp hd
    · exact NearestMapped.skip _ p h hp hn hrec
theorem resolve_parents_list_nearest : ∀ (ps : List git_commit) (m : dict_t) (h : git_commit),
    h ∈ resolve_parents_list ps m →
      ∃ p ∈ ps, dict_lookup m (git_commit_id p) = some h ∨
        (dict_lookup m (git_commit_id p) = none ∧ NearestMapped m p h)
  | [], m, h, hmem => by simp [resolve_parents_list] at hmem
  | p :: rest, m, h, hmem => by
    simp only [resolve_parents_list, List.mem_append] at hmem
    rcases hmem with hhead | htail
    · cases hlook : dict_lookup m (git_commit_id p) with
      | some newc =>
        rw [hlook] at hhead
        simp only [List.mem_singleton] at hhead
        exact ⟨p, List.mem_cons_self _ _, Or.inl (by rw [hhead]; exact hlook)⟩
      | none =>
        rw [hlook] at hhead
        exact ⟨p, List.mem_cons_self _ _, Or.inr ⟨hlook, resolve_parents_nearest p m h hhead⟩⟩
    · obtain ⟨q, hq, hcase⟩ := resolve_parents_list_nearest rest m h htail
      exact ⟨q, List.mem_cons_of_mem _ hq, hcase⟩
end

theorem resolve_parents_list_length_le (ps : List git_commit) (m : dict_t) (p : git_commit)
    (hp : p ∈ ps) (hnone : dict_lookup m (git_commit_id p) = none) :
    (resolve_parents p m).length ≤ (resolve_parents_list ps m).length := by
  induction ps with
  | nil => simp at hp
  | cons q rest ih =>
    simp only [resolve_parents_list, List.length_append]
    rcases List.mem_cons.1 hp with rfl | hmem
    · rw [hnone]; simp only []; omega
    · have := ih hmem; omega

theorem resolve_parents_length_le (c : git_commit) (m : dict_t) (p : git_commit)
    (hp : p ∈ git_commit_parents c) (hnone : dict_lookup m (git_commit_id p) = none) :
    (resolve_parents p m).length ≤ (resolve_parents c m).length := by
  cases c with
  | mk t ps a co msg =>
    simp only [resolve_parents]
    exact resolve_parents_list_length_le ps m p hp hnone

/-- C5 (amended): whenever the concatenation has at most `OIDLIST_MAX = 16`
elements, `find_new_parents c m` called with an empty list returns it: over
the original parents `p` of `c` in order, `[m(p)]` when `p` is mapped and
the result of `find_new_parents p m` when it is not; and every returned
commit is the image of a nearest mapped ancestor of `c`. -/
theorem find_new_parents_resolves (c : git_commit) (m : dict_t)
    (hlen : (resolve_parents c m).length ≤ OIDLIST_MAX) :
    find_new_parents c m { list := [] } = .ok { list := resolve_parents c m } ∧
    resolve_parents c m =
      (git_commit_parents c).flatMap (fun p =>
        match dict_lookup m (git_commit_id p) with
        | some newc => [newc]
        | none => resolve_parents p m) ∧
    (∀ p ∈ git_commit_parents c, dict_lookup m (git_commit_id p) = none →
      find_new_parents p m { list := [] } = .ok { list := resolve_parents p m }) ∧
    (∀ h ∈ resolve_parents c m, NearestMapped m c h) := by
  refine ⟨?_, resolve_parents_eq_bind c m, ?_, fun h hh => resolve_parents_nearest c m h hh⟩
  · rw [find_new_parents_eq c m _ (by simp)]
    simp [hlen]
  · intro p hp hnone
    have hle := resolve_parents_length_le c m p hp hnone
    rw [find_new_parents_eq p m _ (by simp)]
    have : (resolve_parents p m).length ≤ OIDLIST_MAX := Nat.le_trans hle hlen
    simp [this]

/-- Witness of C5: in the chain `A → B → C` with `A` mapped to `A'` and `B`
unmapped, the result for `C` is exactly `[A']`. -/
theorem find_new_parents_resolves_witness :
    find_new_parents example_chain_C example_chain_dict { list := [] }
      = .ok { list := [example_chain_A'] } := by
  have h := (find_new_parents_resolves example_chain_C example_chain_dict (by decide)).1
  rw [h]
  decide

/-- Counterexample to C5 as stated: for a merge of seventeen mapped parents
`find_new_parents` does not return the concatenation (of length 17), it
ends the program with "too many parents". -/
theorem find_new_parents_too_many :
    find_new_parents example_octopus17 example_dict17 { list := [] }
      = .error .too_many_parents ∧
    find_new_parents example_octopus17 example_dict17 { list := [] }
      ≠ .ok { list := resolve_parents example_octopus17 example_dict17 } := by
  refine ⟨by decide, by decide⟩

/-! ## Theorems: commit rewriter -/

theorem filtered_tree_loop_absent (tree : git_tree) (dirs : List CStr) (stack : dirstack_t)
    (h : ∀ p ∈ dirs, git_tree_entry_bypath tree p = none) :
    filtered_tree_loop tree dirs stack = .ok stack := by
  induction dirs with
  | nil => rfl
  | cons p rest ih =>
    simp only [filtered_tree_loop, h p (List.mem_cons_self _ _)]
    exact ih (fun q hq => h q (List.mem_cons_of_mem _ hq))

theorem filtered_tree_absent (id : include_dirs) (tree : git_tree)
    (h : ∀ p ∈ id.dirs, git_tree_entry_bypath tree p = none) :
    filtered_tree id tree = .ok [] := by
  simp only [filtered_tree, filtered_tree_loop_absent tree id.dirs stack_open h]
  rfl

/-- C10: when the tree of a commit has an entry at none of the paths of the
Include-Set, `filtered_tree` returns the tree without entries and
`create_commit` returns with the repository and the filter (its
Revision-Map and `last`) unchanged: nothing is created. -/
theorem create_commit_nothing_included (repo : git_repository) (tf : tree_filter)
    (tree : git_tree) (commit commit_id : git_commit)
    (h : ∀ p ∈ tf.id.dirs, git_tree_entry_bypath tree p = none) :
    filtered_tree tf.id tree = .ok [] ∧ git_tree_entrycount [] = 0 ∧
    create_commit repo tf tree commit commit_id = .ok (repo, tf) := by
  have hft := filtered_tree_absent tf.id tree h
  refine ⟨hft, rfl, ?_⟩
  simp [create_commit, hft, git_tree_entrycount]

/-- Witness of C10: the Include-Set `{c, a/w}` on a tree with `a/x`, `b/z`. -/
theorem create_commit_nothing_included_witness :
    filtered_tree (example_filter [[99], [97, 47, 119]]).id (example_tree_1 3) = .ok [] ∧
    git_tree_entrycount [] = 0 ∧
    create_commit example_repo (example_filter [[99], [97, 47, 119]]) (example_tree_1 3)
        (.mk (example_tree_1 3) [] example_sig example_sig [1])
        (.mk (example_tree_1 3) [] example_sig example_sig [1])
      = .ok (example_repo, example_filter [[99], [97, 47, 119]]) :=
  create_commit_nothing_included example_repo (example_filter [[99], [97, 47, 119]])
    (example_tree_1 3) _ _ (by decide)

/-- C8: for a commit with two original parents that are both keys of the
Revision-Map and a filtered tree with at least one entry, `create_commit`
writes a new commit whose parents are exactly the two mapped commits in the
order of the original parents, whatever the trees of those two commits
are; it becomes `last` and the value of the processed identity. -/
theorem create_commit_merge (repo : git_repository) (tf : tree_filter) (tree : git_tree)
    (commit commit_id p1 p2 n1 n2 : git_commit) (new_tree : git_tree)
    (hpar : git_commit_parents commit = [p1, p2])
    (h1 : dict_lookup tf.revdict (git_commit_id p1) = some n1)
    (h2 : dict_lookup tf.revdict (git_commit_id p2) = some n2)
    (hft : filtered_tree tf.id tree = .ok new_tree)
    (hne : git_tree_entrycount new_tree ≠ 0) :
    create_commit repo tf tree commit commit_id =
      .ok ({ commits := repo.commits ++
              [.mk new_tree [n1, n2] (git_commit_author commit)
                (git_commit_committer commit) (git_commit_message commit)] },
           { tf with
              last := some (.mk new_tree [n1, n2] (git_commit_author commit)
                (git_commit_committer commit) (git_commit_message commit)),
              revdict := dict_add tf.revdict commit_id
                (.mk new_tree [n1, n2] (git_commit_author commit)
                  (git_commit_committer commit) (git_commit_message commit)) }) := by
  have hres : resolve_parents commit tf.revdict = [n1, n2] := by
    rw [resolve_parents_eq_bind, hpar]
    simp [h1, h2]
  have hfnp : find_new_parents commit tf.revdict { list := [] } = .ok { list := [n1, n2] } := by
    rw [find_new_parents_eq commit tf.revdict _ (by simp), hres]
    simp [OIDLIST_MAX]
  simp [create_commit, hft, hne, hfnp, commit_list_t.len, git_commit_create]

/-- Witness of C8: a merge whose filtered tree equals the tree of both of its
rewritten parents is written all the same, with both parents in order. -/
theorem create_commit_merge_witness :
    git_commit_tree (example_new_root 1) = example_tree_a ∧
    git_commit_tree (example_new_root 2) = example_tree_a ∧
    create_commit example_repo example_merge_filter (example_tree_1 5) example_merge
        example_merge =
      .ok ({ commits := [.mk example_tree_a [example_new_root 1, example_new_root 2]
                example_sig example_sig [3]] },
           { example_merge_filter with
              last := some (.mk example_tree_a [example_new_root 1, example_new_root 2]
                example_sig example_sig [3]),
              revdict := dict_add example_merge_filter.revdict example_merge
                (.mk example_tree_a [example_new_root 1, example_new_root 2]
                  example_sig example_sig [3]) }) :=
  ⟨rfl, rfl,
    create_commit_merge example_repo example_merge_filter (example_tree_1 5) example_merge
      example_merge (example_orig_root 3 1) (example_orig_root 4 2) (example_new_root 1)
      (example_new_root 2) example_tree_a rfl (by decide) (by decide) (by decide)
      (by decide)⟩

/-! ## Theorems: revision map -/

theorem dict_lookup_add (d : dict_t) (key value k : git_commit) :
    dict_lookup (dict_add d key value) k = if key = k then some value else dict_lookup d k := by
  simp [dict_add, dict_lookup]

theorem revwalk_loop_append (pre rest : List git_commit) (repo : git_repository)
    (tf : tree_filter) :
    revwalk_loop (pre ++ rest) repo tf =
      match revwalk_loop pre repo tf with
      | .error e => .error e
      | .ok (repo1, tf1) => revwalk_loop rest repo1 tf1 := by
  induction pre generalizing repo tf with
  | nil => simp [revwalk_loop]
  | cons c cs ih =>
    simp only [List.cons_append, revwalk_loop]
    cases hstep : create_commit repo tf (git_commit_tree c) c (git_commit_id c) with
    | error e => simp
    | ok st =>
      obtain ⟨repo1, tf1⟩ := st
      simp only []
      exact ih repo1 tf1

/-- What a successful call of `create_commit` does: nothing, or it writes one
commit with the filtered tree and the resolved parents, makes it `last`
and binds the processed identity to it. -/
theorem create_commit_cases (repo : git_repository) (tf : tree_filter) (tree : git_tree)
    (commit commit_id : git_commit) (repo1 : git_repository) (tf1 : tree_filter)
    (h : create_commit repo tf tree commit commit_id = .ok (repo1, tf1)) :
    (repo1 = repo ∧ tf1 = tf) ∨
    ∃ new_tree newc, filtered_tree tf.id tree = .ok new_tree ∧
      newc = .mk new_tree (resolve_parents commit tf.revdict) (git_commit_author commit)
        (git_commit_committer commit) (git_commit_message commit) ∧
      repo1 = { commits := repo.commits ++ [newc] } ∧
      tf1 = { tf with last := some newc, revdict := dict_add tf.revdict commit_id newc } := by
  unfold create_commit at h
  cases hft : filtered_tree tf.id tree with
  | error e => simp [hft] at h
  | ok new_tree =>
    simp only [hft] at h
    by_cases hzero : git_tree_entrycount new_tree = 0
    · simp only [hzero, if_true, Except.ok.injEq, Prod.mk.injEq] at h
      exact Or.inl ⟨h.1.symm, h.2.symm⟩
    · simp only [hzero, if_false] at h
      rw [find_new_parents_eq commit tf.revdict _ (by simp)] at h
      by_cases hlen : (resolve_parents commit tf.revdict).length ≤ OIDLIST_MAX
      · simp only [List.length_nil, Nat.zero_add, hlen, if_true, List.nil_append] at h
        split_ifs at h <;>
          first
          | (simp only [Except.ok.injEq, Prod.mk.injEq] at h
             exact Or.inl ⟨h.1.symm, h.2.symm⟩)
          | (simp only [git_commit_create, Except.ok.injEq, Prod.mk.injEq] at h
             exact Or.inr ⟨new_tree, _, rfl, rfl, h.1.symm, h.2.symm⟩)
      · simp [hlen] at h

theorem revwalk_loop_keys (pre : List git_commit) (repo : git_repository) (tf : tree_filter)
    (repo1 : git_repository) (tf1 : tree_filter)
    (h : revwalk_loop pre repo tf = .ok (repo1, tf1)) (k : git_commit)
    (hk : dict_lookup tf1.revdict k ≠ none) :
    dict_lookup tf.revdict k ≠ none ∨ k ∈ pre := by
  induction pre generalizing repo tf with
  | nil =>
    simp only [revwalk_loop, Except.ok.injEq, Prod.mk.injEq] at h
    rw [← h.2] at hk
    exact Or.inl hk
  | cons c cs ih =>
    simp only [revwalk_loop] at h
    cases hstep : create_commit repo tf (git_commit_tree c) c (git_commit_id c) with
    | error e => simp [hstep] at h
    | ok st =>
      obtain ⟨repo2, tf2⟩ := st
      simp only [hstep] at h
      rcases ih repo2 tf2 h with hk2 | hmem
      · rcases create_commit_cases _ _ _ _ _ _ _ hstep with ⟨_, rfl⟩ | ⟨t, n, _, _, _, rfl⟩
        · exact Or.inl hk2
        · simp only [dict_lookup_add, git_commit_id] at hk2
          by_cases hck : c = k
          · exact Or.inr (by rw [hck]; exact List.mem_cons_self _ _)
          · simp only [hck, if_false] at hk2
            exact Or.inl hk2
      · exact Or.inr (List.mem_cons_of_mem _ hmem)

/-- C9: in a walk that yields no commit twice, started with an empty
Revision-Map, every step of `create_commit` that returns leaves each
binding of the map as it was and adds at most one key, the identity of
the processed commit, which was not a key before. -/
theorem revdict_monotone (walk pre post : List git_commit) (c : git_commit)
    (repo0 repo1 repo2 : git_repository) (tf0 tf1 tf2 : tree_filter)
    (hnodup : walk.Nodup) (hsplit : walk = pre ++ c :: post)
    (hinit : tf0.revdict = dict_init)
    (hpre : revwalk_loop pre repo0 tf0 = .ok (repo1, tf1))
    (hstep : create_commit repo1 tf1 (git_commit_tree c) c (git_commit_id c)
      = .ok (repo2, tf2)) :
    (∀ k v, dict_lookup tf1.revdict k = some v → dict_lookup tf2.revdict k = some v) ∧
    (∀ k, dict_lookup tf2.revdict k ≠ none →
      dict_lookup tf1.revdict k ≠ none ∨ k = git_commit_id c) ∧
    dict_lookup tf1.revdict (git_commit_id c) = none := by
  have hfresh : dict_lookup tf1.revdict (git_commit_id c) = none := by
    by_contra hkey
    rcases revwalk_loop_keys pre repo0 tf0 repo1 tf1 hpre _ hkey with h0 | hmem
    · rw [hinit] at h0
      exact h0 rfl
    · rw [hsplit] at hnodup
      have := (List.nodup_append.1 hnodup).2.2
      exact this hmem (List.mem_cons_self _ _)
  rcases create_commit_cases _ _ _ _ _ _ _ hstep with ⟨_, rfl⟩ | ⟨t, n, _, _, _, rfl⟩
  · exact ⟨fun k v hk => hk, fun k hk => Or.inl hk, hfresh⟩
  · refine ⟨?_, ?_, hfresh⟩
    · intro k v hk
      simp only [dict_lookup_add]
      by_cases hck : git_commit_id c = k
      · rw [hck, hk] at hfresh
        cases hfresh
      · simp only [hck, if_false]
        exact hk
    · intro k hk
      simp only [dict_lookup_add] at hk
      by_cases hck : git_commit_id c = k
      · exact Or.inr hck.symm
      · simp only [hck, if_false] at hk
        exact Or.inl hk

/-- The function `create_commit` in terms of the specification: skip on an
empty filtered tree, fail beyond `OIDLIST_MAX` resolved parents, skip
under the de-duplication rule, and write the commit otherwise. -/
theorem create_commit_eq (repo : git_repository) (tf : tree_filter) (tree : git_tree)
    (commit commit_id : git_commit) :
    create_commit repo tf tree commit commit_id =
      match filtered_tree tf.id tree with
      | .error e => .error e
      | .ok new_tree =>
        if new_tree = [] then .ok (repo, tf)
        else if OIDLIST_MAX < (resolve_parents commit tf.revdict).length then
          .error .too_many_parents
        else if dedup_applies (resolve_parents commit tf.revdict) new_tree = true then
          .ok (repo, tf)
        else
          .ok ({ commits := repo.commits ++
                  [.mk new_tree (resolve_parents commit tf.revdict) (git_commit_author commit)
                    (git_commit_committer commit) (git_commit_message commit)] },
               { tf with
                  last := some (.mk new_tree (resolve_parents commit tf.revdict)
                    (git_commit_author commit) (git_commit_committer commit)
                    (git_commit_message commit)),
                  revdict := dict_add tf.revdict commit_id
                    (.mk new_tree (resolve_parents commit tf.revdict)
                      (git_commit_author commit) (git_commit_committer commit)
                      (git_commit_message commit)) }) := by
  unfold create_commit
  cases hft : filtered_tree tf.id tree with
  | error e => rfl
  | ok new_tree =>
    simp only []
    by_cases hzero : new_tree = []
    · simp [hzero, git_tree_entrycount]
    · have hcount : ¬ git_tree_entrycount new_tree = 0 := by
        simpa [git_tree_entrycount] using hzero
      simp only [hcount, hzero, if_false]
      rw [find_new_parents_eq commit tf.revdict _ (by simp)]
      by_cases hlen : (resolve_parents commit tf.revdict).length ≤ OIDLIST_MAX
      · have hlen2 : ¬ OIDLIST_MAX < (resolve_parents commit tf.revdict).length := by omega
        simp only [List.length_nil, Nat.zero_add, hlen, if_true, List.nil_append, hlen2,
          if_false]
        have hskip : (if ({ list := resolve_parents commit tf.revdict } : commit_list_t).len = 1
            then
              (match ({ list := resolve_parents commit tf.revdict } : commit_list_t).list with
              | parent :: _ => tree_equal (git_commit_tree parent) new_tree
              | [] => false)
            else false) = dedup_applies (resolve_parents commit tf.revdict) new_tree := by
          cases hres : resolve_parents commit tf.revdict with
          | nil => simp [commit_list_t.len, dedup_applies]
          | cons g rest =>
            cases rest with
            | nil => simp [commit_list_t.len, dedup_applies, tree_equal, git_tree_id]
            | cons g2 rest2 => simp [commit_list_t.len, dedup_applies]
        rw [hskip]
        cases dedup_applies (resolve_parents commit tf.revdict) new_tree <;>
          simp [git_commit_create]
      · have hlen2 : OIDLIST_MAX < (resolve_parents commit tf.revdict).length := by omega
        simp [hlen, hlen2]

mutual
theorem resolve_parents_add_irrelevant : ∀ (d : git_commit) (m : dict_t) (c n : git_commit),
    (∀ a, IsAncestor a d → a ≠ c) →
    resolve_parents d (dict_add m c n) = resolve_parents d m
  | .mk t ps a co msg, m, c, n, h => by
    simp only [resolve_parents]
    apply resolve_parents_list_add_irrelevant ps m c n
    intro p hp
    refine ⟨h p (IsAncestor.parent hp), ?_⟩
    intro a ha
    exact h a (IsAncestor.step hp ha)
theorem resolve_parents_list_add_irrelevant : ∀ (ps : List git_commit) (m : dict_t)
    (c n : git_commit),
    (∀ p ∈ ps, p ≠ c ∧ ∀ a, IsAncestor a p → a ≠ c) →
    resolve_parents_list ps (dict_add m c n) = resolve_parents_list ps m
  | [], m, c, n, h => by simp [resolve_parents_list]
  | p :: rest, m, c, n, h => by
    simp only [resolve_parents_list]
    have hp := h p (List.mem_cons_self _ _)
    have hne : ¬ c = git_commit_id p := fun hc => hp.1 hc.symm
    rw [dict_lookup_add, if_neg hne,
      resolve_parents_list_add_irrelevant rest m c n
        (fun q hq => h q (List.mem_cons_of_mem _ hq)),
      resolve_parents_add_irrelevant p m c n hp.2]
end

mutual
theorem resolve_parents_congr : ∀ (d : git_commit) (m m' : dict_t),
    (∀ k, dict_lookup m' k = dict_lookup m k) → resolve_parents d m' = resolve_parents d m
  | .mk t ps a co msg, m, m', h => by
    simp only [resolve_parents]
    exact resolve_parents_list_congr ps m m' h
theorem resolve_parents_list_congr : ∀ (ps : List git_commit) (m m' : dict_t),
    (∀ k, dict_lookup m' k = dict_lookup m k) →
    resolve_parents_list ps m' = resolve_parents_list ps m
  | [], m, m', h => by simp [resolve_parents_list]
  | p :: rest, m, m', h => by
    simp only [resolve_parents_list]
    rw [h, resolve_parents_list_congr rest m m' h, resolve_parents_congr p m m' h]
end

theorem walk_inv_step (pre : List git_commit) (repo repo1 : git_repository)
    (tf tf1 : tree_filter) (c : git_commit)
    (hinv : WalkInv tf.id pre tf.revdict)
    (hpar : ∀ p ∈ git_commit_parents c, p ∈ pre)
    (hstep : create_commit repo tf (git_commit_tree c) c (git_commit_id c)
      = .ok (repo1, tf1)) :
    WalkInv tf.id (pre ++ [c]) tf1.revdict ∧ tf1.id = tf.id := by
  obtain ⟨hA, hB, hC, hD⟩ := hinv
  have hD' : ∀ d ∈ pre ++ [c], ∀ a, IsAncestor a d → a ∈ pre ++ [c] := by
    intro d hd a ha
    rcases List.mem_append.1 hd with hd | hd
    · exact List.mem_append_left _ (hD d hd a ha)
    · simp only [List.mem_singleton] at hd
      subst hd
      cases ha with
      | parent hp => exact List.mem_append_left _ (hpar a hp)
      | step hp hap => exact List.mem_append_left _ (hD _ (hpar _ hp) a hap)
  have hkeep : ∀ t, filtered_tree tf.id (git_commit_tree c) = .ok t →
      (t = [] ∨ dedup_applies (resolve_parents c tf.revdict) t = true) →
      WalkInv tf.id (pre ++ [c]) tf.revdict := by
    intro t hft hcase
    refine ⟨hA, ?_, fun k hk => List.mem_append_left _ (hC k hk), hD'⟩
    intro d hd hnone
    rcases List.mem_append.1 hd with hd | hd
    · exact hB d hd hnone
    · simp only [List.mem_singleton] at hd
      subst hd
      exact ⟨t, hft, hcase⟩
  rw [create_commit_eq] at hstep
  cases hft : filtered_tree tf.id (git_commit_tree c) with
  | error e => simp [hft] at hstep
  | ok t =>
    simp only [hft] at hstep
    by_cases hzero : t = []
    · simp only [hzero, if_true, Except.ok.injEq, Prod.mk.injEq] at hstep
      rw [← hstep.2]
      exact ⟨hkeep t hft (Or.inl hzero), rfl⟩
    · simp only [hzero, if_false] at hstep
      by_cases hlen : OIDLIST_MAX < (resolve_parents c tf.revdict).length
      · simp [hlen] at hstep
      · simp only [hlen, if_false] at hstep
        by_cases hdd : dedup_applies (resolve_parents c tf.revdict) t = true
        · simp only [hdd, if_true, Except.ok.injEq, Prod.mk.injEq] at hstep
          rw [← hstep.2]
          exact ⟨hkeep t hft (Or.inr hdd), rfl⟩
        · simp only [hdd, Bool.false_eq_true, if_false, Except.ok.injEq, Prod.mk.injEq] at hstep
          have hddf : dedup_applies (resolve_parents c tf.revdict) t = false := by
            simpa using hdd
          rw [← hstep.2]
          refine ⟨?_, rfl⟩
          simp only [git_commit_id]
          cases hlook : dict_lookup tf.revdict c with
          | some v =>
            -- the commit is a key already: the same commit is written again
            obtain ⟨t', hft', _, _, hv⟩ := hA c v hlook
            rw [hft] at hft'
            simp only [Except.ok.injEq] at hft'
            subst hft'
            have hsame : ∀ k, dict_lookup (dict_add tf.revdict c
                (.mk t (resolve_parents c tf.revdict) (git_commit_author c)
                  (git_commit_committer c) (git_commit_message c))) k
                = dict_lookup tf.revdict k := by
              intro k
              rw [dict_lookup_add]
              by_cases hck : c = k
              · simp only [hck, if_true]
                rw [← hck, hlook, hv]
              · simp only [hck, if_false]
            have hres : ∀ d, resolve_parents d (dict_add tf.revdict c
                (.mk t (resolve_parents c tf.revdict) (git_commit_author c)
                  (git_commit_committer c) (git_commit_message c)))
                = resolve_parents d tf.revdict :=
              fun d => resolve_parents_congr d _ _ hsame
            refine ⟨?_, ?_, ?_, hD'⟩
            · intro k v' hk
              rw [hsame] at hk
              rw [hres]
              exact hA k v' hk
            · intro d hd hnone
              rw [hsame] at hnone
              rw [hres]
              have hdpre : d ∈ pre := by
                rcases List.mem_append.1 hd with hd | hd
                · exact hd
                · simp only [List.mem_singleton] at hd
                  rw [hd, hlook] at hnone
                  cases hnone
              exact hB d hdpre hnone
            · intro k hk
              rw [hsame] at hk
              exact List.mem_append_left _ (hC k hk)
          | none =>
            have hfresh : c ∉ pre := by
              intro hmem
              obtain ⟨t', hft', hcase⟩ := hB c hmem hlook
              rw [hft] at hft'
              simp only [Except.ok.injEq] at hft'
              subst hft'
              rcases hcase with h0 | h1
              · exact hzero h0
              · exact hdd h1
            have hirr : ∀ d, (d ∈ pre ∨ d = c) → resolve_parents d (dict_add tf.revdict c
                (.mk t (resolve_parents c tf.revdict) (git_commit_author c)
                  (git_commit_committer c) (git_commit_message c)))
                = resolve_parents d tf.revdict := by
              intro d hd
              apply resolve_parents_add_irrelevant
              intro a ha hac
              apply hfresh
              rw [← hac]
              rcases hd with hd | hd
              · exact hD d hd a ha
              · have := hD' d (by rw [hd]; simp) a ha
                rcases List.mem_append.1 this with h | h
                · exact h
                · simp only [List.mem_singleton] at h
                  rw [h] at hac
                  rw [h, hd] at ha
                  rw [h]
                  cases ha with
                  | parent hp => exact hpar c hp
                  | step hp hap => exact hD _ (hpar _ hp) c hap
            refine ⟨?_, ?_, ?_, hD'⟩
            · intro k v hk
              rw [dict_lookup_add] at hk
              by_cases hck : c = k
              · simp only [hck, if_true, Option.some.injEq] at hk
                subst hck
                rw [hirr c (Or.inr rfl)]
                exact ⟨t, hft, hzero, hddf, hk.symm⟩
              · simp only [hck, if_false] at hk
                rw [hirr k (Or.inl (hC k (by rw [hk]; simp)))]
                exact hA k v hk
            · intro d hd hnone
              rw [dict_lookup_add] at hnone
              by_cases hcd : c = d
              · simp [hcd] at hnone
              · simp only [hcd, if_false] at hnone
                have hdpre : d ∈ pre := by
                  rcases List.mem_append.1 hd with hd | hd
                  · exact hd
                  · simp only [List.mem_singleton] at hd
                    exact absurd hd.symm hcd
                rw [hirr d (Or.inl hdpre)]
                exact hB d hdpre hnone
            · intro k hk
              rw [dict_lookup_add] at hk
              by_cases hck : c = k
              · rw [← hck]; simp
              · simp only [hck, if_false] at hk
                exact List.mem_append_left _ (hC k hk)

theorem walk_inv_prefix (walk : List git_commit) (repo0 : git_repository) (tf0 : tree_filter)
    (htopo : TopoOrdered walk) (hinit : tf0.revdict = dict_init)
    (pre : List git_commit) :
    ∀ (post : List git_commit) (repo : git_repository) (tf : tree_filter),
      walk = pre ++ post → revwalk_loop pre repo0 tf0 = .ok (repo, tf) →
      WalkInv tf0.id pre tf.revdict ∧ tf.id = tf0.id := by
  induction pre using List.reverseRecOn with
  | nil =>
    intro post repo tf _ hrun
    simp only [revwalk_loop, Except.ok.injEq, Prod.mk.injEq] at hrun
    rw [← hrun.2, hinit]
    refine ⟨⟨?_, ?_, ?_, ?_⟩, rfl⟩
    · intro k v hk; simp [dict_init, dict_lookup] at hk
    · intro d hd; simp at hd
    · intro k hk; simp [dict_init, dict_lookup] at hk
    · intro d hd; simp at hd
  | append_singleton pre0 c ih =>
    intro post repo tf hsplit hrun
    rw [revwalk_loop_append] at hrun
    cases hpre : revwalk_loop pre0 repo0 tf0 with
    | error e => simp [hpre] at hrun
    | ok st =>
      obtain ⟨repo1, tf1⟩ := st
      simp only [hpre, revwalk_loop] at hrun
      cases hstep : create_commit repo1 tf1 (git_commit_tree c) c (git_commit_id c) with
      | error e => simp [hstep] at hrun
      | ok st2 =>
        obtain ⟨repo2, tf2⟩ := st2
        simp only [hstep, Except.ok.injEq, Prod.mk.injEq] at hrun
        have hsplit2 : walk = pre0 ++ c :: post := by
          rw [hsplit]; simp
        obtain ⟨hinv, hid⟩ := ih (c :: post) repo1 tf1 hsplit2 hpre
        have hpar := htopo pre0 c post hsplit2
        rw [← hid] at hinv
        obtain ⟨hinv2, hid2⟩ := walk_inv_step pre0 repo1 repo2 tf1 tf2 c hinv hpar hstep
        rw [← hrun.2, hid2, hid]
        rw [hid] at hinv2
        exact ⟨hinv2, rfl⟩

theorem dedup_applies_length (l : List git_commit) (t : git_tree)
    (h : dedup_applies l t = true) : l.length = 1 := by
  cases l with
  | nil => simp [dedup_applies] at h
  | cons g rest =>
    cases rest with
    | nil => rfl
    | cons g2 rest2 => simp [dedup_applies] at h

/-- In a state of the walk in which `p`, the only parent of `c`, was
processed and `c` has the filtered tree `t` of `p`, the de-duplication
rule applies to `c` unless `t` is empty. -/
theorem single_parent_dedup (id : include_dirs) (pre : List git_commit) (m : dict_t)
    (c p : git_commit) (t : git_tree) (hinv : WalkInv id pre m) (hp : p ∈ pre)
    (hpar : git_commit_parents c = [p])
    (hftp : filtered_tree id (git_commit_tree p) = .ok t) (hzero : t ≠ []) :
    dedup_applies (resolve_parents c m) t = true := by
  obtain ⟨hA, hB, _, _⟩ := hinv
  have hres : resolve_parents c m =
      (match dict_lookup m (git_commit_id p) with
        | some newc => [newc]
        | none => resolve_parents p m) := by
    rw [resolve_parents_eq_bind c, hpar]
    simp
  rw [hres]
  cases hlook : dict_lookup m (git_commit_id p) with
  | some newc =>
    obtain ⟨t', hft', _, _, hv⟩ := hA p newc hlook
    rw [hftp] at hft'
    simp only [Except.ok.injEq] at hft'
    subst hft'
    simp [dedup_applies, hv, git_commit_tree]
  | none =>
    obtain ⟨t', hft', hcase⟩ := hB p hp hlook
    rw [hftp] at hft'
    simp only [Except.ok.injEq] at hft'
    subst hft'
    rcases hcase with h0 | hd
    · exact absurd h0 hzero
    · exact hd

/-- C6: in a walk that yields every commit after its ancestors, started with
an empty Revision-Map, a commit `c` with exactly one original parent `p`
and the same filtered tree as `p` is not emitted (`create_commit` returns
with the repository and the filter unchanged), and its identity is a key
of the Revision-Map at no point of the walk, whether `p` itself was
emitted or pruned. -/
theorem single_parent_duplicate_pruned (walk pre post : List git_commit) (c p : git_commit)
    (repo0 repo1 : git_repository) (tf0 tf1 : tree_filter) (t : git_tree)
    (htopo : TopoOrdered walk) (hsplit : walk = pre ++ c :: post)
    (hinit : tf0.revdict = dict_init)
    (hpar : git_commit_parents c = [p])
    (hftc : filtered_tree tf0.id (git_commit_tree c) = .ok t)
    (hftp : filtered_tree tf0.id (git_commit_tree p) = .ok t)
    (hpre : revwalk_loop pre repo0 tf0 = .ok (repo1, tf1)) :
    create_commit repo1 tf1 (git_commit_tree c) c (git_commit_id c) = .ok (repo1, tf1) ∧
    ∀ (pre' post' : List git_commit) (repo : git_repository) (tf : tree_filter),
      walk = pre' ++ post' → revwalk_loop pre' repo0 tf0 = .ok (repo, tf) →
      dict_lookup tf.revdict (git_commit_id c) = none := by
  obtain ⟨hinv, hid⟩ :=
    walk_inv_prefix walk repo0 tf0 htopo hinit pre (c :: post) repo1 tf1 hsplit hpre
  have hp : p ∈ pre := htopo pre c post hsplit p (by rw [hpar]; simp)
  constructor
  · rw [create_commit_eq, hid, hftc]
    simp only []
    by_cases hzero : t = []
    · simp [hzero]
    · have hdd := single_parent_dedup tf0.id pre tf1.revdict c p t hinv hp hpar hftp hzero
      have hlen : ¬ OIDLIST_MAX < (resolve_parents c tf1.revdict).length := by
        rw [dedup_applies_length _ _ hdd]
        simp [OIDLIST_MAX]
      simp [hzero, hlen, hdd]
  · intro pre' post' repo tf hsplit' hrun'
    by_contra hkey
    obtain ⟨hinv', _⟩ :=
      walk_inv_prefix walk repo0 tf0 htopo hinit pre' post' repo tf hsplit' hrun'
    have hmem : c ∈ pre' := hinv'.2.2.1 c hkey
    obtain ⟨v, hv⟩ := Option.ne_none_iff_exists'.1 hkey
    obtain ⟨t', hft', hne, hnd, _⟩ := hinv'.1 c v hv
    rw [hftc] at hft'
    simp only [Except.ok.injEq] at hft'
    subst hft'
    obtain ⟨a, b, hab⟩ := List.append_of_mem hmem
    have hp' : p ∈ pre' := by
      have := htopo a c (b ++ post') (by rw [hsplit', hab]; simp) p (by rw [hpar]; simp)
      rw [hab]
      exact List.mem_append_left _ this
    have hdd := single_parent_dedup tf0.id pre' tf.revdict c p t hinv' hp' hpar hftp hne
    rw [hdd] at hnd
    cases hnd

/-! ## Theorems: linear histories -/

theorem topo_ordered_from_sound (walk seen : List git_commit)
    (h : topo_ordered_from seen walk = true) :
    ∀ (pre : List git_commit) (c : git_commit) (post : List git_commit),
      walk = pre ++ c :: post → ∀ p ∈ git_commit_parents c, p ∈ seen ++ pre := by
  induction walk generalizing seen with
  | nil => intro pre c post hsplit; simp at hsplit
  | cons d rest ih =>
    intro pre c post hsplit p hp
    simp only [topo_ordered_from, Bool.and_eq_true, List.all_eq_true,
      decide_eq_true_eq] at h
    cases pre with
    | nil =>
      simp only [List.nil_append, List.cons.injEq] at hsplit
      rw [← hsplit.1] at hp
      simpa using h.1 p hp
    | cons e pre' =>
      simp only [List.cons_append, List.cons.injEq] at hsplit
      have := ih (seen ++ [d]) h.2 pre' c post hsplit.2 p hp
      rw [← hsplit.1]
      simpa using this

theorem topo_ordered_of_check (walk : List git_commit)
    (h : topo_ordered_from [] walk = true) : TopoOrdered walk := by
  intro pre c post hsplit p hp
  simpa using topo_ordered_from_sound walk [] h pre c post hsplit p hp

theorem sizeOf_parent_lt (c p : git_commit) (h : git_commit_parents c = [p]) :
    sizeOf p < sizeOf c := by
  cases c with
  | mk t ps a co msg =>
    simp only [git_commit_parents] at h
    subst h
    simp only [git_commit.mk.sizeOf_spec, List.cons.sizeOf_spec, List.nil.sizeOf_spec]
    omega

theorem resolve_parents_eq_list (c : git_commit) (m : dict_t) :
    resolve_parents c m = resolve_parents_list (git_commit_parents c) m := by
  cases c with
  | mk t ps a co msg => simp [resolve_parents, git_commit_parents]

theorem linear_emitted_chain (id : include_dirs) (walk : List git_commit) :
    ∀ (last : Option git_commit) (pairs : List (git_commit × git_commit)),
      linear_emitted id last walk = .ok pairs → ParentChain last (pairs.map Prod.snd) := by
  induction walk with
  | nil =>
    intro last pairs h
    simp only [linear_emitted, Except.ok.injEq] at h
    rw [← h]
    simp [ParentChain]
  | cons c rest ih =>
    intro last pairs h
    simp only [linear_emitted] at h
    cases hft : filtered_tree id (git_commit_tree c) with
    | error e => simp [hft] at h
    | ok t =>
      simp only [hft] at h
      split_ifs at h with hcond
      · cases hrec : linear_emitted id
            (some (.mk t last.toList (git_commit_author c) (git_commit_committer c)
              (git_commit_message c))) rest with
        | error e => simp [hrec] at h
        | ok pairs' =>
          simp only [hrec, Except.ok.injEq] at h
          rw [← h]
          simp only [List.map_cons, ParentChain]
          exact ⟨rfl, ih _ pairs' hrec⟩
      · exact ih last pairs h

theorem dedup_applies_toList (last : Option git_commit) (t : git_tree) :
    dedup_applies last.toList t = true ↔ ¬ ∀ l ∈ last, git_commit_tree l ≠ t := by
  cases last with
  | none => simp [dedup_applies]
  | some l => simp [dedup_applies]

theorem revwalk_linear_aux (walk : List git_commit) :
    ∀ (prev last : Option git_commit) (repo : git_repository) (tf : tree_filter),
      linear_from prev walk = true →
      resolve_parents_list prev.toList tf.revdict = last.toList →
      (∀ k, dict_lookup tf.revdict k ≠ none →
        ∀ c, walk.head? = some c → sizeOf k < sizeOf c) →
      revwalk_loop walk repo tf =
        match linear_emitted tf.id last walk with
        | .error e => .error e
        | .ok pairs => .ok (after_emitting repo tf pairs) := by
  induction walk with
  | nil =>
    intro prev last repo tf _ _ _
    simp [revwalk_loop, linear_emitted, after_emitting]
  | cons c rest ih =>
    intro prev last repo tf hlin hres hkeys
    simp only [linear_from, Bool.and_eq_true, decide_eq_true_eq] at hlin
    have hresc : resolve_parents c tf.revdict = last.toList := by
      rw [resolve_parents_eq_list, hlin.1, hres]
    have hcfresh : dict_lookup tf.revdict c = none := by
      by_contra hk
      exact Nat.lt_irrefl _ (hkeys c hk c rfl)
    have hnext : ∀ e, rest.head? = some e → sizeOf c < sizeOf e := by
      intro e he
      cases rest with
      | nil => simp at he
      | cons e' rest' =>
        simp only [List.head?_cons, Option.some.injEq] at he
        subst he
        simp only [linear_from, Bool.and_eq_true, decide_eq_true_eq] at hlin
        exact sizeOf_parent_lt e' c (by simpa using hlin.2.1)
    simp only [revwalk_loop, linear_emitted]
    rw [create_commit_eq, hresc]
    cases hft : filtered_tree tf.id (git_commit_tree c) with
    | error e => simp
    | ok t =>
      simp only []
      have hlen : ¬ OIDLIST_MAX < last.toList.length := by
        cases last <;> simp [OIDLIST_MAX]
      have hkeep : revwalk_loop rest repo tf =
          match linear_emitted tf.id last rest with
          | .error e => .error e
          | .ok pairs => .ok (after_emitting repo tf pairs) := by
        apply ih (some c) last repo tf hlin.2
        · simp only [Option.toList, resolve_parents_list, git_commit_id, hcfresh,
            List.append_nil]
          exact hresc
        · intro k hk e he
          exact Nat.lt_trans (hkeys k hk c rfl) (hnext e he)
      by_cases hzero : t = []
      · simp only [hzero, if_true, ne_eq, not_true_eq_false, false_and, if_false]
        exact hkeep
      · by_cases hcond : ∀ l ∈ last, git_commit_tree l ≠ t
        · have hdd : ¬ dedup_applies last.toList t = true := by
            rw [dedup_applies_toList]
            exact fun h => h hcond
          have hcond2 : t ≠ [] ∧ ∀ l ∈ last, git_commit_tree l ≠ t := ⟨hzero, hcond⟩
          simp only [hzero, if_false, hlen, hdd, Bool.false_eq_true, hcond2, if_true]
          have hstep := ih (some c)
            (some (.mk t last.toList (git_commit_author c) (git_commit_committer c)
              (git_commit_message c)))
            { commits := repo.commits ++
                [.mk t last.toList (git_commit_author c) (git_commit_committer c)
                  (git_commit_message c)] }
            { tf with
                last := some (.mk t last.toList (git_commit_author c)
                  (git_commit_committer c) (git_commit_message c)),
                revdict := dict_add tf.revdict (git_commit_id c)
                  (.mk t last.toList (git_commit_author c) (git_commit_committer c)
                    (git_commit_message c)) }
            hlin.2
            (by simp [Option.toList, resolve_parents_list, dict_lookup_add])
            (by
              intro k hk e he
              simp only [dict_lookup_add, git_commit_id] at hk
              by_cases hck : c = k
              · rw [← hck]; exact hnext e he
              · simp only [hck, if_false] at hk
                exact Nat.lt_trans (hkeys k hk c rfl) (hnext e he))
          rw [hstep]
          simp only []
          cases linear_emitted tf.id
            (some (.mk t last.toList (git_commit_author c) (git_commit_committer c)
              (git_commit_message c))) rest with
          | error e => rw [if_pos hcond2]
          | ok pairs => rw [if_pos hcond2]; simp [after_emitting, git_commit_id]
        · have hdd : dedup_applies last.toList t = true := by
            rw [dedup_applies_toList]
            exact hcond
          have hcond2 : ¬ (t ≠ [] ∧ ∀ l ∈ last, git_commit_tree l ≠ t) := fun h => hcond h.2
          simp only [hzero, if_false, hlen, hdd, if_true]
          rw [if_neg hcond2]
          exact hkeep

/-- C7: for a linear history processed oldest first by `create_commit` with
one filter whose Revision-Map starts empty, the walk emits exactly the
commits whose filtered tree has an entry and differs from the tree of the
most recently emitted commit (or before which nothing was emitted), each
derived commit having the previously emitted commit as its only parent
and the first one no parent; the walk fails only where `filtered_tree`
fails. -/
theorem linear_history_rewrite (walk : List git_commit) (repo : git_repository)
    (tf : tree_filter) (hlin : LinearHistory walk) (hinit : tf.revdict = dict_init) :
    revwalk_loop walk repo tf =
      (match linear_emitted tf.id none walk with
        | .error e => .error e
        | .ok pairs => .ok (after_emitting repo tf pairs)) ∧
    ∀ pairs, linear_emitted tf.id none walk = .ok pairs →
      ParentChain none (pairs.map Prod.snd) := by
  refine ⟨?_, fun pairs h => linear_emitted_chain tf.id walk none pairs h⟩
  apply revwalk_linear_aux walk none none repo tf hlin
  · simp [resolve_parents_list]
  · intro k hk
    rw [hinit] at hk
    simp [dict_init, dict_lookup] at hk

/-- Witness of C7: three commits over `a/x`, `a/y`, `b/z` with the
Include-Set `{a}`, commit 2 changing `b/z` only: exactly two derived
commits, and the only parent of the second is the first. -/
theorem linear_history_rewrite_witness :
    LinearHistory [example_commit_1, example_commit_2, example_commit_3] ∧
    revwalk_loop [example_commit_1, example_commit_2, example_commit_3] example_repo
        (example_filter [[97]]) =
      .ok ({ commits := [example_derived_1, example_derived_3] },
           { example_filter [[97]] with
              last := some example_derived_3,
              revdict := [(example_commit_3, example_derived_3),
                          (example_commit_1, example_derived_1)] }) ∧
    git_commit_parents example_derived_3 = [example_derived_1] ∧
    git_commit_parents example_derived_1 = [] := by
  refine ⟨by decide, ?_, rfl, rfl⟩
  rw [(linear_history_rewrite [example_commit_1, example_commit_2, example_commit_3]
    example_repo (example_filter [[97]]) (by decide) rfl).1]
  decide

/-- Witness of C6: commit 2 of the scenario is pruned (its filtered tree is
that of commit 1), and the commit on top of it, which has the pruned
commit 2 as its only parent and the same filtered tree, is pruned too. -/
theorem single_parent_duplicate_pruned_witness :
    create_commit { commits := [example_derived_1] } example_filter_after_1
        (git_commit_tree example_commit_2b) example_commit_2b
        (git_commit_id example_commit_2b)
      = .ok ({ commits := [example_derived_1] }, example_filter_after_1) ∧
    dict_lookup example_filter_after_1.revdict (git_commit_id example_commit_2) = none ∧
    dict_lookup example_filter_after_1.revdict (git_commit_id example_commit_2b) = none := by
  have h := single_parent_duplicate_pruned
    [example_commit_1, example_commit_2, example_commit_2b]
    [example_commit_1, example_commit_2] [] example_commit_2b example_commit_2
    example_repo { commits := [example_derived_1] } (example_filter [[97]])
    example_filter_after_1 example_tree_a
    (topo_ordered_of_check _ (by decide)) rfl rfl rfl (by decide) (by decide)
    (by decide)
  exact ⟨h.1, by decide,
    h.2 [example_commit_1, example_commit_2, example_commit_2b] []
      { commits := [example_derived_1] } example_filter_after_1 (by simp) (by decide)⟩

/-- Witness of C9: the second of two root commits is processed after the
first; the binding of the first stays, the identity of the second is
the one new key. -/
theorem revdict_monotone_witness :
    (∀ k v, dict_lookup example_filter_after_1.revdict k = some v →
      dict_lookup example_merge_filter.revdict k = some v) ∧
    (∀ k, dict_lookup example_merge_filter.revdict k ≠ none →
      dict_lookup example_filter_after_1.revdict k ≠ none ∨
        k = git_commit_id (example_orig_root 4 2)) ∧
    dict_lookup example_filter_after_1.revdict (git_commit_id (example_orig_root 4 2)) = none :=
  revdict_monotone [example_orig_root 3 1, example_orig_root 4 2] [example_orig_root 3 1] []
    (example_orig_root 4 2) example_repo { commits := [example_new_root 1] }
    { commits := [example_new_root 1, example_new_root 2] }
    (example_filter [[97]]) example_filter_after_1 example_merge_filter
    (by decide) rfl rfl (by decide) (by decide)

/-! ## Theorems: sparse tree builder -/

theorem entry_fromname_name (t : git_tree) (x : CStr) (e : git_tree_entry)
    (h : entry_fromname t x = some e) : e.1 = x := by
  unfold entry_fromname at h
  have := List.find?_some h
  simpa using this

theorem entry_fromname_insert (b : git_treebuilder) (n : CStr) (o : git_oid) (m : Nat)
    (x : CStr) :
    entry_fromname (git_treebuilder_insert b n o m) x =
      if x = n then some (n, m, o) else entry_fromname b x := by
  induction b with
  | nil =>
    simp only [git_treebuilder_insert, entry_fromname, List.find?]
    by_cases hx : x = n
    · simp [hx]
    · have : ¬ n = x := fun h => hx h.symm
      simp [hx, this]
  | cons e es ih =>
    simp only [git_treebuilder_insert]
    by_cases hlt : strcmp n e.1 < 0
    · simp only [hlt, if_true, entry_fromname, List.find?]
      by_cases hx : x = n
      · simp [hx]
      · have : ¬ n = x := fun h => hx h.symm
        simp [hx, this]
    · simp only [hlt, if_false]
      by_cases heq : strcmp n e.1 = 0
      · have hne : n = e.1 := (strcmp_eq_zero_iff _ _).1 heq
        simp only [heq, if_true, entry_fromname, List.find?]
        by_cases hx : x = n
        · simp [hx]
        · have h1 : ¬ n = x := fun h => hx h.symm
          have h2 : ¬ e.1 = x := fun h => hx (by rw [hne, h])
          simp [hx, h1, h2]
      · have hne : ¬ n = e.1 := fun h => heq ((strcmp_eq_zero_iff _ _).2 h)
        simp only [heq, if_false]
        unfold entry_fromname at ih ⊢
        simp only [List.find?]
        by_cases hex : e.1 = x
        · have hxn : ¬ x = n := fun h => hne (by rw [hex, h])
          simp [hex, hxn]
        · simp only [hex, decide_False]
          exact ih

theorem bypath_walk_nil_tree (segs : List CStr) : bypath_walk [] segs = none := by
  match segs with
  | [] => rfl
  | [x] => simp [bypath_walk, entry_fromname]
  | x :: y :: rest => simp [bypath_walk, entry_fromname]

theorem tree_justified_insert (dirs : List CStr) (pre : List CStr) (b : git_treebuilder)
    (n : CStr) (o : git_oid) (m : Nat)
    (hb : TreeJustified dirs pre b) (hn : Justified dirs (pre ++ [n]))
    (ho : ∀ sub, o = .tree sub → TreeJustified dirs (pre ++ [n]) sub) :
    TreeJustified dirs pre (git_treebuilder_insert b n o m) := by
  intro segs e hlast hwalk
  match segs with
  | [] => simp [bypath_walk] at hwalk
  | [x] =>
    simp only [bypath_walk, entry_fromname_insert] at hwalk
    by_cases hx0 : x = []
    · simp [hx0] at hwalk
    · simp only [hx0, if_false] at hwalk
      by_cases hxn : x = n
      · rw [hxn]; exact hn
      · simp only [hxn, if_false] at hwalk
        apply hb [x] e hlast
        simp [bypath_walk, hx0, hwalk]
  | x :: y :: rest =>
    simp only [bypath_walk, entry_fromname_insert] at hwalk
    by_cases hx0 : x = []
    · simp [hx0] at hwalk
    · simp only [hx0, if_false] at hwalk
      by_cases hxn : x = n
      · simp only [hxn, if_true] at hwalk
        by_cases htree : git_tree_entry_is_tree (n, m, o) = false
        · simp [htree] at hwalk
        · simp only [htree, if_false] at hwalk
          by_cases hend : y = [] ∧ rest = []
          · exfalso
            apply hlast
            rw [hend.1, hend.2]
            rfl
          · simp only [hend, if_false] at hwalk
            cases o with
            | raw k => simp at hwalk
            | tree sub =>
              simp only at hwalk
              have := ho sub rfl (y :: rest) e (by simpa using hlast) hwalk
              rw [hxn]
              simpa using this
      · simp only [hxn, if_false] at hwalk
        apply hb (x :: y :: rest) e hlast
        simp only [bypath_walk, hx0, if_false]
        exact hwalk

theorem stack_names_succ (stack : dirstack_t) (i : Nat) :
    stack_names stack (i + 1) =
      stack_names stack i ++ [((stack.item (i + 1)).name).getD []] := by
  simp [stack_names, List.range_succ]

theorem stack_names_length (stack : dirstack_t) (i : Nat) :
    (stack_names stack i).length = i := by
  simp [stack_names]

theorem stack_names_congr (s s' : dirstack_t) (i : Nat)
    (h : ∀ j, 1 ≤ j → j ≤ i → (s'.item j).name = (s.item j).name) :
    stack_names s' i = stack_names s i := by
  unfold stack_names
  apply List.map_congr_left
  intro j hj
  rw [h (j + 1) (by omega) (by have := List.mem_range.1 hj; omega)]

theorem stack_justified_congr (dirs : List CStr) (s s' : dirstack_t) (d : Nat)
    (h : s'.item = s.item) (hs : StackJustified dirs s d) : StackJustified dirs s' d := by
  have hn : ∀ i, stack_names s' i = stack_names s i := by
    intro i; unfold stack_names; rw [h]
  obtain ⟨h1, h2, h3, h4⟩ := hs
  refine ⟨h1, ?_, ?_, ?_⟩
  · intro i hi; rw [h]; exact h2 i hi
  · intro i hi; rw [h, hn]; exact h3 i hi
  · intro i hi1 hi2; rw [h, hn]; exact h4 i hi1 hi2

theorem stack_close_level_justified (dirs : List CStr) (s : dirstack_t) (i : Nat)
    (hi : 1 ≤ i) (hs : StackJustified dirs s (i + 1)) :
    ∃ s', stack_close_level s i = .ok s' ∧ StackJustified dirs s' i ∧
      s'.depth = s.depth ∧ ∀ j, j < i → (s'.item j).name = (s.item j).name := by
  obtain ⟨_, h2, h3, h4⟩ := hs
  obtain ⟨tb, htb, hjust⟩ := h3 i (by omega)
  obtain ⟨ptb, hptb, hpjust⟩ := h3 (i - 1) (by omega)
  obtain ⟨hname, p, hp, hpre⟩ := h4 i hi (by omega)
  obtain ⟨nm, hnm⟩ := Option.ne_none_iff_exists'.1 hname
  have hnames_i : stack_names s i = stack_names s (i - 1) ++ [nm] := by
    have := stack_names_succ s (i - 1)
    rw [Nat.sub_add_cancel hi] at this
    rw [this, hnm]
    rfl
  have hclose : stack_close_level s i = .ok (stack_set_item (stack_set_item s (i - 1)
      { s.item (i - 1) with
        tb := some (git_treebuilder_insert ptb nm (git_treebuilder_write tb)
          GIT_FILEMODE_TREE) }) i { tb := none, name := none }) := by
    simp only [stack_close_level, stack_get_item, htb, hnm, hptb]
  refine ⟨_, hclose, ?_, ?_, ?_⟩
  · have hitem : ∀ j, (stack_set_item (stack_set_item s (i - 1)
          { s.item (i - 1) with
            tb := some (git_treebuilder_insert ptb nm (git_treebuilder_write tb)
              GIT_FILEMODE_TREE) }) i { tb := none, name := none }).item j =
        if j = i then { tb := none, name := none }
        else if j = i - 1 then
          { s.item (i - 1) with
            tb := some (git_treebuilder_insert ptb nm (git_treebuilder_write tb)
              GIT_FILEMODE_TREE) }
        else s.item j := by
      intro j
      simp only [stack_set_item]
    have hnames : ∀ k, k < i → stack_names (stack_set_item (stack_set_item s (i - 1)
          { s.item (i - 1) with
            tb := some (git_treebuilder_insert ptb nm (git_treebuilder_write tb)
              GIT_FILEMODE_TREE) }) i { tb := none, name := none }) k = stack_names s k := by
      intro k hk
      apply stack_names_congr
      intro j hj1 hj2
      rw [hitem]
      have hji : ¬ j = i := by omega
      simp only [hji, if_false]
      by_cases hjp : j = i - 1
      · simp [hjp]
      · simp [hjp]
    refine ⟨hi, ?_, ?_, ?_⟩
    · intro k hk
      rw [hitem]
      by_cases hki : k = i
      · simp [hki]
      · have : ¬ k = i - 1 := by omega
        simp only [hki, this, if_false]
        exact h2 k (by omega)
    · intro k hk
      rw [hitem, hnames k hk]
      have hki : ¬ k = i := by omega
      simp only [hki, if_false]
      by_cases hkp : k = i - 1
      · simp only [hkp, if_true]
        refine ⟨_, rfl, ?_⟩
        apply tree_justified_insert dirs _ ptb nm _ _ hpjust
        · rw [← hnames_i]
          exact ⟨p, hp, Or.inl hpre⟩
        · intro sub hsub
          simp only [git_treebuilder_write, git_oid.tree.injEq] at hsub
          rw [← hsub, ← hnames_i]
          exact hjust
      · simp only [hkp, if_false]
        exact h3 k (by omega)
    · intro k hk1 hk2
      rw [hitem, hnames k hk2]
      have hki : ¬ k = i := by omega
      simp only [hki, if_false]
      by_cases hkp : k = i - 1
      · simp only [hkp, if_true]
        have := h4 (i - 1) (by omega) (by omega)
        rw [hkp] at hk1
        exact this
      · simp only [hkp, if_false]
        exact h4 k hk1 (by omega)
  · simp [stack_set_item]
  · intro j hj
    simp only [stack_set_item]
    have hji : ¬ j = i := by omega
    simp only [hji, if_false]
    by_cases hjp : j = i - 1
    · simp [hjp]
    · simp [hjp]

theorem stack_close_loop_justified (dirs : List CStr) (level : Nat) (hl : 1 ≤ level) :
    ∀ (n : Nat) (s : dirstack_t), StackJustified dirs s (level + n) →
      ∃ s', stack_close_loop level n s = .ok s' ∧ StackJustified dirs s' level ∧
        s'.depth = s.depth ∧ ∀ j, j < level → (s'.item j).name = (s.item j).name := by
  intro n
  induction n with
  | zero =>
    intro s hs
    exact ⟨s, rfl, hs, rfl, fun _ _ => rfl⟩
  | succ n ih =>
    intro s hs
    obtain ⟨s1, h1, hs1, hd1, hn1⟩ :=
      stack_close_level_justified dirs s (level + n) (by omega) hs
    obtain ⟨s2, h2, hs2, hd2, hn2⟩ := ih s1 hs1
    refine ⟨s2, ?_, hs2, by rw [hd2, hd1], ?_⟩
    · simp only [stack_close_loop, h1]
      exact h2
    · intro j hj
      rw [hn2 j hj, hn1 j (by omega)]

theorem stack_close_to_justified (dirs : List CStr) (s : dirstack_t) (level : Nat)
    (hl : 1 ≤ level) (hld : level ≤ s.depth) (hs : StackJustified dirs s s.depth) :
    ∃ s', _stack_close_to s level = .ok s' ∧ StackJustified dirs s' level ∧
      s'.depth = level ∧ ∀ j, j < level → (s'.item j).name = (s.item j).name := by
  have hs' : StackJustified dirs s (level + (s.depth - level)) := by
    rw [Nat.add_sub_cancel' hld]; exact hs
  obtain ⟨s1, h1, hs1, _, hn1⟩ := stack_close_loop_justified dirs level hl _ s hs'
  refine ⟨{ s1 with depth := level }, ?_, stack_justified_congr dirs s1 _ level rfl hs1, rfl,
    hn1⟩
  simp only [_stack_close_to, h1]

theorem stack_open_level_justified (dirs : List CStr) (p : CStr) (hp : p ∈ dirs)
    (s : dirstack_t) (level : Nat) (seg : CStr) (hl : 1 ≤ level)
    (hs : StackJustified dirs s level)
    (hpre : stack_names s (level - 1) ++ [seg] <+: path_components p) :
    StackJustified dirs
      { stack_set_item s level { tb := some [], name := some seg } with depth := level + 1 }
      (level + 1) ∧
    stack_names
      { stack_set_item s level { tb := some [], name := some seg } with depth := level + 1 }
      level = stack_names s (level - 1) ++ [seg] := by
  obtain ⟨_, h2, h3, h4⟩ := hs
  have hitem : ∀ j, ({ stack_set_item s level { tb := some [], name := some seg } with
      depth := level + 1 } : dirstack_t).item j =
      if j = level then { tb := some [], name := some seg } else s.item j := by
    intro j; simp only [stack_set_item]
  have hnames : ∀ k, k < level → stack_names
      { stack_set_item s level { tb := some [], name := some seg } with depth := level + 1 } k
      = stack_names s k := by
    intro k hk
    apply stack_names_congr
    intro j _ hj2
    rw [hitem]
    have : ¬ j = level := by omega
    simp [this]
  have hnames_l : stack_names
      { stack_set_item s level { tb := some [], name := some seg } with depth := level + 1 }
      level = stack_names s (level - 1) ++ [seg] := by
    have := stack_names_succ
      { stack_set_item s level { tb := some [], name := some seg } with depth := level + 1 }
      (level - 1)
    rw [Nat.sub_add_cancel hl] at this
    rw [this, hnames (level - 1) (by omega), hitem]
    simp
  refine ⟨⟨by omega, ?_, ?_, ?_⟩, hnames_l⟩
  · intro k hk
    rw [hitem]
    have : ¬ k = level := by omega
    simp only [this, if_false]
    exact h2 k (by omega)
  · intro k hk
    rw [hitem]
    by_cases hkl : k = level
    · simp only [hkl, if_true]
      refine ⟨[], rfl, ?_⟩
      intro segs e _ hwalk
      rw [bypath_walk_nil_tree] at hwalk
      cases hwalk
    · simp only [hkl, if_false]
      rw [hnames k (by omega)]
      exact h3 k (by omega)
  · intro k hk1 hk2
    rw [hitem]
    by_cases hkl : k = level
    · simp only [hkl, if_true]
      refine ⟨by simp, p, hp, ?_⟩
      rw [hnames_l]
      exact hpre
    · simp only [hkl, if_false]
      rw [hnames k (by omega)]
      exact h4 k hk1 (by omega)

theorem handle_stack_loop_justified (dirs : List CStr) (p : CStr) (hp : p ∈ dirs) :
    ∀ (segs : List CStr) (level : Nat) (s : dirstack_t), 1 ≤ level → level ≤ s.depth →
      StackJustified dirs s s.depth →
      stack_names s (level - 1) ++ segs <+: path_components p →
      ∃ s', handle_stack_loop segs level s = .ok s' ∧ StackJustified dirs s' s'.depth ∧
        level + segs.length ≤ s'.depth ∧
        stack_names s' (level - 1 + segs.length) = stack_names s (level - 1) ++ segs := by
  intro segs
  induction segs with
  | nil =>
    intro level s _ hld hs _
    exact ⟨s, rfl, hs, by simpa using hld, by simp⟩
  | cons seg rest ih =>
    intro level s hl hld hs hpre
    have hpre1 : stack_names s (level - 1) ++ [seg] <+: path_components p := by
      refine List.IsPrefix.trans ?_ hpre
      exact ⟨rest, by simp⟩
    have hopen : ∀ s0 : dirstack_t, StackJustified dirs s0 level →
        stack_names s0 (level - 1) = stack_names s (level - 1) →
        ∃ s', handle_stack_loop rest (level + 1)
            { stack_set_item s0 level { tb := some [], name := some seg } with
              depth := level + 1 } = .ok s' ∧
          StackJustified dirs s' s'.depth ∧
          level + (seg :: rest).length ≤ s'.depth ∧
          stack_names s' (level - 1 + (seg :: rest).length) =
            stack_names s (level - 1) ++ seg :: rest := by
      intro s0 hs0 hn0
      obtain ⟨hj, hn⟩ := stack_open_level_justified dirs p hp s0 level seg hl hs0
        (by rw [hn0]; exact hpre1)
      obtain ⟨s', h1, h2, h3, h4⟩ := ih (level + 1)
        { stack_set_item s0 level { tb := some [], name := some seg } with depth := level + 1 }
        (by omega) (Nat.le_refl _) hj
        (by
          simp only [Nat.add_sub_cancel]
          rw [hn, hn0]
          simpa using hpre)
      refine ⟨s', h1, h2, ?_, ?_⟩
      · simp only [List.length_cons]; omega
      · simp only [Nat.add_sub_cancel] at h4
        rw [hn, hn0] at h4
        have : level - 1 + (seg :: rest).length = level + rest.length := by
          simp only [List.length_cons]; omega
        rw [this, h4]
        simp
    simp only [handle_stack_loop, stack_get_item]
    cases hname : (s.item level).name with
    | none =>
      have hdepth : s.depth = level := by
        by_contra hne
        have hlt : level < s.depth := by omega
        exact (hs.2.2.2 level hl hlt).1 hname
      simp only []
      exact hopen s (by rw [← hdepth]; exact hs) rfl
    | some nm =>
      have hlt : level < s.depth := by
        by_contra hge
        have := (hs.2.1 level (by omega)).2
        rw [hname] at this
        cases this
      simp only []
      by_cases hsame : nm = seg
      · simp only [hsame, if_true]
        have hn : stack_names s level = stack_names s (level - 1) ++ [seg] := by
          have := stack_names_succ s (level - 1)
          rw [Nat.sub_add_cancel hl] at this
          rw [this, hname, hsame]
          rfl
        obtain ⟨s', h1, h2, h3, h4⟩ := ih (level + 1) s (by omega) (by omega) hs
          (by
            simp only [Nat.add_sub_cancel]
            rw [hn]
            simpa using hpre)
        refine ⟨s', h1, h2, ?_, ?_⟩
        · simp only [List.length_cons]; omega
        · simp only [Nat.add_sub_cancel] at h4
          rw [hn] at h4
          have : level - 1 + (seg :: rest).length = level + rest.length := by
            simp only [List.length_cons]; omega
          rw [this, h4]
          simp
      · simp only [hsame, if_false]
        obtain ⟨b, hb, _⟩ := hs.2.2.1 level hlt
        have htb : ¬ (s.item level).tb = none := by rw [hb]; simp
        simp only [htb, if_false]
        obtain ⟨s1, hc1, hs1, hd1, hnm1⟩ :=
          stack_close_to_justified dirs s level hl (by omega) hs
        have hzero := hs1.2.1 level (Nat.le_refl _)
        have hn1 : stack_names s1 (level - 1) = stack_names s (level - 1) :=
          stack_names_congr s s1 (level - 1) (fun j _ hj2 => hnm1 j (by omega))
        simp only [hc1, hd1, stack_get_item, hzero.1, hzero.2, ne_eq, not_true_eq_false,
          if_false]
        exact hopen s1 hs1 hn1

/-! ### Paths and their components -/

theorem path_components_from_ne_nil (cur s : CStr) : path_components_from cur s ≠ [] := by
  induction s generalizing cur with
  | nil => simp [path_components_from]
  | cons c rest ih =>
    simp only [path_components_from]
    split_ifs
    · simp
    · exact ih _

theorem join_path_cons (x : CStr) (l : List CStr) (hl : l ≠ []) :
    join_path (x :: l) = x ++ SLASH :: join_path l := by
  cases l with
  | nil => exact absurd rfl hl
  | cons y rest => rfl

theorem join_path_components_from (cur s : CStr) :
    join_path (path_components_from cur s) = cur ++ s := by
  induction s generalizing cur with
  | nil => simp [path_components_from, join_path]
  | cons c rest ih =>
    simp only [path_components_from]
    split_ifs with hc
    · rw [join_path_cons _ _ (path_components_from_ne_nil _ _), ih, hc]
      simp
    · rw [ih]; simp

theorem join_path_components (p : CStr) : join_path (path_components p) = p := by
  simpa [path_components] using join_path_components_from [] p

theorem join_path_append (l1 l2 : List CStr) (h1 : l1 ≠ []) (h2 : l2 ≠ []) :
    join_path (l1 ++ l2) = join_path l1 ++ SLASH :: join_path l2 := by
  induction l1 with
  | nil => exact absurd rfl h1
  | cons x rest ih =>
    cases rest with
    | nil => simp [join_path_cons _ _ h2, join_path]
    | cons y rest' =>
      have hne : (y :: rest') ++ l2 ≠ [] := by simp
      rw [List.cons_append, join_path_cons _ _ hne, ih (by simp)]
      show _ = (x ++ SLASH :: join_path (y :: rest')) ++ SLASH :: join_path l2
      simp

/-- Prefix order on components, read on the paths: `a` is `b` or a
directory above `b`. -/
theorem components_prefix (a b : CStr) (h : path_components a <+: path_components b) :
    a = b ∨ IsSubdirOf b a := by
  obtain ⟨rest, hrest⟩ := h
  have hb := join_path_components b
  rw [← hrest] at hb
  by_cases hr : rest = []
  · left
    rw [hr, List.append_nil, join_path_components] at hb
    exact hb
  · right
    have hne : path_components a ≠ [] := path_components_from_ne_nil _ _
    rw [join_path_append _ _ hne hr, join_path_components] at hb
    exact ⟨join_path rest, hb.symm⟩

theorem path_components_from_last (s cur : CStr)
    (h : (path_components_from cur s).getLast? = some []) :
    (cur = [] ∧ s = []) ∨ s.getLast? = some SLASH := by
  induction s generalizing cur with
  | nil =>
    simp only [path_components_from, List.getLast?_singleton, Option.some.injEq] at h
    exact Or.inl ⟨h, rfl⟩
  | cons c rest ih =>
    simp only [path_components_from] at h
    split_ifs at h with hc
    · have hne := path_components_from_ne_nil [] rest
      have h' : (path_components_from [] rest).getLast? = some [] := by
        cases hcomp : path_components_from [] rest with
        | nil => exact absurd hcomp hne
        | cons d l =>
          rw [hcomp, List.getLast?_cons_cons] at h
          exact h
      rcases ih [] h' with ⟨_, hrest⟩ | hlast
      · right; rw [hrest, hc]; rfl
      · right
        cases rest with
        | nil => simp at hlast
        | cons d rest' => rw [List.getLast?_cons_cons]; exact hlast
    · rcases ih _ h with ⟨hcur, _⟩ | hlast
      · simp at hcur
      · right
        cases rest with
        | nil => simp at hlast
        | cons d rest' => rw [List.getLast?_cons_cons]; exact hlast

theorem bypath_walk_last_name (t : git_tree) (segs : List CStr) (e : git_tree_entry)
    (hlast : segs.getLast? ≠ some []) (h : bypath_walk t segs = some e) :
    segs.getLast? = some e.1 := by
  induction segs generalizing t with
  | nil => simp [bypath_walk] at h
  | cons x rest ih =>
    cases rest with
    | nil =>
      simp only [bypath_walk] at h
      split_ifs at h
      rw [entry_fromname_name t x e h]
      rfl
    | cons y rest' =>
      simp only [bypath_walk] at h
      by_cases hx0 : x = []
      · simp [hx0] at h
      · simp only [hx0, if_false] at h
        cases hfind : entry_fromname t x with
        | none => simp [hfind] at h
        | some e0 =>
          simp only [hfind] at h
          by_cases htree : git_tree_entry_is_tree e0 = false
          · simp [htree] at h
          · simp only [htree, if_false] at h
            by_cases hend : y = [] ∧ rest' = []
            · exfalso
              apply hlast
              rw [hend.1, hend.2]
              rfl
            · simp only [hend, if_false] at h
              cases hoid : e0.2.2 with
              | raw k => simp [hoid] at h
              | tree sub =>
                simp only [hoid] at h
                rw [List.getLast?_cons_cons]
                exact ih sub (by rw [List.getLast?_cons_cons] at hlast; exact hlast) h

theorem bypath_last_component (t : git_tree) (q : CStr) (e : git_tree_entry)
    (hslash : q.getLast? ≠ some SLASH) (h : git_tree_entry_bypath t q = some e) :
    (path_components q).getLast? ≠ some [] := by
  intro hl
  rcases path_components_from_last q [] hl with ⟨_, hq⟩ | hq
  · rw [hq] at h
    simp [git_tree_entry_bypath, path_components, path_components_from, bypath_walk] at h
  · exact hslash hq

/-! ### The builder stack accounts for every entry -/

theorem stack_set_tb_justified (dirs : List CStr) (s : dirstack_t) (d l : Nat)
    (b' : git_treebuilder) (hs : StackJustified dirs s d) (hl : l < d)
    (hb' : TreeJustified dirs (stack_names s l) b') :
    StackJustified dirs (stack_set_item s l { s.item l with tb := some b' }) d := by
  obtain ⟨h1, h2, h3, h4⟩ := hs
  have hitem : ∀ j, (stack_set_item s l { s.item l with tb := some b' }).item j =
      if j = l then { s.item l with tb := some b' } else s.item j := by
    intro j; simp only [stack_set_item]
  have hnames : ∀ k, stack_names (stack_set_item s l { s.item l with tb := some b' }) k
      = stack_names s k := by
    intro k
    apply stack_names_congr
    intro j _ _
    rw [hitem]
    by_cases hjl : j = l
    · simp [hjl]
    · simp [hjl]
  refine ⟨h1, ?_, ?_, ?_⟩
  · intro k hk
    rw [hitem]
    have : ¬ k = l := by omega
    simp only [this, if_false]
    exact h2 k hk
  · intro k hk
    rw [hitem, hnames]
    by_cases hkl : k = l
    · simp only [hkl, if_true]
      exact ⟨b', rfl, hb'⟩
    · simp only [hkl, if_false]
      exact h3 k hk
  · intro k hk1 hk2
    rw [hitem, hnames]
    by_cases hkl : k = l
    · simp only [hkl, if_true]
      rw [hkl] at hk1 hk2
      exact h4 l hk1 hk2
    · simp only [hkl, if_false]
      exact h4 k hk1 hk2

theorem stack_add_justified (dirs : List CStr) (p : CStr) (hp : p ∈ dirs) (tree : git_tree)
    (e : git_tree_entry) (s s' : dirstack_t) (hs : StackJustified dirs s s.depth)
    (hslash : p.getLast? ≠ some SLASH) (hfound : git_tree_entry_bypath tree p = some e)
    (hadd : stack_add s p e = .ok s') : StackJustified dirs s' s'.depth := by
  have hlast := bypath_last_component tree p e hslash hfound
  have hname : (path_components p).getLast? = some e.1 :=
    bypath_walk_last_name tree _ e hlast hfound
  have hne : path_components p ≠ [] := path_components_from_ne_nil _ _
  have hsplit : path_components p =
      (path_components p).take ((path_components p).length - 1) ++ [e.1] := by
    have h1 := List.dropLast_append_getLast? e.1 (by rw [hname]; rfl)
    rw [List.dropLast_eq_take] at h1
    exact h1.symm
  unfold stack_add split_path at hadd
  by_cases hlen : (path_components p).length < STACK_CHUNKS
  · simp only [hlen, if_true] at hadd
    have hstep : ∃ s1, (if (path_components p).length > 1 then
          _handle_stack s (path_components p) ((path_components p).length - 1)
        else .ok s) = .ok s1 ∧ StackJustified dirs s1 s1.depth ∧
        (path_components p).length ≤ s1.depth ∧
        stack_names s1 ((path_components p).length - 1) =
          (path_components p).take ((path_components p).length - 1) := by
      by_cases hcnt : (path_components p).length > 1
      · have hnz : ¬ (path_components p).length - 1 = 0 := by omega
        simp only [hcnt, if_true, _handle_stack, hnz, if_false]
        obtain ⟨s1, h1, h2, h3, h4⟩ := handle_stack_loop_justified dirs p hp
          ((path_components p).take ((path_components p).length - 1)) 1 s (Nat.le_refl _)
          hs.1 hs (by simpa [stack_names] using List.take_prefix _ _)
        refine ⟨s1, h1, h2, ?_, ?_⟩
        · simp only [List.length_take] at h3
          omega
        · simp only [List.length_take, Nat.sub_self, Nat.zero_add] at h4
          have hmin : min ((path_components p).length - 1) (path_components p).length
              = (path_components p).length - 1 := by omega
          rw [hmin] at h4
          rw [h4]
          simp [stack_names]
      · simp only [hcnt, if_false]
        have hone : (path_components p).length = 1 := by
          have := List.length_pos.2 hne
          omega
        refine ⟨s, rfl, hs, by rw [hone]; exact hs.1, ?_⟩
        rw [hone]
        simp [stack_names]
    obtain ⟨s1, h1, hs1, hd1, hn1⟩ := hstep
    rw [h1] at hadd
    simp only [stack_get_item] at hadd
    have hlt : (path_components p).length - 1 < s1.depth := by
      have := List.length_pos.2 hne
      omega
    obtain ⟨b, hb, hjust⟩ := hs1.2.2.1 _ hlt
    simp only [hb, Except.ok.injEq] at hadd
    rw [← hadd]
    have hdepth : (stack_set_item s1 ((path_components p).length - 1)
        { s1.item ((path_components p).length - 1) with
          tb := some (git_treebuilder_insert b (git_tree_entry_name e) (git_tree_entry_id e)
            (git_tree_entry_filemode e)) }).depth = s1.depth := rfl
    rw [hdepth]
    apply stack_set_tb_justified dirs s1 _ _ _ hs1 hlt
    have hfull : stack_names s1 ((path_components p).length - 1) ++ [git_tree_entry_name e]
        = path_components p := by
      rw [hn1]
      exact hsplit.symm
    apply tree_justified_insert dirs _ b _ _ _ hjust
    · rw [hfull]
      exact ⟨p, hp, Or.inl (List.prefix_refl _)⟩
    · intro sub _ segs e' _ _
      rw [hfull]
      exact ⟨p, hp, Or.inr (List.prefix_append _ _)⟩
  · simp [hlen] at hadd

theorem stack_open_justified (dirs : List CStr) :
    StackJustified dirs stack_open stack_open.depth := by
  refine ⟨Nat.le_refl _, ?_, ?_, ?_⟩
  · intro i hi
    have : ¬ i = 0 := by
      have : stack_open.depth = 1 := rfl
      omega
    simp [stack_open, this, dirstack_item_zero]
  · intro i hi
    have : i = 0 := by
      have : stack_open.depth = 1 := rfl
      omega
    subst this
    refine ⟨[], rfl, ?_⟩
    intro segs e _ hwalk
    rw [bypath_walk_nil_tree] at hwalk
    cases hwalk
  · intro i hi1 hi2
    have : stack_open.depth = 1 := rfl
    omega

set_option maxRecDepth 4000 in
/-- C3: the path `b/a/.../a` of 32 components has an entry in the source
tree. The array of `split_path` has `STACK_CHUNKS = 32` slots and is never
enlarged (the macro `add_pathc` adds to `*p` and not to `path_size`), so
`filtered_tree` does not return a tree with that entry; with 31
components it returns the whole tree. -/
theorem filtered_tree_deep_path :
    git_tree_entry_bypath (example_deep_tree_b 30) (example_deep_path 31)
      = some ([97], GIT_FILEMODE_BLOB, .raw 1) ∧
    (path_components (example_deep_path 31)).length = 32 ∧
    filtered_tree { dirs := [example_deep_path 31] } (example_deep_tree_b 30)
      = .error .undefined_behaviour ∧
    filtered_tree { dirs := [example_deep_path 30] } (example_deep_tree_b 29)
      = .ok (example_deep_tree_b 29) := by
  refine ⟨by decide, by decide, by decide, by decide⟩

/-! ### The virtual root of the builder stack -/

theorem vbuilder_chain (s : dirstack_t) (k : Nat) :
    ∀ (m j : Nat), vbuilder s j (m + k) = vchain (stack_chain s j m) (vbuilder s (j + m) k) := by
  intro m
  induction m with
  | zero => intro j; simp [stack_chain, vchain]
  | succ m ih =>
    intro j
    have h1 : m + 1 + k = (m + k) + 1 := by omega
    have h2 : j + (m + 1) = j + 1 + m := by omega
    rw [h1, h2]
    simp only [vbuilder, stack_chain, vchain]
    rw [ih (j + 1)]

theorem stack_chain_names (s : dirstack_t) :
    ∀ (m j : Nat), (stack_chain s j m).map Prod.snd =
      (List.range m).map (fun t => ((s.item (j + t + 1)).name).getD []) := by
  intro m
  induction m with
  | zero => intro j; rfl
  | succ m ih =>
    intro j
    simp only [stack_chain, List.map_cons, List.range_succ_eq_map, List.map_map]
    rw [ih (j + 1)]
    simp only [Nat.add_zero, List.cons.injEq, true_and]
    apply List.map_congr_left
    intro t _
    simp only [Function.comp]
    have : j + 1 + t + 1 = j + (t + 1) + 1 := by omega
    rw [this]

theorem stack_chain_names_zero (s : dirstack_t) (m : Nat) :
    (stack_chain s 0 m).map Prod.snd = stack_names s m := by
  rw [stack_chain_names]
  simp [stack_names]

theorem stack_chain_congr (s s' : dirstack_t) :
    ∀ (m j : Nat),
      (∀ t, j ≤ t → t < j + m → (s'.item t).tb = (s.item t).tb) →
      (∀ t, j < t → t ≤ j + m → (s'.item t).name = (s.item t).name) →
      stack_chain s' j m = stack_chain s j m := by
  intro m
  induction m with
  | zero => intro j _ _; rfl
  | succ m ih =>
    intro j htb hname
    simp only [stack_chain]
    rw [htb j (Nat.le_refl _) (by omega), hname (j + 1) (by omega) (by omega),
      ih (j + 1) (fun t h1 h2 => htb t (by omega) (by omega))
        (fun t h1 h2 => hname t (by omega) (by omega))]

theorem bypath_walk_congr_head (t t' : git_tree) (x : CStr) (rest : List CStr)
    (h : entry_fromname t' x = entry_fromname t x) :
    bypath_walk t' (x :: rest) = bypath_walk t (x :: rest) := by
  cases rest with
  | nil => simp only [bypath_walk, h]
  | cons y rest' => simp only [bypath_walk, h]

theorem git_filemode_tree_is_tree (n : CStr) (o : git_oid) :
    git_tree_entry_is_tree (n, GIT_FILEMODE_TREE, o) = true := by
  show decide (GIT_FILEMODE_TREE / 4096 % 16 = 4) = true
  rfl

/-- Frame property: replacing the top of a chain by a builder that differs
from it under the name `z` only does not change the entry found at a path
that neither leads to nor goes through the place of `z`. -/
theorem vchain_frame (z : CStr) (top top' : git_treebuilder)
    (hmod : ∀ y, y ≠ z → entry_fromname top' y = entry_fromname top y) :
    ∀ (chain : List (git_treebuilder × CStr)) (segs : List CStr),
      segs.getLast? ≠ some [] →
      ¬ segs <+: chain.map Prod.snd ++ [z] → ¬ chain.map Prod.snd ++ [z] <+: segs →
      bypath_walk (vchain chain top') segs = bypath_walk (vchain chain top) segs := by
  intro chain
  induction chain with
  | nil =>
    intro segs _ h1 h2
    cases segs with
    | nil => exact absurd (List.nil_prefix) h1
    | cons x rest =>
      simp only [vchain]
      apply bypath_walk_congr_head
      apply hmod
      intro hxz
      apply h2
      rw [hxz]
      exact ⟨rest, rfl⟩
  | cons bn chain ih =>
    obtain ⟨b, n⟩ := bn
    intro segs hlast h1 h2
    cases segs with
    | nil => exact absurd (List.nil_prefix) h1
    | cons x rest =>
      simp only [vchain]
      by_cases hxn : x = n
      · subst hxn
        cases rest with
        | nil =>
          exfalso
          apply h1
          exact ⟨chain.map Prod.snd ++ [z], by simp⟩
        | cons y rest' =>
          simp only [bypath_walk, entry_fromname_insert, if_true, git_filemode_tree_is_tree]
          by_cases hx0 : x = []
          · simp [hx0]
          · simp only [hx0, if_false, Bool.true_eq_false]
            by_cases hend : y = [] ∧ rest' = []
            · exfalso
              apply hlast
              rw [hend.1, hend.2]
              rfl
            · simp only [hend, if_false]
              apply ih (y :: rest')
              · rw [List.getLast?_cons_cons] at hlast; exact hlast
              · intro hp
                apply h1
                simpa [List.map_cons, List.cons_append, List.cons_prefix_cons] using hp
              · intro hp
                apply h2
                simpa [List.map_cons, List.cons_append, List.cons_prefix_cons] using hp
      · apply bypath_walk_congr_head
        simp only [entry_fromname_insert, hxn, if_false]

/-- Hit property: the entry the top of a chain holds under the name `z` is
found at the path made of the names of the chain and `z`. -/
theorem vchain_hit (z : CStr) (ez : git_tree_entry) (top : git_treebuilder) (hz : z ≠ [])
    (htop : entry_fromname top z = some ez) :
    ∀ (chain : List (git_treebuilder × CStr)), (∀ bn ∈ chain, bn.2 ≠ []) →
      bypath_walk (vchain chain top) (chain.map Prod.snd ++ [z]) = some ez := by
  intro chain
  induction chain with
  | nil =>
    intro _
    simp [vchain, bypath_walk, hz, htop]
  | cons bn chain ih =>
    obtain ⟨b, n⟩ := bn
    intro hne
    have hn : n ≠ [] := hne (b, n) (List.mem_cons_self _ _)
    have hrest := ih (fun bn hbn => hne bn (List.mem_cons_of_mem _ hbn))
    simp only [vchain, List.map_cons, List.cons_append]
    cases hsegs : chain.map Prod.snd ++ [z] with
    | nil => simp at hsegs
    | cons y rest' =>
      rw [hsegs] at hrest
      simp only [bypath_walk, entry_fromname_insert, if_true, git_filemode_tree_is_tree, hn,
        if_false, Bool.true_eq_false]
      have hy : ¬ (y = [] ∧ rest' = []) := by
        rintro ⟨hy0, hr0⟩
        rw [hy0, hr0] at hrest
        cases chain with
        | nil =>
          simp only [List.map_nil, List.nil_append, List.cons.injEq] at hsegs
          exact hz (by rw [hsegs.1, hy0])
        | cons c cs =>
          simp only [List.map_cons, List.cons_append, List.cons.injEq] at hsegs
          rw [hr0] at hsegs
          simp at hsegs
      simp only [hy, if_false]
      exact hrest

theorem vbuilder_congr (s s' : dirstack_t) :
    ∀ (k j : Nat), (∀ t, j ≤ t → s'.item t = s.item t) → vbuilder s' j k = vbuilder s j k := by
  intro k
  induction k with
  | zero => intro j h; simp only [vbuilder, h j (Nat.le_refl _)]
  | succ k ih =>
    intro j h
    simp only [vbuilder, h j (Nat.le_refl _), h (j + 1) (by omega)]
    rw [ih (j + 1) (fun t ht => h t (by omega))]

theorem vroot_split (s : dirstack_t) (l k : Nat) :
    vbuilder s 0 (l + k) = vchain (stack_chain s 0 l) (vbuilder s l k) := by
  have := vbuilder_chain s k l 0
  simpa using this

theorem stack_close_level_vroot (dirs : List CStr) (s s' : dirstack_t) (i : Nat)
    (hi : 1 ≤ i) (hs : StackJustified dirs s (i + 1))
    (hclose : stack_close_level s i = .ok s') :
    vbuilder s' 0 (i - 1) = vbuilder s 0 i := by
  obtain ⟨tb, htb, _⟩ := hs.2.2.1 i (by omega)
  obtain ⟨ptb, hptb, _⟩ := hs.2.2.1 (i - 1) (by omega)
  obtain ⟨nm, hnm⟩ := Option.ne_none_iff_exists'.1 (hs.2.2.2 i hi (by omega)).1
  simp only [stack_close_level, stack_get_item, htb, hnm, hptb, Except.ok.injEq] at hclose
  have hitem : ∀ j, s'.item j =
      if j = i then { tb := none, name := none }
      else if j = i - 1 then
        { s.item (i - 1) with
          tb := some (git_treebuilder_insert ptb nm (git_treebuilder_write tb)
            GIT_FILEMODE_TREE) }
      else s.item j := by
    intro j
    rw [← hclose]
    simp only [stack_set_item]
  have h1 : vbuilder s' 0 (i - 1) =
      vchain (stack_chain s' 0 (i - 1)) (vbuilder s' (i - 1) 0) := by
    have := vroot_split s' (i - 1) 0
    simpa using this
  have h2 : vbuilder s 0 i = vchain (stack_chain s 0 (i - 1)) (vbuilder s (i - 1) 1) := by
    have := vroot_split s (i - 1) 1
    rw [Nat.sub_add_cancel hi] at this
    exact this
  have hchain : stack_chain s' 0 (i - 1) = stack_chain s 0 (i - 1) := by
    apply stack_chain_congr
    · intro t _ ht
      rw [hitem]
      have h1 : ¬ t = i := by omega
      have h2 : ¬ t = i - 1 := by omega
      simp [h1, h2]
    · intro t _ ht
      rw [hitem]
      have h1 : ¬ t = i := by omega
      simp only [h1, if_false]
      by_cases h2 : t = i - 1
      · simp [h2]
      · simp [h2]
  rw [h1, h2, hchain]
  congr 1
  have hne : ¬ i - 1 = i := by omega
  simp only [vbuilder, hitem, hne, if_false, if_true, Option.getD_some, Nat.sub_add_cancel hi,
    hptb, hnm, htb, git_treebuilder_write]

theorem stack_close_loop_vroot (dirs : List CStr) (level : Nat) (hl : 1 ≤ level) :
    ∀ (n : Nat) (s s' : dirstack_t), StackJustified dirs s (level + n) →
      stack_close_loop level n s = .ok s' →
      vbuilder s' 0 (level - 1) = vbuilder s 0 (level + n - 1) := by
  intro n
  induction n with
  | zero =>
    intro s s' _ h
    simp only [stack_close_loop, Except.ok.injEq] at h
    rw [← h]; rfl
  | succ n ih =>
    intro s s' hs h
    obtain ⟨s1, h1, hs1, _, _⟩ :=
      stack_close_level_justified dirs s (level + n) (by omega) hs
    simp only [stack_close_loop, h1] at h
    rw [ih s1 s' hs1 h, stack_close_level_vroot dirs s s1 (level + n) (by omega) hs h1]
    rfl

theorem stack_close_to_vroot (dirs : List CStr) (s s' : dirstack_t) (level : Nat)
    (hl : 1 ≤ level) (hld : level ≤ s.depth) (hs : StackJustified dirs s s.depth)
    (h : _stack_close_to s level = .ok s') :
    vbuilder s' 0 (level - 1) = vbuilder s 0 (s.depth - 1) := by
  have hs' : StackJustified dirs s (level + (s.depth - level)) := by
    rw [Nat.add_sub_cancel' hld]; exact hs
  unfold _stack_close_to at h
  cases hloop : stack_close_loop level (s.depth - level) s with
  | error e => simp [hloop] at h
  | ok s1 =>
    simp only [hloop, Except.ok.injEq] at h
    have := stack_close_loop_vroot dirs level hl _ s s1 hs' hloop
    rw [Nat.add_sub_cancel' hld] at this
    rw [← this, ← h]
    exact vbuilder_congr s1 _ _ _ (fun _ _ => rfl)

theorem stack_open_level_frame (s : dirstack_t) (level : Nat) (seg : CStr) (hl : 1 ≤ level)
    (segs : List CStr) (hlast : segs.getLast? ≠ some [])
    (h1 : ¬ segs <+: stack_names s (level - 1) ++ [seg])
    (h2 : ¬ stack_names s (level - 1) ++ [seg] <+: segs) :
    bypath_walk
      (vbuilder
        { stack_set_item s level { tb := some [], name := some seg } with depth := level + 1 }
        0 level) segs
      = bypath_walk (vbuilder s 0 (level - 1)) segs := by
  have hitem : ∀ j, ({ stack_set_item s level { tb := some [], name := some seg } with
      depth := level + 1 } : dirstack_t).item j =
      if j = level then { tb := some [], name := some seg } else s.item j := by
    intro j; simp only [stack_set_item]
  have e1 : vbuilder s 0 (level - 1) =
      vchain (stack_chain s 0 (level - 1)) (vbuilder s (level - 1) 0) := by
    have := vroot_split s (level - 1) 0
    simpa using this
  have e2 : vbuilder
      { stack_set_item s level { tb := some [], name := some seg } with depth := level + 1 }
      0 level =
      vchain (stack_chain s 0 (level - 1))
        (git_treebuilder_insert (vbuilder s (level - 1) 0) seg (.tree []) GIT_FILEMODE_TREE) := by
    have := vroot_split
      { stack_set_item s level { tb := some [], name := some seg } with depth := level + 1 }
      (level - 1) 1
    rw [Nat.sub_add_cancel hl] at this
    rw [this]
    congr 1
    · apply stack_chain_congr
      · intro t _ ht
        rw [hitem]
        have : ¬ t = level := by omega
        simp [this]
      · intro t _ ht
        rw [hitem]
        have : ¬ t = level := by omega
        simp [this]
    · have hne : ¬ level - 1 = level := by omega
      simp only [vbuilder, stack_set_item, hne, if_false, Nat.sub_add_cancel hl, if_true,
        Option.getD_some]
  rw [e1, e2]
  apply vchain_frame seg
  · intro y hy
    simp only [entry_fromname_insert, hy, if_false]
  · exact hlast
  · rw [stack_chain_names_zero]; exact h1
  · rw [stack_chain_names_zero]; exact h2

theorem stack_insert_top (s : dirstack_t) (l k : Nat) (b : git_treebuilder) (x : CStr)
    (o : git_oid) (m : Nat) (hb : (s.item l).tb = some b) :
    vbuilder (stack_set_item s l { s.item l with
        tb := some (git_treebuilder_insert b x o m) }) 0 (l + k) =
      vchain (stack_chain s 0 l)
        (vbuilder (stack_set_item s l { s.item l with
          tb := some (git_treebuilder_insert b x o m) }) l k) ∧
    ∀ y, (y ≠ x ∨ k = 0 ∨ ((s.item (l + 1)).name).getD [] ≠ x) →
      entry_fromname (vbuilder (stack_set_item s l { s.item l with
          tb := some (git_treebuilder_insert b x o m) }) l k) y =
        if y = x then some (x, m, o) else entry_fromname (vbuilder s l k) y := by
  have hitem : ∀ j, (stack_set_item s l { s.item l with
      tb := some (git_treebuilder_insert b x o m) }).item j =
      if j = l then { s.item l with tb := some (git_treebuilder_insert b x o m) }
      else s.item j := by
    intro j; simp only [stack_set_item]
  constructor
  · rw [vroot_split]
    congr 1
    apply stack_chain_congr
    · intro t _ ht
      rw [hitem]
      have : ¬ t = l := by omega
      simp [this]
    · intro t _ _
      rw [hitem]
      by_cases htl : t = l
      · simp [htl]
      · simp [htl]
  · intro y hy
    cases k with
    | zero =>
      simp only [vbuilder, hitem, if_true, Option.getD_some, hb, entry_fromname_insert]
    | succ k =>
      have habove : vbuilder (stack_set_item s l { s.item l with
          tb := some (git_treebuilder_insert b x o m) }) (l + 1) k = vbuilder s (l + 1) k := by
        apply vbuilder_congr
        intro t ht
        rw [hitem]
        have : ¬ t = l := by omega
        simp [this]
      have hne : ¬ l + 1 = l := by omega
      simp only [vbuilder, hitem, if_true, hne, if_false, Option.getD_some, hb, habove,
        entry_fromname_insert]
      by_cases hyn : y = ((s.item (l + 1)).name).getD []
      · have hyx : ¬ y = x := by
          rcases hy with h | h | h
          · exact h
          · omega
          · rw [hyn]; exact h
        have hnx : ¬ ((s.item (l + 1)).name).getD [] = x := fun h => hyx (by rw [hyn, h])
        simp [hyn, hnx]
      · simp only [hyn, if_false]

/-! ### Sorted order and shared directories -/

/-- Paths between two paths with a common beginning have that beginning. -/
theorem strcmp_between_prefix (B : CStr) :
    ∀ (q prev p : CStr), strcmp q prev ≤ 0 → strcmp prev p ≤ 0 → B <+: q → B <+: p →
      B <+: prev := by
  induction B with
  | nil => intro q prev p _ _ _ _; exact List.nil_prefix
  | cons b B ih =>
    intro q prev p h1 h2 hq hp
    obtain ⟨q', rfl⟩ := hq
    obtain ⟨p', rfl⟩ := hp
    cases prev with
    | nil => simp [strcmp] at h1
    | cons c prev' =>
      simp only [List.cons_append, strcmp] at h1 h2
      by_cases hbc : b = c
      · subst hbc
        simp only [if_true] at h1 h2
        rw [List.cons_prefix_cons]
        exact ⟨rfl, ih _ prev' _ h1 h2 ⟨q', rfl⟩ ⟨p', rfl⟩⟩
      · have hcb : ¬ c = b := fun h => hbc h.symm
        simp only [hbc, hcb, if_false] at h1 h2
        have hlt1 : b < c := by
          by_contra hn
          simp [hn] at h1
        have hlt2 : c < b := by
          by_contra hn
          simp [hn] at h2
        exact absurd (Nat.lt_trans hlt1 hlt2) (Nat.lt_irrefl _)

theorem path_components_from_append (r : CStr) :
    ∀ (a cur : CStr), path_components_from cur (a ++ SLASH :: r) =
      path_components_from cur a ++ path_components_from [] r := by
  intro a
  induction a with
  | nil => intro cur; simp [path_components_from]
  | cons c a ih =>
    intro cur
    show path_components_from cur (c :: (a ++ SLASH :: r)) = _
    simp only [path_components_from]
    split_ifs
    · rw [ih]; simp
    · rw [ih]

theorem path_components_append (a r : CStr) :
    path_components (a ++ SLASH :: r) = path_components a ++ path_components r :=
  path_components_from_append r a []

theorem path_components_from_noslash :
    ∀ (s cur : CStr), SLASH ∉ cur → ∀ c ∈ path_components_from cur s, SLASH ∉ c := by
  intro s
  induction s with
  | nil =>
    intro cur hcur c hc
    simp only [path_components_from, List.mem_singleton] at hc
    rw [hc]; exact hcur
  | cons x s ih =>
    intro cur hcur c hc
    simp only [path_components_from] at hc
    split_ifs at hc with hx
    · rcases List.mem_cons.1 hc with h | h
      · rw [h]; exact hcur
      · exact ih [] (by simp) c h
    · refine ih (cur ++ [x]) ?_ c hc
      simp only [List.mem_append, List.mem_singleton, not_or]
      exact ⟨hcur, fun h => hx h.symm⟩

theorem path_components_noslash (p : CStr) : ∀ c ∈ path_components p, SLASH ∉ c :=
  path_components_from_noslash p [] (by simp)

theorem path_components_from_noslash_eq :
    ∀ (s cur : CStr), SLASH ∉ s → path_components_from cur s = [cur ++ s] := by
  intro s
  induction s with
  | nil => intro cur _; simp [path_components_from]
  | cons x s ih =>
    intro cur hs
    simp only [List.mem_cons, not_or] at hs
    have hx : ¬ x = SLASH := fun h => hs.1 h.symm
    simp only [path_components_from, hx, if_false]
    rw [ih _ hs.2]
    simp

theorem path_components_join (l : List CStr) (hne : l ≠ []) (hl : ∀ c ∈ l, SLASH ∉ c) :
    path_components (join_path l) = l := by
  induction l with
  | nil => exact absurd rfl hne
  | cons x rest ih =>
    cases rest with
    | nil =>
      simp only [join_path, path_components]
      rw [path_components_from_noslash_eq _ _ (hl x (List.mem_cons_self _ _))]
      simp
    | cons y rest' =>
      rw [join_path_cons _ _ (by simp), path_components_append,
        ih (by simp) (fun c hc => hl c (List.mem_cons_of_mem _ hc))]
      simp only [path_components]
      rw [path_components_from_noslash_eq _ _ (hl x (List.mem_cons_self _ _))]
      simp

/-- A path that goes through the directory with the components `T` starts
with the text of that directory and a `'/'`. -/
theorem components_strict_prefix (T U : List CStr) (q : CStr) (hT : T ≠ []) (hU : U ≠ [])
    (h : path_components q = T ++ U) : join_path T ++ [SLASH] <+: q := by
  have hq := join_path_components q
  rw [h, join_path_append T U hT hU] at hq
  exact ⟨join_path U, by rw [← hq]; simp⟩

/-- Key fact on sorted Include-Sets: if `q ≤ prev ≤ p` in `strcmp` order and
both `q` and `p` go through the directory made of the first `i` components
of `p`, then so does `prev`. -/
theorem shared_directory_between (q prev p : CStr) (i : Nat)
    (h1 : strcmp q prev ≤ 0) (h2 : strcmp prev p ≤ 0)
    (hi1 : 1 ≤ i) (hi2 : i < (path_components p).length)
    (hq : (path_components p).take i <+: path_components q)
    (hne : path_components q ≠ (path_components p).take i) :
    (path_components p).take i <+: (path_components prev).dropLast := by
  have hT : (path_components p).take i ≠ [] := by
    intro h
    have := congrArg List.length h
    simp only [List.length_take, List.length_nil] at this
    omega
  have hUp : (path_components p).drop i ≠ [] := by
    intro h
    have := congrArg List.length h
    simp only [List.length_drop, List.length_nil] at this
    omega
  obtain ⟨U', hU'⟩ := hq
  have hU'ne : U' ≠ [] := by
    intro h
    rw [h, List.append_nil] at hU'
    exact hne hU'.symm
  have hpre_p : join_path ((path_components p).take i) ++ [SLASH] <+: p :=
    components_strict_prefix _ _ p hT hUp (List.take_append_drop i _).symm
  have hpre_q : join_path ((path_components p).take i) ++ [SLASH] <+: q :=
    components_strict_prefix _ _ q hT hU'ne hU'.symm
  obtain ⟨r, hr⟩ := strcmp_between_prefix _ q prev p h1 h2 hpre_q hpre_p
  have hslashfree : ∀ c ∈ (path_components p).take i, SLASH ∉ c :=
    fun c hc => path_components_noslash p c (List.mem_of_mem_take hc)
  have hprev : path_components prev = (path_components p).take i ++ path_components r := by
    rw [← hr]
    have : join_path ((path_components p).take i) ++ [SLASH] ++ r =
        join_path ((path_components p).take i) ++ SLASH :: r := by simp
    rw [this, path_components_append, path_components_join _ hT hslashfree]
  have hrne : path_components r ≠ [] := path_components_from_ne_nil _ _
  rw [hprev, List.dropLast_append_of_ne_nil _ hrne]
  exact List.prefix_append _ _

/-! ### The builder stack keeps the included entries -/

theorem stack_open_level_names (s : dirstack_t) (level : Nat) (seg : CStr) (hl : 1 ≤ level) :
    (∀ k, k < level → stack_names
      { stack_set_item s level { tb := some [], name := some seg } with depth := level + 1 } k
      = stack_names s k) ∧
    stack_names
      { stack_set_item s level { tb := some [], name := some seg } with depth := level + 1 }
      level = stack_names s (level - 1) ++ [seg] := by
  have hitem : ∀ j, ({ stack_set_item s level { tb := some [], name := some seg } with
      depth := level + 1 } : dirstack_t).item j =
      if j = level then { tb := some [], name := some seg } else s.item j := by
    intro j; simp only [stack_set_item]
  have hnames : ∀ k, k < level → stack_names
      { stack_set_item s level { tb := some [], name := some seg } with depth := level + 1 } k
      = stack_names s k := by
    intro k hk
    apply stack_names_congr
    intro j _ hj2
    rw [hitem]
    have : ¬ j = level := by omega
    simp [this]
  refine ⟨hnames, ?_⟩
  have := stack_names_succ
    { stack_set_item s level { tb := some [], name := some seg } with depth := level + 1 }
    (level - 1)
  rw [Nat.sub_add_cancel hl] at this
  rw [this, hnames (level - 1) (by omega), hitem]
  simp

theorem stack_open_level_keeps (done : List (CStr × git_tree_entry)) (srcs : List CStr)
    (p : CStr) (hp : p ∈ srcs) (s : dirstack_t) (level : Nat) (seg : CStr) (hl : 1 ≤ level)
    (hseg : seg ≠ []) (hk : StackKeeps done srcs s level)
    (hT : stack_names s (level - 1) ++ [seg] <+: (path_components p).dropLast)
    (hlastq : ∀ qe ∈ done, (path_components qe.1).getLast? ≠ some [])
    (hinc1 : ∀ qe ∈ done, ¬ path_components qe.1 <+: stack_names s (level - 1) ++ [seg])
    (hinc2 : ∀ qe ∈ done, ¬ stack_names s (level - 1) ++ [seg] <+: path_components qe.1) :
    StackKeeps done srcs
      { stack_set_item s level { tb := some [], name := some seg } with depth := level + 1 }
      (level + 1) := by
  obtain ⟨hn, hv, ho⟩ := hk
  obtain ⟨hnames, hnames_l⟩ := stack_open_level_names s level seg hl
  have hitem : ∀ j, ({ stack_set_item s level { tb := some [], name := some seg } with
      depth := level + 1 } : dirstack_t).item j =
      if j = level then { tb := some [], name := some seg } else s.item j := by
    intro j; simp only [stack_set_item]
  refine ⟨?_, ?_, ?_⟩
  · intro i hi1 hi2
    rw [hitem]
    by_cases hil : i = level
    · simp only [hil, if_true]
      intro h
      simp only [Option.some.injEq] at h
      exact hseg h
    · simp only [hil, if_false]
      exact hn i hi1 (by omega)
  · intro qe hqe
    simp only [Nat.add_sub_cancel]
    rw [stack_open_level_frame s level seg hl _ (hlastq qe hqe) (hinc1 qe hqe) (hinc2 qe hqe)]
    exact hv qe hqe
  · intro i hi1 hi2
    by_cases hil : i = level
    · rw [hil, hnames_l]
      exact ⟨p, hp, hT⟩
    · rw [hnames i (by omega)]
      exact ho i hi1 (by omega)

theorem stack_close_to_keeps (dirs : List CStr) (done : List (CStr × git_tree_entry))
    (srcs : List CStr) (s s' : dirstack_t) (level : Nat) (hl : 1 ≤ level)
    (hld : level ≤ s.depth) (hs : StackJustified dirs s s.depth)
    (hk : StackKeeps done srcs s s.depth) (h : _stack_close_to s level = .ok s') :
    StackKeeps done srcs s' level := by
  obtain ⟨s1, hc1, _, _, hnm⟩ := stack_close_to_justified dirs s level hl hld hs
  rw [h] at hc1
  simp only [Except.ok.injEq] at hc1
  subst hc1
  obtain ⟨hn, hv, ho⟩ := hk
  have hnames : ∀ i, i < level → stack_names s' i = stack_names s i :=
    fun i hi => stack_names_congr s s' i (fun j _ hj2 => hnm j (by omega))
  refine ⟨?_, ?_, ?_⟩
  · intro i hi1 hi2
    rw [hnm i hi2]
    exact hn i hi1 (by omega)
  · intro qe hqe
    rw [stack_close_to_vroot dirs s s' level hl hld hs h]
    exact hv qe hqe
  · intro i hi1 hi2
    rw [hnames i hi2]
    exact ho i hi1 (by omega)

theorem handle_stack_loop_keeps (dirs : List CStr) (done : List (CStr × git_tree_entry))
    (srcs : List CStr) (p : CStr) (hp : p ∈ dirs) (hps : p ∈ srcs)
    (hlastq : ∀ qe ∈ done, (path_components qe.1).getLast? ≠ some [])
    (hover : ∀ qe ∈ done, ¬ path_components qe.1 <+: path_components p) :
    ∀ (segs : List CStr) (level : Nat) (s s' : dirstack_t), 1 ≤ level → level ≤ s.depth →
      StackJustified dirs s s.depth →
      stack_names s (level - 1) ++ segs = (path_components p).dropLast →
      (∀ c ∈ segs, c ≠ []) →
      StackKeeps done srcs s s.depth →
      (∀ i, level ≤ i → i < (path_components p).length →
        (∃ qe ∈ done, (path_components p).take i <+: path_components qe.1) →
        i < s.depth ∧ stack_names s i = (path_components p).take i) →
      handle_stack_loop segs level s = .ok s' →
      StackKeeps done srcs s' s'.depth := by
  intro segs
  induction segs with
  | nil =>
    intro level s s' _ _ _ _ _ hk _ h
    simp only [handle_stack_loop, Except.ok.injEq] at h
    rw [← h]; exact hk
  | cons seg rest ih =>
    intro level s s' hl hld hs hnames hne hk hC h
    have hseg : seg ≠ [] := hne seg (List.mem_cons_self _ _)
    have hlen : level - 1 + (rest.length + 1) = (path_components p).length - 1 := by
      have := congrArg List.length hnames
      simp only [List.length_append, stack_names_length, List.length_cons,
        List.length_dropLast] at this
      exact this
    have hlevel : level < (path_components p).length := by omega
    have hTpre : stack_names s (level - 1) ++ [seg] <+: (path_components p).dropLast :=
      ⟨rest, by rw [← hnames]; simp⟩
    have hTcp : stack_names s (level - 1) ++ [seg] <+: path_components p :=
      List.IsPrefix.trans hTpre (List.dropLast_prefix _)
    have hTtake : stack_names s (level - 1) ++ [seg] = (path_components p).take level := by
      have h1 := List.prefix_iff_eq_take.1 hTcp
      simp only [List.length_append, stack_names_length, List.length_singleton,
        Nat.sub_add_cancel hl] at h1
      exact h1
    have hinc1 : ∀ qe ∈ done,
        ¬ path_components qe.1 <+: stack_names s (level - 1) ++ [seg] :=
      fun qe hqe hpre => hover qe hqe (List.IsPrefix.trans hpre hTcp)
    have hopen : ∀ s0 : dirstack_t, StackJustified dirs s0 level →
        StackKeeps done srcs s0 level →
        stack_names s0 (level - 1) = stack_names s (level - 1) →
        (∀ qe ∈ done, ¬ stack_names s (level - 1) ++ [seg] <+: path_components qe.1) →
        handle_stack_loop rest (level + 1)
          { stack_set_item s0 level { tb := some [], name := some seg } with
            depth := level + 1 } = .ok s' →
        StackKeeps done srcs s' s'.depth := by
      intro s0 hs0 hk0 hn0 hinc2 hrun
      obtain ⟨hj, hn⟩ := stack_open_level_justified dirs p hp s0 level seg hl hs0
        (by rw [hn0]; exact hTcp)
      have hk1 := stack_open_level_keeps done srcs p hps s0 level seg hl hseg hk0
        (by rw [hn0]; exact hTpre) hlastq (by rw [hn0]; exact hinc1) (by rw [hn0]; exact hinc2)
      apply ih (level + 1) _ s' (by omega) (Nat.le_refl _) hj ?_
        (fun c hc => hne c (List.mem_cons_of_mem _ hc)) hk1 ?_ hrun
      · simp only [Nat.add_sub_cancel]
        rw [hn, hn0, ← hnames]
        simp
      · intro i hi1 hi2 hunder
        exfalso
        obtain ⟨qe, hqe, hpre⟩ := hunder
        apply hinc2 qe hqe
        rw [hTtake]
        refine List.IsPrefix.trans ?_ hpre
        rw [List.prefix_take_iff]
        exact ⟨List.take_prefix _ _, by simp only [List.length_take]; omega⟩
    simp only [handle_stack_loop, stack_get_item] at h
    cases hname : (s.item level).name with
    | none =>
      have hdepth : s.depth = level := by
        by_contra hcon
        have hlt : level < s.depth := by omega
        exact (hs.2.2.2 level hl hlt).1 hname
      simp only [hname] at h
      apply hopen s (by rw [← hdepth]; exact hs) (by rw [← hdepth]; exact hk) rfl ?_ h
      intro qe hqe hpre
      rw [hTtake] at hpre
      have := (hC level (Nat.le_refl _) hlevel ⟨qe, hqe, hpre⟩).1
      omega
    | some nm =>
      have hlt : level < s.depth := by
        by_contra hge
        have := (hs.2.1 level (by omega)).2
        rw [hname] at this
        cases this
      have hn_level : stack_names s level = stack_names s (level - 1) ++ [nm] := by
        have := stack_names_succ s (level - 1)
        rw [Nat.sub_add_cancel hl] at this
        rw [this, hname]
        rfl
      simp only [hname] at h
      by_cases hsame : nm = seg
      · simp only [hsame, if_true] at h
        apply ih (level + 1) s s' (by omega) (by omega) hs ?_
          (fun c hc => hne c (List.mem_cons_of_mem _ hc)) hk
          (fun i hi1 hi2 hu => hC i (by omega) hi2 hu) h
        simp only [Nat.add_sub_cancel]
        rw [hn_level, hsame, ← hnames]
        simp
      · simp only [hsame, if_false] at h
        obtain ⟨b, hb, _⟩ := hs.2.2.1 level hlt
        have htb : ¬ (s.item level).tb = none := by rw [hb]; simp
        simp only [htb, if_false] at h
        obtain ⟨s1, hc1, hs1, hd1, hnm1⟩ :=
          stack_close_to_justified dirs s level hl (by omega) hs
        have hk1 := stack_close_to_keeps dirs done srcs s s1 level hl (by omega) hs hk hc1
        have hzero := hs1.2.1 level (Nat.le_refl _)
        have hn1 : stack_names s1 (level - 1) = stack_names s (level - 1) :=
          stack_names_congr s s1 (level - 1) (fun j _ hj2 => hnm1 j (by omega))
        simp only [hc1, hd1, stack_get_item, hzero.1, hzero.2, ne_eq, not_true_eq_false,
          if_false] at h
        apply hopen s1 hs1 hk1 hn1 ?_ h
        intro qe hqe hpre
        rw [hTtake] at hpre
        have := (hC level (Nat.le_refl _) hlevel ⟨qe, hqe, hpre⟩).2
        rw [hn_level, ← hTtake] at this
        have := List.append_cancel_left this
        simp only [List.cons.injEq, and_true] at this
        exact hsame this

theorem bypath_walk_components_nonempty (t : git_tree) (segs : List CStr) (e : git_tree_entry)
    (hlast : segs.getLast? ≠ some []) (h : bypath_walk t segs = some e) :
    ∀ c ∈ segs, c ≠ [] := by
  induction segs generalizing t with
  | nil => intro c hc; simp at hc
  | cons x rest ih =>
    cases rest with
    | nil =>
      intro c hc
      simp only [List.mem_singleton] at hc
      subst hc
      intro hc0
      exact hlast (by rw [hc0]; rfl)
    | cons y rest' =>
      simp only [bypath_walk] at h
      by_cases hx0 : x = []
      · simp [hx0] at h
      · simp only [hx0, if_false] at h
        cases hfind : entry_fromname t x with
        | none => simp [hfind] at h
        | some e0 =>
          simp only [hfind] at h
          by_cases htree : git_tree_entry_is_tree e0 = false
          · simp [htree] at h
          · simp only [htree, if_false] at h
            by_cases hend : y = [] ∧ rest' = []
            · exfalso
              apply hlast
              rw [hend.1, hend.2]
              rfl
            · simp only [hend, if_false] at h
              cases hoid : e0.2.2 with
              | raw k => simp [hoid] at h
              | tree sub =>
                simp only [hoid] at h
                intro c hc
                rcases List.mem_cons.1 hc with hcx | hcr
                · rw [hcx]; exact hx0
                · exact ih sub (by rw [List.getLast?_cons_cons] at hlast; exact hlast) h c hcr

theorem stack_names_take (s : dirstack_t) (i : Nat) :
    ∀ j, i ≤ j → (stack_names s j).take i = stack_names s i := by
  intro j
  induction j with
  | zero =>
    intro h
    have : i = 0 := by omega
    subst this
    simp [stack_names]
  | succ j ih =>
    intro h
    by_cases hij : i = j + 1
    · subst hij
      rw [List.take_of_length_le (by rw [stack_names_length])]
    · rw [stack_names_succ, List.take_append_of_le_length (by rw [stack_names_length]; omega)]
      exact ih (by omega)

/-- The call of `_handle_stack` in `stack_add` on a well-formed stack: it
returns, and the levels `1..cnt-1` then carry the directory of the path. -/
theorem stack_add_handle (dirs : List CStr) (p : CStr) (hp : p ∈ dirs) (s : dirstack_t)
    (hs : StackJustified dirs s s.depth) :
    ∃ s1, (if (path_components p).length > 1 then
          _handle_stack s (path_components p) ((path_components p).length - 1)
        else .ok s) = .ok s1 ∧ StackJustified dirs s1 s1.depth ∧
      (path_components p).length ≤ s1.depth ∧
      stack_names s1 ((path_components p).length - 1) = (path_components p).dropLast := by
  have hne : path_components p ≠ [] := path_components_from_ne_nil _ _
  by_cases hcnt : (path_components p).length > 1
  · have hnz : ¬ (path_components p).length - 1 = 0 := by omega
    simp only [hcnt, if_true, _handle_stack, hnz, if_false]
    obtain ⟨s1, h1, h2, h3, h4⟩ := handle_stack_loop_justified dirs p hp
      ((path_components p).take ((path_components p).length - 1)) 1 s (Nat.le_refl _)
      hs.1 hs (by simpa [stack_names] using List.take_prefix _ _)
    refine ⟨s1, h1, h2, ?_, ?_⟩
    · simp only [List.length_take] at h3
      omega
    · simp only [List.length_take, Nat.sub_self, Nat.zero_add] at h4
      have hmin : min ((path_components p).length - 1) (path_components p).length
          = (path_components p).length - 1 := by omega
      rw [hmin] at h4
      rw [h4, List.dropLast_eq_take]
      simp [stack_names]
  · simp only [hcnt, if_false]
    have hone : (path_components p).length = 1 := by
      have := List.length_pos.2 hne
      omega
    refine ⟨s, rfl, hs, by rw [hone]; exact hs.1, ?_⟩
    rw [hone, List.dropLast_eq_take, hone]
    simp [stack_names]

theorem stack_keeps_mono (done : List (CStr × git_tree_entry)) (srcs srcs' : List CStr)
    (s : dirstack_t) (d : Nat) (hsub : ∀ q ∈ srcs, q ∈ srcs')
    (hk : StackKeeps done srcs s d) : StackKeeps done srcs' s d := by
  obtain ⟨hn, hv, ho⟩ := hk
  refine ⟨hn, hv, ?_⟩
  intro i hi1 hi2
  obtain ⟨q, hq, hpre⟩ := ho i hi1 hi2
  exact ⟨q, hsub q hq, hpre⟩

/-- The stack after the `_handle_stack` step of `stack_add` for the next
path `p` of a sorted, non-overlapping Include-Set still holds every path
processed before. -/
theorem stack_add_handle_keeps (dirs : List CStr) (done : List (CStr × git_tree_entry))
    (p : CStr) (hp : p ∈ dirs) (s s1 : dirstack_t)
    (hs : StackJustified dirs s s.depth)
    (hk : StackKeeps done (done.map Prod.fst) s s.depth)
    (hK1 : ∀ prev, done.getLast? = some prev →
      (path_components prev.1).length ≤ s.depth ∧
      stack_names s ((path_components prev.1).length - 1) = (path_components prev.1).dropLast)
    (hlastq : ∀ qe ∈ done, (path_components qe.1).getLast? ≠ some [])
    (hord1 : ∀ qe ∈ done, ∀ prev, done.getLast? = some prev → strcmp qe.1 prev.1 ≤ 0)
    (hord2 : ∀ prev, done.getLast? = some prev → strcmp prev.1 p ≤ 0)
    (hover1 : ∀ qe ∈ done, ¬ path_components qe.1 <+: path_components p)
    (hnonempty : ∀ c ∈ path_components p, c ≠ [])
    (h : (if (path_components p).length > 1 then
          _handle_stack s (path_components p) ((path_components p).length - 1)
        else .ok s) = .ok s1) :
    StackKeeps done (p :: done.map Prod.fst) s1 s1.depth := by
  have hk' : StackKeeps done (p :: done.map Prod.fst) s s.depth :=
    stack_keeps_mono done _ _ s s.depth (fun q hq => List.mem_cons_of_mem _ hq) hk
  by_cases hcnt : (path_components p).length > 1
  · have hnz : ¬ (path_components p).length - 1 = 0 := by omega
    simp only [hcnt, if_true, _handle_stack, hnz, if_false] at h
    rw [← List.dropLast_eq_take] at h
    apply handle_stack_loop_keeps dirs done (p :: done.map Prod.fst) p hp
      (List.mem_cons_self _ _) hlastq hover1 (path_components p).dropLast 1 s s1
      (Nat.le_refl _) hs.1 hs (by simp [stack_names])
      (fun c hc => hnonempty c (List.mem_of_mem_dropLast hc)) hk' ?_ h
    intro i hi1 hi2 hunder
    obtain ⟨qe, hqe, hpre⟩ := hunder
    have hdne : done ≠ [] := List.ne_nil_of_mem hqe
    obtain ⟨prev, hprev⟩ : ∃ prev, done.getLast? = some prev := by
      cases hl : done.getLast? with
      | none => exact absurd (List.getLast?_eq_none_iff.1 hl) hdne
      | some prev => exact ⟨prev, rfl⟩
    have hneq : path_components qe.1 ≠ (path_components p).take i := by
      intro heq
      apply hover1 qe hqe
      rw [heq]
      exact List.take_prefix _ _
    have hshared := shared_directory_between qe.1 prev.1 p i (hord1 qe hqe prev hprev)
      (hord2 prev hprev) hi1 hi2 hpre hneq
    obtain ⟨hdepth, hnames⟩ := hK1 prev hprev
    rw [← hnames] at hshared
    have hlen := List.IsPrefix.length_le hshared
    simp only [List.length_take, stack_names_length] at hlen
    have hmin : min i (path_components p).length = i := by omega
    rw [hmin] at hlen
    have hprevne : path_components prev.1 ≠ [] := path_components_from_ne_nil _ _
    have hprevlen := List.length_pos.2 hprevne
    refine ⟨by omega, ?_⟩
    have h1 := List.prefix_iff_eq_take.1 hshared
    simp only [List.length_take, hmin] at h1
    rw [h1, stack_names_take s i _ hlen]
  · simp only [hcnt, if_false, Except.ok.injEq] at h
    rw [← h]
    exact hk'

/-- One call of `stack_add` for the next path `p` of a sorted,
non-overlapping Include-Set: it returns, every path processed before is
still held, and `p` is now held with its source entry. -/
theorem stack_add_keeps (dirs : List CStr) (done : List (CStr × git_tree_entry))
    (p : CStr) (hp : p ∈ dirs) (tree : git_tree) (e : git_tree_entry) (s : dirstack_t)
    (hs : StackJustified dirs s s.depth)
    (hk : StackKeeps done (done.map Prod.fst) s s.depth)
    (hK1 : ∀ prev, done.getLast? = some prev →
      (path_components prev.1).length ≤ s.depth ∧
      stack_names s ((path_components prev.1).length - 1) = (path_components prev.1).dropLast)
    (hlastq : ∀ qe ∈ done, (path_components qe.1).getLast? ≠ some [])
    (hord1 : ∀ qe ∈ done, ∀ prev, done.getLast? = some prev → strcmp qe.1 prev.1 ≤ 0)
    (hord2 : ∀ prev, done.getLast? = some prev → strcmp prev.1 p ≤ 0)
    (hover1 : ∀ qe ∈ done, ¬ path_components qe.1 <+: path_components p)
    (hover2 : ∀ qe ∈ done, ¬ path_components p <+: path_components qe.1)
    (hslash : p.getLast? ≠ some SLASH) (hfound : git_tree_entry_bypath tree p = some e)
    (hdeep : (path_components p).length < STACK_CHUNKS) :
    ∃ s', stack_add s p e = .ok s' ∧ StackJustified dirs s' s'.depth ∧
      StackKeeps (done ++ [(p, e)]) ((done ++ [(p, e)]).map Prod.fst) s' s'.depth ∧
      (path_components p).length ≤ s'.depth ∧
      stack_names s' ((path_components p).length - 1) = (path_components p).dropLast := by
  have hlast := bypath_last_component tree p e hslash hfound
  have hname : (path_components p).getLast? = some e.1 :=
    bypath_walk_last_name tree _ e hlast hfound
  have hnonempty := bypath_walk_components_nonempty tree _ e hlast hfound
  have hne : path_components p ≠ [] := path_components_from_ne_nil _ _
  have hpos := List.length_pos.2 hne
  have hsplit : (path_components p).dropLast ++ [e.1] = path_components p :=
    List.dropLast_append_getLast? e.1 (by rw [hname]; rfl)
  have hx : e.1 ≠ [] := hnonempty e.1 (by rw [← hsplit]; simp)
  obtain ⟨s1, h1, hs1, hd1, hn1⟩ := stack_add_handle dirs p hp s hs
  have hk1 := stack_add_handle_keeps dirs done p hp s s1 hs hk hK1 hlastq hord1 hord2 hover1
    hnonempty h1
  have hlt : (path_components p).length - 1 < s1.depth := by omega
  obtain ⟨b, hb, _⟩ := hs1.2.2.1 _ hlt
  have hadd : stack_add s p e = .ok (stack_set_item s1 ((path_components p).length - 1)
      { s1.item ((path_components p).length - 1) with
        tb := some (git_treebuilder_insert b e.1 e.2.2 e.2.1) }) := by
    unfold stack_add split_path
    simp only [hdeep, if_true, h1, stack_get_item, hb, git_tree_entry_name, git_tree_entry_id,
      git_tree_entry_filemode]
  have hjust := stack_add_justified dirs p hp tree e s _ hs hslash hfound hadd
  refine ⟨_, hadd, hjust, ?_, hd1, ?_⟩
  · -- the invariant for the extended list
    have hitem : ∀ j, (stack_set_item s1 ((path_components p).length - 1)
        { s1.item ((path_components p).length - 1) with
          tb := some (git_treebuilder_insert b e.1 e.2.2 e.2.1) }).item j =
        if j = (path_components p).length - 1 then
          { s1.item ((path_components p).length - 1) with
            tb := some (git_treebuilder_insert b e.1 e.2.2 e.2.1) }
        else s1.item j := by
      intro j; simp only [stack_set_item]
    have hnames : ∀ i, stack_names (stack_set_item s1 ((path_components p).length - 1)
        { s1.item ((path_components p).length - 1) with
          tb := some (git_treebuilder_insert b e.1 e.2.2 e.2.1) }) i = stack_names s1 i := by
      intro i
      apply stack_names_congr
      intro j _ _
      rw [hitem]
      by_cases hjl : j = (path_components p).length - 1
      · simp [hjl]
      · simp [hjl]
    have hdepth : (stack_set_item s1 ((path_components p).length - 1)
        { s1.item ((path_components p).length - 1) with
          tb := some (git_treebuilder_insert b e.1 e.2.2 e.2.1) }).depth = s1.depth := rfl
    obtain ⟨hn, hv, ho⟩ := hk1
    have hkk : s1.depth - 1 =
        ((path_components p).length - 1) + (s1.depth - (path_components p).length) := by omega
    obtain ⟨htop, hentry⟩ := stack_insert_top s1 ((path_components p).length - 1)
      (s1.depth - (path_components p).length) b e.1 e.2.2 e.2.1 hb
    have hchain_names : (stack_chain s1 0 ((path_components p).length - 1)).map Prod.snd ++ [e.1]
        = path_components p := by
      rw [stack_chain_names_zero, hn1]
      exact hsplit
    rw [hdepth]
    refine ⟨?_, ?_, ?_⟩
    · intro i hi1 hi2
      rw [hitem]
      by_cases hil : i = (path_components p).length - 1
      · simp only [hil, if_true]
        rw [hil] at hi1 hi2
        exact hn _ hi1 hi2
      · simp only [hil, if_false]
        exact hn i hi1 hi2
    · intro qe hqe
      rw [hkk, htop]
      rcases List.mem_append.1 hqe with hold | hnew
      · have hfr := vchain_frame e.1 (vbuilder s1 ((path_components p).length - 1)
            (s1.depth - (path_components p).length)) _
          (fun y hy => by rw [hentry y (Or.inl hy)]; simp [hy])
          (stack_chain s1 0 ((path_components p).length - 1)) (path_components qe.1)
          (hlastq qe hold)
          (by rw [hchain_names]; exact hover1 qe hold)
          (by rw [hchain_names]; exact hover2 qe hold)
        rw [hfr, ← vroot_split, ← hkk]
        exact hv qe hold
      · simp only [List.mem_singleton] at hnew
        subst hnew
        have hstale : s1.depth - (path_components p).length = 0 ∨
            ((s1.item ((path_components p).length - 1 + 1)).name).getD [] ≠ e.1 := by
          by_cases hzero : s1.depth - (path_components p).length = 0
          · exact Or.inl hzero
          · right
            intro hsame
            have hlvl : (path_components p).length < s1.depth := by omega
            obtain ⟨q, hq, hpre⟩ := ho (path_components p).length hpos hlvl
            have hnk : stack_names s1 (path_components p).length = path_components p := by
              have := stack_names_succ s1 ((path_components p).length - 1)
              rw [Nat.sub_add_cancel hpos] at this hsame
              rw [this, hn1, hsame]
              exact hsplit
            rw [hnk] at hpre
            rcases List.mem_cons.1 hq with hqp | hqd
            · rw [hqp] at hpre
              have := List.IsPrefix.length_le hpre
              simp only [List.length_dropLast] at this
              omega
            · obtain ⟨qe, hqe, hqe1⟩ := List.mem_map.1 hqd
              apply hover2 qe hqe
              rw [hqe1]
              exact List.IsPrefix.trans hpre (List.dropLast_prefix _)
        have hhit := vchain_hit e.1 (e.1, e.2.1, e.2.2) _ hx
          (by rw [hentry e.1 (Or.inr hstale)]; simp)
          (stack_chain s1 0 ((path_components p).length - 1))
          (by
            intro bn hbn
            apply hnonempty
            rw [← hsplit]
            apply List.mem_append_left
            rw [← hn1, ← stack_chain_names_zero]
            exact List.mem_map_of_mem _ hbn)
        rw [hchain_names] at hhit
        exact hhit
    · intro i hi1 hi2
      rw [hnames]
      obtain ⟨q, hq, hpre⟩ := ho i hi1 hi2
      refine ⟨q, ?_, hpre⟩
      simp only [List.map_append, List.map_cons, List.map_nil, List.mem_append,
        List.mem_singleton]
      rcases List.mem_cons.1 hq with hqp | hqd
      · exact Or.inr hqp
      · exact Or.inl hqd
  · rw [← hn1]
    apply stack_names_congr
    intro j _ _
    simp only [stack_set_item]
    by_cases hjl : j = (path_components p).length - 1
    · simp [hjl]
    · simp [hjl]

theorem components_not_prefix (q p : CStr) (hlt : strcmp q p < 0)
    (h1 : ¬ IsSubdirOf p q) (h2 : ¬ IsSubdirOf q p) :
    ¬ path_components q <+: path_components p ∧ ¬ path_components p <+: path_components q := by
  have hne : q ≠ p := by
    intro h
    rw [h, strcmp_self] at hlt
    exact absurd hlt (by decide)
  constructor
  · intro hpre
    rcases components_prefix q p hpre with h | h
    · exact hne h
    · exact h1 h
  · intro hpre
    rcases components_prefix p q hpre with h | h
    · exact hne h.symm
    · exact h2 h

theorem filtered_tree_loop_keeps (dirs : List CStr) (tree : git_tree)
    (hslash : ∀ p ∈ dirs, p.getLast? ≠ some SLASH)
    (hdeep : ∀ p ∈ dirs, (path_components p).length < STACK_CHUNKS) :
    ∀ (l : List CStr) (s : dirstack_t) (done : List (CStr × git_tree_entry)),
      (∀ p ∈ l, p ∈ dirs) →
      l.Pairwise (fun a b => strcmp a b < 0) →
      (∀ p ∈ l, ∀ q ∈ l, ¬ IsSubdirOf q p) →
      (∀ qe ∈ done, ∀ p ∈ l,
        strcmp qe.1 p < 0 ∧ ¬ IsSubdirOf p qe.1 ∧ ¬ IsSubdirOf qe.1 p) →
      (∀ qe ∈ done, git_tree_entry_bypath tree qe.1 = some qe.2 ∧
        qe.1.getLast? ≠ some SLASH) →
      (∀ qe ∈ done, ∀ prev, done.getLast? = some prev → strcmp qe.1 prev.1 ≤ 0) →
      StackJustified dirs s s.depth →
      StackKeeps done (done.map Prod.fst) s s.depth →
      (∀ prev, done.getLast? = some prev →
        (path_components prev.1).length ≤ s.depth ∧
        stack_names s ((path_components prev.1).length - 1) =
          (path_components prev.1).dropLast) →
      ∃ s' done', filtered_tree_loop tree l s = .ok s' ∧ StackJustified dirs s' s'.depth ∧
        StackKeeps done' (done'.map Prod.fst) s' s'.depth ∧
        (∀ qe ∈ done, qe ∈ done') ∧
        ∀ p ∈ l, ∀ e, git_tree_entry_bypath tree p = some e → (p, e) ∈ done' := by
  intro l
  induction l with
  | nil =>
    intro s done _ _ _ _ _ _ hs hk _
    exact ⟨s, done, rfl, hs, hk, fun qe hqe => hqe, fun p hp => by simp at hp⟩
  | cons p rest ih =>
    intro s done hsub hsorted hover hbefore hdone hord hs hk hK1
    have hp : p ∈ dirs := hsub p (List.mem_cons_self _ _)
    have hsub' : ∀ q ∈ rest, q ∈ dirs := fun q hq => hsub q (List.mem_cons_of_mem _ hq)
    have hsorted' := (List.pairwise_cons.1 hsorted).2
    have hover' : ∀ a ∈ rest, ∀ b ∈ rest, ¬ IsSubdirOf b a :=
      fun a ha b hb => hover a (List.mem_cons_of_mem _ ha) b (List.mem_cons_of_mem _ hb)
    simp only [filtered_tree_loop]
    cases hfound : git_tree_entry_bypath tree p with
    | none =>
      simp only []
      obtain ⟨s', done', h1, h2, h3, h5, h4⟩ := ih s done hsub' hsorted' hover'
        (fun qe hqe q hq => hbefore qe hqe q (List.mem_cons_of_mem _ hq)) hdone hord hs hk hK1
      refine ⟨s', done', h1, h2, h3, h5, ?_⟩
      intro q hq e he
      rcases List.mem_cons.1 hq with hqp | hqr
      · rw [hqp, hfound] at he
        cases he
      · exact h4 q hqr e he
    | some e =>
      simp only []
      have hlastq : ∀ qe ∈ done, (path_components qe.1).getLast? ≠ some [] :=
        fun qe hqe => bypath_last_component tree qe.1 qe.2 (hdone qe hqe).2 (hdone qe hqe).1
      have hcomp : ∀ qe ∈ done, ¬ path_components qe.1 <+: path_components p ∧
          ¬ path_components p <+: path_components qe.1 := by
        intro qe hqe
        obtain ⟨h1, h2, h3⟩ := hbefore qe hqe p (List.mem_cons_self _ _)
        exact components_not_prefix qe.1 p h1 h2 h3
      obtain ⟨s1, hadd, hs1, hk1, hd1, hn1⟩ := stack_add_keeps dirs done p hp tree e s hs hk hK1
        hlastq hord
        (fun prev hprev => by
          have hmem : prev ∈ done := List.mem_of_getLast?_eq_some hprev
          exact Int.le_of_lt (hbefore prev hmem p (List.mem_cons_self _ _)).1)
        (fun qe hqe => (hcomp qe hqe).1) (fun qe hqe => (hcomp qe hqe).2)
        (hslash p hp) hfound (hdeep p hp)
      simp only [hadd]
      have hlast' : (done ++ [(p, e)]).getLast? = some (p, e) := by simp
      obtain ⟨s', done', h1, h2, h3, h5, h4⟩ := ih s1 (done ++ [(p, e)]) hsub' hsorted' hover'
        (by
          intro qe hqe q hq
          rcases List.mem_append.1 hqe with hold | hnew
          · exact hbefore qe hold q (List.mem_cons_of_mem _ hq)
          · simp only [List.mem_singleton] at hnew
            subst hnew
            exact ⟨(List.pairwise_cons.1 hsorted).1 q hq,
              hover p (List.mem_cons_self _ _) q (List.mem_cons_of_mem _ hq),
              hover q (List.mem_cons_of_mem _ hq) p (List.mem_cons_self _ _)⟩)
        (by
          intro qe hqe
          rcases List.mem_append.1 hqe with hold | hnew
          · exact hdone qe hold
          · simp only [List.mem_singleton] at hnew
            subst hnew
            exact ⟨hfound, hslash p hp⟩)
        (by
          intro qe hqe prev hprev
          rw [hlast'] at hprev
          simp only [Option.some.injEq] at hprev
          subst hprev
          rcases List.mem_append.1 hqe with hold | hnew
          · exact Int.le_of_lt (hbefore qe hold p (List.mem_cons_self _ _)).1
          · simp only [List.mem_singleton] at hnew
            subst hnew
            simp [strcmp_self])
        hs1 hk1
        (by
          intro prev hprev
          rw [hlast'] at hprev
          simp only [Option.some.injEq] at hprev
          subst hprev
          exact ⟨hd1, hn1⟩)
      refine ⟨s', done', h1, h2, h3, fun qe hqe => h5 qe (List.mem_append_left _ hqe), ?_⟩
      intro q hq e' he'
      rcases List.mem_cons.1 hq with hqp | hqr
      · rw [hqp, hfound] at he'
        simp only [Option.some.injEq] at he'
        rw [hqp, ← he']
        exact h5 (p, e) (by simp)
      · exact h4 q hqr e' he'

theorem stack_open_keeps : StackKeeps [] [] stack_open stack_open.depth := by
  have hd : stack_open.depth = 1 := rfl
  refine ⟨?_, ?_, ?_⟩
  · intro i hi1 hi2; omega
  · intro qe hqe; simp at hqe
  · intro i hi1 hi2; omega

/-- The entries at the included paths are kept: for an Include-Set in
strictly ascending `strcmp` order in which no path lies inside another,
no path ends in `'/'` and every path has fewer than `STACK_CHUNKS = 32`
components, `filtered_tree` returns a tree, and every included path that
has an entry in the source tree has the same entry (name, mode and
identity) in the returned tree. -/
theorem filtered_tree_keeps_included (id : include_dirs) (tree : git_tree)
    (hsorted : id.dirs.Pairwise (fun a b => strcmp a b < 0))
    (hover : ∀ p ∈ id.dirs, ∀ q ∈ id.dirs, ¬ IsSubdirOf q p)
    (hslash : ∀ p ∈ id.dirs, p.getLast? ≠ some SLASH)
    (hdeep : ∀ p ∈ id.dirs, (path_components p).length < STACK_CHUNKS) :
    ∃ new_tree, filtered_tree id tree = .ok new_tree ∧
      ∀ p ∈ id.dirs, ∀ e, git_tree_entry_bypath tree p = some e →
        ∃ e', git_tree_entry_bypath new_tree p = some e' ∧
          git_tree_entry_id e' = git_tree_entry_id e ∧
          git_tree_entry_filemode e' = git_tree_entry_filemode e := by
  obtain ⟨s, done, hloop, hs, hk, _, hall⟩ :=
    filtered_tree_loop_keeps id.dirs tree hslash hdeep id.dirs stack_open []
      (fun _ hp => hp) hsorted hover (fun qe hqe => by simp at hqe)
      (fun qe hqe => by simp at hqe) (fun qe hqe => by simp at hqe)
      (stack_open_justified id.dirs) stack_open_keeps (fun prev hprev => by simp at hprev)
  obtain ⟨s1, hc, hs1, _, _⟩ :=
    stack_close_to_justified id.dirs s 1 (Nat.le_refl _) hs.1 hs
  have hroot := stack_close_to_vroot id.dirs s s1 1 (Nat.le_refl _) hs.1 hs hc
  obtain ⟨b, hb, _⟩ := hs1.2.2.1 0 (by omega)
  have hvb : vbuilder s1 0 0 = b := by simp [vbuilder, hb]
  simp only [Nat.sub_self] at hroot
  rw [hvb] at hroot
  refine ⟨b, ?_, ?_⟩
  · simp only [filtered_tree, hloop, stack_close, hc, stack_get_item, hb,
      git_treebuilder_write, git_tree_lookup]
  · intro p hp e he
    refine ⟨e, ?_, rfl, rfl⟩
    have := hk.2.1 (p, e) (hall p hp e he)
    rw [← hroot] at this
    exact this

/-- An instance of `filtered_tree_keeps_included`: with the Include-Set
`{a/x, b}` the entries of the source tree at `a/x` and at `b` are found
in the filtered tree. -/
theorem filtered_tree_keeps_included_example :
    ∃ new_tree, filtered_tree { dirs := [[97, 47, 120], [98]] } (example_tree_1 3)
        = .ok new_tree ∧
      ∀ p ∈ [[97, 47, 120], [98]], ∀ e,
        git_tree_entry_bypath (example_tree_1 3) p = some e →
        ∃ e', git_tree_entry_bypath new_tree p = some e' ∧
          git_tree_entry_id e' = git_tree_entry_id e ∧
          git_tree_entry_filemode e' = git_tree_entry_filemode e :=
  filtered_tree_keeps_included { dirs := [[97, 47, 120], [98]] } (example_tree_1 3)
    (by decide)
    (by
      intro p hp q hq
      rintro ⟨r, hr⟩
      simp only [List.mem_cons, List.mem_singleton, List.not_mem_nil, or_false] at hp hq
      rcases hp with rfl | rfl <;> rcases hq with rfl | rfl <;> simp [SLASH] at hr)
    (by decide) (by decide)

/-- An entry of the include file that ends in `/` is not refused by
`include_dirs_init`, and `git_tree_entry_bypath` finds the directory it
names. `split_path` reads an empty last component after the `/`, so
`stack_add` opens a level for `a` and inserts the directory below it: the
directory found at `a/` is placed at `a/a`. The Include-Set of the
specification holds no such entry. -/
theorem filtered_tree_trailing_slash :
    include_dirs_init 0 (some { data := [97, 47, 10], eof := false })
      = .ok { dirs := [[97, 47]] } ∧
    git_tree_entry_bypath (example_tree_1 3) [97, 47]
      = some ([97], GIT_FILEMODE_TREE, .tree [([120], GIT_FILEMODE_BLOB, .raw 1)]) ∧
    filtered_tree { dirs := [[97, 47]] } (example_tree_1 3)
      = .ok [([97], GIT_FILEMODE_TREE,
          .tree [([97], GIT_FILEMODE_TREE, .tree [([120], GIT_FILEMODE_BLOB, .raw 1)])])] := by
  refine ⟨by decide, by decide, by decide⟩

/-! ## Theorems: emission, fan-out limit, repeated parents -/

/-- C11: when the filtered tree has an entry, `find_new_parents` returns a
list and the de-duplication rule does not apply to it, `create_commit`
writes one commit: it has the author, the committer and the message of the
original commit, the filtered tree as its tree and the list returned by
`find_new_parents` as its parents. Afterwards `last` of the filter is that
commit and the Revision-Map binds the identity of the original commit to
it. -/
theorem create_commit_emits (repo : git_repository) (tf : tree_filter) (tree : git_tree)
    (commit commit_id : git_commit) (new_tree : git_tree) (commit_list : commit_list_t)
    (hft : filtered_tree tf.id tree = .ok new_tree)
    (hcount : git_tree_entrycount new_tree ≠ 0)
    (hfp : find_new_parents commit tf.revdict { list := [] } = .ok commit_list)
    (hdd : dedup_applies commit_list.list new_tree = false) :
    ∃ (repo1 : git_repository) (tf1 : tree_filter) (newc : git_commit),
      create_commit repo tf tree commit commit_id = .ok (repo1, tf1) ∧
      git_commit_author newc = git_commit_author commit ∧
      git_commit_committer newc = git_commit_committer commit ∧
      git_commit_message newc = git_commit_message commit ∧
      git_commit_tree newc = new_tree ∧
      git_commit_parents newc = commit_list.list ∧
      repo1.commits = repo.commits ++ [newc] ∧
      tf1.last = some newc ∧
      dict_lookup tf1.revdict commit_id = some newc := by
  have hskip : (if commit_list.len = 1 then
      (match commit_list.list with
        | parent :: _ => tree_equal (git_commit_tree parent) new_tree
        | [] => false)
      else false) = false := by
    rcases hl : commit_list.list with _ | ⟨p, _ | ⟨q, rest⟩⟩
    · simp [commit_list_t.len, hl]
    · rw [hl] at hdd
      simp only [dedup_applies, decide_eq_false_iff_not] at hdd
      simp [commit_list_t.len, hl, tree_equal, git_tree_id, hdd]
    · simp [commit_list_t.len, hl]
  refine ⟨{ commits := repo.commits ++
      [.mk new_tree commit_list.list (git_commit_author commit)
        (git_commit_committer commit) (git_commit_message commit)] },
    { tf with
        last := some (.mk new_tree commit_list.list (git_commit_author commit)
          (git_commit_committer commit) (git_commit_message commit)),
        revdict := dict_add tf.revdict commit_id
          (.mk new_tree commit_list.list (git_commit_author commit)
            (git_commit_committer commit) (git_commit_message commit)) },
    .mk new_tree commit_list.list (git_commit_author commit)
      (git_commit_committer commit) (git_commit_message commit), ?_, rfl, rfl, rfl, rfl, rfl,
    rfl, rfl, ?_⟩
  · unfold create_commit
    simp only [hft, hcount, if_false, hfp, hskip, git_commit_create]
    rfl
  · simp [dict_add, dict_lookup]

/-- Witness of C11: commit 3 of the scenario, processed after commit 1 was
rewritten under the Include-Set `{a}`. -/
theorem create_commit_emits_witness :
    ∃ (repo1 : git_repository) (tf1 : tree_filter) (newc : git_commit),
      create_commit { commits := [example_derived_1] } example_filter_after_1
          (git_commit_tree example_commit_3) example_commit_3 (git_commit_id example_commit_3)
        = .ok (repo1, tf1) ∧
      git_commit_author newc = git_commit_author example_commit_3 ∧
      git_commit_committer newc = git_commit_committer example_commit_3 ∧
      git_commit_message newc = git_commit_message example_commit_3 ∧
      git_commit_tree newc = git_commit_tree example_derived_3 ∧
      git_commit_parents newc = [example_derived_1] ∧
      repo1.commits = [example_derived_1] ++ [newc] ∧
      tf1.last = some newc ∧
      dict_lookup tf1.revdict (git_commit_id example_commit_3) = some newc :=
  create_commit_emits { commits := [example_derived_1] } example_filter_after_1
    (git_commit_tree example_commit_3) example_commit_3 (git_commit_id example_commit_3)
    (git_commit_tree example_derived_3) { list := [example_derived_1] }
    (by decide) (by decide) (by decide) (by decide)

/-- C12: called with an empty list, `find_new_parents` ends with the fatal
`too many parents` exactly when the commit resolves to more than
`OIDLIST_MAX = 16` rewritten parents; when it resolves to at most 16, the
call returns all of them, in order. -/
theorem find_new_parents_limit (c : git_commit) (m : dict_t) :
    (find_new_parents c m { list := [] } = .error .too_many_parents ↔
      OIDLIST_MAX < (resolve_parents c m).length) ∧
    ((resolve_parents c m).length ≤ OIDLIST_MAX →
      find_new_parents c m { list := [] } = .ok { list := resolve_parents c m }) ∧
    (∀ e, find_new_parents c m { list := [] } = .error e → e = .too_many_parents) := by
  rw [find_new_parents_eq c m _ (by simp)]
  simp only [List.length_nil, Nat.zero_add, List.nil_append]
  by_cases hlen : (resolve_parents c m).length ≤ OIDLIST_MAX
  · have hlt : ¬ OIDLIST_MAX < (resolve_parents c m).length := by omega
    simp [hlen, hlt]
  · have hlt : OIDLIST_MAX < (resolve_parents c m).length := by omega
    simp [hlen, hlt]

/-- Witness of C12: the merge of seventeen mapped roots is fatal, the chain
`A -> B -> C` resolves to one commit. -/
theorem find_new_parents_limit_witness :
    find_new_parents example_octopus17 example_dict17 { list := [] }
      = .error .too_many_parents ∧
    find_new_parents example_chain_C example_chain_dict { list := [] }
      = .ok { list := resolve_parents example_chain_C example_chain_dict } :=
  ⟨(find_new_parents_limit example_octopus17 example_dict17).1.2 (by decide),
   (find_new_parents_limit example_chain_C example_chain_dict).2.1 (by decide)⟩

/-- C20: the fork of the scenario. Commit 1 is mapped to its derived commit;
the two commits on top of it change `b/z` only and are not mapped; their
merge resolves to the list holding the derived commit of commit 1 twice.
The list has length 2, so `create_commit` does not test the
de-duplication rule and writes a commit with these two parents, although
its tree is the tree of that parent. The state is the one the walk over
the four commits reaches. -/
theorem find_new_parents_repeats :
    git_commit_parents example_fork_merge = [example_fork_left, example_fork_right] ∧
    git_commit_parents example_fork_left = [example_commit_1] ∧
    git_commit_parents example_fork_right = [example_commit_1] ∧
    dict_lookup example_filter_after_1.revdict (git_commit_id example_fork_left) = none ∧
    dict_lookup example_filter_after_1.revdict (git_commit_id example_fork_right) = none ∧
    dict_lookup example_filter_after_1.revdict (git_commit_id example_commit_1)
      = some example_derived_1 ∧
    find_new_parents example_fork_merge example_filter_after_1.revdict { list := [] }
      = .ok { list := [example_derived_1, example_derived_1] } ∧
    git_commit_tree example_fork_derived = git_commit_tree example_derived_1 ∧
    create_commit { commits := [example_derived_1] } example_filter_after_1
        (git_commit_tree example_fork_merge) example_fork_merge
        (git_commit_id example_fork_merge)
      = .ok ({ commits := [example_derived_1, example_fork_derived] },
          { example_filter_after_1 with
              last := some example_fork_derived,
              revdict := dict_add example_filter_after_1.revdict example_fork_merge
                example_fork_derived }) ∧
    revwalk_loop [example_commit_1, example_fork_left, example_fork_right, example_fork_merge]
        example_repo (example_filter [[97]])
      = .ok ({ commits := [example_derived_1, example_fork_derived] },
          { example_filter_after_1 with
              last := some example_fork_derived,
              revdict := dict_add example_filter_after_1.revdict example_fork_merge
                example_fork_derived }) := by
  refine ⟨rfl, rfl, rfl, by decide, by decide, by decide, by decide, rfl, by decide, by decide⟩

/-! ## Theorems: termination of the parent resolver -/

theorem find_new_parents_graph_loop_mono {α β : Type} (dict : α → Option β)
    (self self2 : α → List β → Option (Except Fatal (List β)))
    (hself : ∀ old cl r, self old cl = some r → self2 old cl = some r) :
    ∀ (ps : List α) (cl : List β) (r : Except Fatal (List β)),
      find_new_parents_graph_loop dict self ps cl = some r →
      find_new_parents_graph_loop dict self2 ps cl = some r := by
  intro ps
  induction ps with
  | nil => intro cl r h; simpa [find_new_parents_graph_loop] using h
  | cons p rest ih =>
    intro cl r h
    simp only [find_new_parents_graph_loop] at h ⊢
    cases hd : dict p with
    | some newc =>
      simp only [hd] at h ⊢
      by_cases hfull : cl.length ≥ OIDLIST_MAX
      · simpa [hfull] using h
      · simp only [hfull, if_false] at h ⊢
        exact ih _ _ h
    | none =>
      simp only [hd] at h ⊢
      cases hs : self p cl with
      | none => simp [hs] at h
      | some res =>
        rw [hself p cl res hs]
        cases res with
        | error e => simpa [hs] using h
        | ok cl1 =>
          simp only [hs] at h
          exact ih _ _ h

theorem find_new_parents_graph_mono {α β : Type} (parents : α → List α)
    (dict : α → Option β) :
    ∀ (fuel fuel2 : Nat), fuel ≤ fuel2 → ∀ (old : α) (cl : List β) (r : Except Fatal (List β)),
      find_new_parents_graph parents dict fuel old cl = some r →
      find_new_parents_graph parents dict fuel2 old cl = some r := by
  intro fuel
  induction fuel with
  | zero => intro fuel2 _ old cl r h; simp [find_new_parents_graph] at h
  | succ n ih =>
    intro fuel2 hle old cl r h
    cases fuel2 with
    | zero => omega
    | succ k =>
      simp only [find_new_parents_graph] at h ⊢
      exact find_new_parents_graph_loop_mono dict _ _
        (fun o c res hres => ih k (by omega) o c res hres) _ _ _ h

theorem find_new_parents_graph_loop_total {α β : Type} (dict : α → Option β)
    (self : α → List β → Option (Except Fatal (List β))) :
    ∀ (ps : List α), (∀ p ∈ ps, ∀ cl, ∃ r, self p cl = some r) →
      ∀ cl, ∃ r, find_new_parents_graph_loop dict self ps cl = some r := by
  intro ps
  induction ps with
  | nil => intro _ cl; exact ⟨_, rfl⟩
  | cons p rest ih =>
    intro hself cl
    have hrest := ih (fun q hq => hself q (List.mem_cons_of_mem _ hq))
    simp only [find_new_parents_graph_loop]
    cases hd : dict p with
    | some newc =>
      simp only []
      by_cases hfull : cl.length ≥ OIDLIST_MAX
      · exact ⟨.error .too_many_parents, by simp [hfull]⟩
      · simp only [hfull, if_false]
        exact hrest _
    | none =>
      simp only []
      obtain ⟨res, hres⟩ := hself p (List.mem_cons_self _ _) cl
      rw [hres]
      cases res with
      | error e => exact ⟨_, rfl⟩
      | ok cl1 => exact hrest cl1

theorem find_new_parents_graph_common_fuel {α β : Type} (parents : α → List α)
    (dict : α → Option β) :
    ∀ (ps : List α),
      (∀ p ∈ ps, ∃ fuel, ∀ cl, ∃ r, find_new_parents_graph parents dict fuel p cl = some r) →
      ∃ fuel, ∀ p ∈ ps, ∀ cl, ∃ r, find_new_parents_graph parents dict fuel p cl = some r := by
  intro ps
  induction ps with
  | nil => intro _; exact ⟨0, fun p hp => by simp at hp⟩
  | cons q rest ih =>
    intro h
    obtain ⟨f1, h1⟩ := h q (List.mem_cons_self _ _)
    obtain ⟨f2, h2⟩ := ih (fun p hp => h p (List.mem_cons_of_mem _ hp))
    refine ⟨max f1 f2, ?_⟩
    intro p hp cl
    rcases List.mem_cons.1 hp with rfl | hp
    · obtain ⟨r, hr⟩ := h1 cl
      exact ⟨r, find_new_parents_graph_mono parents dict f1 _ (Nat.le_max_left _ _) _ _ _ hr⟩
    · obtain ⟨r, hr⟩ := h2 p hp cl
      exact ⟨r, find_new_parents_graph_mono parents dict f2 _ (Nat.le_max_right _ _) _ _ _ hr⟩

theorem find_new_parents_graph_total {α β : Type} (parents : α → List α)
    (dict : α → Option β) (hwf : WellFounded (fun p c => p ∈ parents c)) (old : α) :
    ∃ fuel, ∀ cl, ∃ r, find_new_parents_graph parents dict fuel old cl = some r := by
  induction old using hwf.induction with
  | _ old ih =>
    obtain ⟨fuel, hfuel⟩ := find_new_parents_graph_common_fuel parents dict (parents old) ih
    refine ⟨fuel + 1, ?_⟩
    intro cl
    simp only [find_new_parents_graph]
    exact find_new_parents_graph_loop_total dict _ _ hfuel cl

theorem find_new_parents_graph_loop_agrees (m : dict_t)
    (self : git_commit → List git_commit → Option (Except Fatal (List git_commit)))
    (hself : ∀ c l r, self c l = some r →
      r = commit_list_result (find_new_parents c m { list := l })) :
    ∀ (ps : List git_commit) (l : List git_commit) (r : Except Fatal (List git_commit)),
      find_new_parents_graph_loop (fun p => dict_lookup m (git_commit_id p)) self ps l = some r →
      r = commit_list_result (find_new_parents_loop ps m { list := l }) := by
  intro ps
  induction ps with
  | nil =>
    intro l r h
    simp only [find_new_parents_graph_loop, Option.some.injEq] at h
    simp [find_new_parents_loop, commit_list_result, ← h]
  | cons p rest ih =>
    intro l r h
    simp only [find_new_parents_graph_loop] at h
    simp only [find_new_parents_loop]
    cases hd : dict_lookup m (git_commit_id p) with
    | some newc =>
      simp only [hd] at h ⊢
      by_cases hfull : l.length ≥ OIDLIST_MAX
      · simp only [hfull, if_true, Option.some.injEq] at h
        simp [commit_list_t.len, hfull, commit_list_result, ← h]
      · simp only [hfull, if_false] at h
        simp only [commit_list_t.len, hfull, if_false]
        exact ih _ _ h
    | none =>
      simp only [hd] at h ⊢
      cases hs : self p l with
      | none => simp [hs] at h
      | some res =>
        have hres := hself p l res hs
        simp only [hs] at h
        cases hf : find_new_parents p m { list := l } with
        | error e =>
          simp only [hf, commit_list_result] at hres
          subst hres
          simp only [Option.some.injEq] at h
          simp [commit_list_result, ← h]
        | ok cl1 =>
          simp only [hf, commit_list_result] at hres
          subst hres
          simp only [] at h ⊢
          exact ih _ _ h

/-- Whenever the resolver over the graph of content-addressed commits
returns, it returns what `find_new_parents` returns. -/
theorem find_new_parents_graph_agrees (m : dict_t) :
    ∀ (fuel : Nat) (c : git_commit) (l : List git_commit) (r : Except Fatal (List git_commit)),
      find_new_parents_graph git_commit_parents (fun p => dict_lookup m (git_commit_id p))
          fuel c l = some r →
      r = commit_list_result (find_new_parents c m { list := l }) := by
  intro fuel
  induction fuel with
  | zero => intro c l r h; simp [find_new_parents_graph] at h
  | succ n ih =>
    intro c l r h
    simp only [find_new_parents_graph] at h
    have hloop := find_new_parents_graph_loop_agrees m _ ih _ _ _ h
    cases c with
    | mk t ps a co msg =>
      simpa [find_new_parents, git_commit_parents] using hloop

/-- The parent relation of content-addressed commits is well-founded: a
parent is a proper part of the commit. -/
theorem git_commit_parents_wf :
    WellFounded (fun p c : git_commit => p ∈ git_commit_parents c) := by
  refine Subrelation.wf ?_ (measure (fun c : git_commit => sizeOf c)).wf
  intro p c hp
  cases c with
  | mk t ps a co msg =>
    simp only [git_commit_parents] at hp
    have hlt := List.sizeOf_lt_of_mem hp
    show sizeOf p < sizeOf (git_commit.mk t ps a co msg)
    simp only [git_commit.mk.sizeOf_spec]
    omega

/-- On the graph of content-addressed commits the resolver returns, with
enough fuel, the result of `find_new_parents`. -/
theorem find_new_parents_graph_complete (m : dict_t) (c : git_commit) :
    ∃ fuel, ∀ cl : commit_list_t,
      find_new_parents_graph git_commit_parents (fun p => dict_lookup m (git_commit_id p))
          fuel c cl.list
        = some (commit_list_result (find_new_parents c m cl)) := by
  obtain ⟨fuel, hfuel⟩ := find_new_parents_graph_total git_commit_parents
    (fun p => dict_lookup m (git_commit_id p)) git_commit_parents_wf c
  refine ⟨fuel, ?_⟩
  intro cl
  obtain ⟨r, hr⟩ := hfuel cl.list
  rw [hr, find_new_parents_graph_agrees m fuel c cl.list r hr]

/-- In a graph with a cycle of unmapped commits the resolver does not
return: the commit `0` that is its own parent exhausts every fuel. -/
theorem find_new_parents_graph_cycle (fuel : Nat) :
    find_new_parents_graph (fun _ : Nat => [0]) (fun _ : Nat => (none : Option Nat)) fuel 0 []
      = none := by
  induction fuel with
  | zero => rfl
  | succ n ih => simp [find_new_parents_graph, find_new_parents_graph_loop, ih]

/-- C18: in a commit graph whose parent relation is well-founded (no
infinite chain of parent links: the graph reachable from a commit is finite
and without a cycle), `find_new_parents` returns on every commit, for
every Revision-Map and every list it is handed: a recursion depth exists
at which the call returns, whatever the list, and every larger depth gives
the same result. On a commit with no parents it returns the list it was
handed, the empty list for the empty list. -/
theorem find_new_parents_terminates {α β : Type} (parents : α → List α)
    (dict : α → Option β) (hwf : WellFounded (fun p c => p ∈ parents c)) (old : α) :
    (∃ fuel, ∀ cl, ∃ r, ∀ fuel2, fuel ≤ fuel2 →
      find_new_parents_graph parents dict fuel2 old cl = some r) ∧
    (parents old = [] → ∀ fuel cl,
      find_new_parents_graph parents dict (fuel + 1) old cl = some (.ok cl)) := by
  constructor
  · obtain ⟨fuel, hfuel⟩ := find_new_parents_graph_total parents dict hwf old
    refine ⟨fuel, ?_⟩
    intro cl
    obtain ⟨r, hr⟩ := hfuel cl
    exact ⟨r, fun fuel2 hle => find_new_parents_graph_mono parents dict fuel fuel2 hle _ _ _ hr⟩
  · intro hroot fuel cl
    simp [find_new_parents_graph, hroot, find_new_parents_graph_loop]

/-- Witness of C18: the graph of content-addressed commits with the
Revision-Map of the chain `A -> B -> C`, at the commit `C` and at the root
`A`. -/
theorem find_new_parents_terminates_witness :
    (∃ fuel, ∀ cl, ∃ r, ∀ fuel2, fuel ≤ fuel2 →
      find_new_parents_graph git_commit_parents
        (fun p => dict_lookup example_chain_dict (git_commit_id p)) fuel2 example_chain_C cl
        = some r) ∧
    (∀ fuel cl,
      find_new_parents_graph git_commit_parents
        (fun p => dict_lookup example_chain_dict (git_commit_id p)) (fuel + 1) example_chain_A cl
        = some (.ok cl)) :=
  ⟨(find_new_parents_terminates git_commit_parents
      (fun p => dict_lookup example_chain_dict (git_commit_id p)) git_commit_parents_wf
      example_chain_C).1,
   (find_new_parents_terminates git_commit_parents
      (fun p => dict_lookup example_chain_dict (git_commit_id p)) git_commit_parents_wf
      example_chain_A).2 rfl⟩

/-! ## Theorems: reading lines -/

theorem fgets_bytes_line : ∀ (room : Nat) (l rest : List Nat), NEWLINE ∉ l → l.length < room →
    fgets_bytes room (l ++ NEWLINE :: rest) = (l ++ [NEWLINE], rest, false) := by
  intro room l
  induction l generalizing room with
  | nil =>
    intro rest _ hroom
    cases room with
    | zero => omega
    | succ r => simp [fgets_bytes]
  | cons c l ih =>
    intro rest hnl hroom
    cases room with
    | zero => omega
    | succ r =>
      have hc : c ≠ NEWLINE := fun h => hnl (by simp [h])
      have hl : NEWLINE ∉ l := fun h => hnl (List.mem_cons_of_mem _ h)
      show fgets_bytes (r + 1) (c :: (l ++ NEWLINE :: rest)) = _
      simp only [fgets_bytes, hc, if_false]
      rw [ih r rest hl (by simpa using hroom)]
      rfl

theorem fgets_bytes_full : ∀ (room : Nat) (l rest : List Nat), NEWLINE ∉ l → room ≤ l.length →
    fgets_bytes room (l ++ rest) = (l.take room, l.drop room ++ rest, false) := by
  intro room
  induction room with
  | zero => intro l rest _ _; simp [fgets_bytes]
  | succ r ih =>
    intro l rest hnl hroom
    cases l with
    | nil => simp at hroom
    | cons c l =>
      have hc : c ≠ NEWLINE := fun h => hnl (by simp [h])
      have hl : NEWLINE ∉ l := fun h => hnl (List.mem_cons_of_mem _ h)
      show fgets_bytes (r + 1) (c :: (l ++ rest)) = _
      simp only [fgets_bytes, hc, if_false]
      rw [ih l rest hl (by simpa using hroom)]
      rfl

theorem fgets_bytes_eof : ∀ (room : Nat) (l : List Nat), NEWLINE ∉ l → l.length < room →
    fgets_bytes room l = (l, [], true) := by
  intro room l
  induction l generalizing room with
  | nil =>
    intro _ hroom
    cases room with
    | zero => omega
    | succ r => simp [fgets_bytes]
  | cons c l ih =>
    intro hnl hroom
    cases room with
    | zero => omega
    | succ r =>
      have hc : c ≠ NEWLINE := fun h => hnl (by simp [h])
      have hl : NEWLINE ∉ l := fun h => hnl (List.mem_cons_of_mem _ h)
      simp only [fgets_bytes, hc, if_false]
      rw [ih r hl (by simpa using hroom)]

theorem fgets_of_ne_nil (n : Nat) (f : FILE) (h : f.data ≠ []) :
    fgets n f = (some (fgets_bytes (n - 1) f.data).1,
      { data := (fgets_bytes (n - 1) f.data).2.1,
        eof := f.eof || (fgets_bytes (n - 1) f.data).2.2 }) := by
  unfold fgets
  cases hd : f.data with
  | nil => exact absurd hd h
  | cons c rest => rfl

theorem fgets_of_nil (n : Nat) (f : FILE) (h : f.data = []) :
    fgets n f = (none, { f with eof := true }) := by
  unfold fgets
  rw [h]

theorem cstr_of_buffer_eq (s : List Nat) (h : 0 ∉ s) : cstr_of_buffer s = s := by
  unfold cstr_of_buffer
  rw [List.takeWhile_eq_self_iff]
  intro x hx
  simp only [ne_eq, decide_not, Bool.not_eq_true', decide_eq_false_iff_not]
  intro hx0
  exact h (hx0 ▸ hx)

theorem getLast?_append_mem (a t : List Nat) (x : Nat) (ht : t ≠ [])
    (h : (a ++ t).getLast? = some x) : x ∈ t := by
  rw [List.getLast?_append] at h
  cases ht2 : t.getLast? with
  | none => exact absurd (List.getLast?_eq_none_iff.1 ht2) ht
  | some y =>
    rw [ht2] at h
    have hxy : some y = some x := h
    injection hxy with hxy
    subst hxy
    exact List.mem_of_getLast?_eq_some ht2

/-- One call of the loop of `local_fgets` on a stream that starts with the
line `l` and its newline: the bytes of `l` are appended to what was read
before, and the stream is left behind the newline. -/
theorem local_fgets_loop_line : ∀ (fuel : Nat) (f : FILE) (line : CStr) (len : Nat)
    (l rest : List Nat), f.data = l ++ NEWLINE :: rest → IsLine l → 0 ∉ line →
    strlen line + 2 ≤ len → l.length < fuel →
    local_fgets_loop fuel f line len
      = .ok (some (line ++ l), { data := rest, eof := f.eof }) := by
  intro fuel
  induction fuel with
  | zero => intro f line len l rest _ _ _ _ hfuel; omega
  | succ n ih =>
    intro f line len l rest hdata hl hline hlen hfuel
    have hne : f.data ≠ [] := by rw [hdata]; simp
    simp only [strlen] at hlen
    simp only [local_fgets_loop, strlen]
    rw [fgets_of_ne_nil _ f hne, hdata]
    simp only []
    by_cases hroom : l.length < len - line.length - 1
    · rw [fgets_bytes_line _ l rest hl.1 hroom]
      simp only []
      have hz : 0 ∉ line ++ (l ++ [NEWLINE]) := by
        simp [hline, hl.2, NEWLINE]
      rw [cstr_of_buffer_eq _ hz]
      have h1 : ¬ List.length (line ++ (l ++ [NEWLINE])) = 0 := by simp
      have h2 : ¬ (line ++ (l ++ [NEWLINE])).getLast? ≠ some NEWLINE := by
        simp [← List.append_assoc]
      simp only [h1, h2, if_false]
      simp [← List.append_assoc]
    · have hroom2 : len - line.length - 1 ≤ l.length := by omega
      have hpos : 1 ≤ len - line.length - 1 := by omega
      rw [fgets_bytes_full _ l (NEWLINE :: rest) hl.1 hroom2]
      simp only []
      have htake : l.take (len - line.length - 1) ≠ [] := by
        intro h
        have := congrArg List.length h
        simp only [List.length_take, List.length_nil] at this
        omega
      have hz : 0 ∉ line ++ l.take (len - line.length - 1) := by
        intro h
        rcases List.mem_append.1 h with h | h
        · exact hline h
        · exact hl.2 (List.mem_of_mem_take h)
      rw [cstr_of_buffer_eq _ hz]
      have h1 : ¬ List.length (line ++ l.take (len - line.length - 1)) = 0 := by
        simp only [strlen, List.length_append, List.length_take]
        omega
      have h2 : (line ++ l.take (len - line.length - 1)).getLast? ≠ some NEWLINE := by
        intro h
        exact hl.1 (List.mem_of_mem_take (getLast?_append_mem _ _ _ htake h))
      simp only [h1, h2, if_false, if_true, ne_eq, not_false_eq_true]
      rw [ih _ (line ++ l.take (len - line.length - 1)) (len + BUFLEN)
        (l.drop (len - line.length - 1)) rest rfl
        ⟨fun h => hl.1 (List.mem_of_mem_drop h), fun h => hl.2 (List.mem_of_mem_drop h)⟩ hz
        (by simp only [strlen, List.length_append, List.length_take, BUFLEN]; omega)
        (by simp only [List.length_drop]; omega)]
      simp [List.append_assoc]

/-- One call of the loop of `local_fgets` on a stream whose last bytes `l`
are not followed by a newline: the last byte of what was read is removed. -/
theorem local_fgets_loop_last : ∀ (fuel : Nat) (f : FILE) (line : CStr) (len : Nat)
    (l : List Nat), f.data = l → IsLine l → 0 ∉ line →
    strlen line + 2 ≤ len → l.length < fuel →
    local_fgets_loop fuel f line len
      = .ok (if line ++ l = [] then none else some (line ++ l).dropLast,
          { data := [], eof := true }) := by
  intro fuel
  induction fuel with
  | zero => intro f line len l _ _ _ _ hfuel; omega
  | succ n ih =>
    intro f line len l hdata hl hline hlen hfuel
    simp only [strlen] at hlen
    simp only [local_fgets_loop, strlen]
    by_cases hnil : l = []
    · subst hnil
      rw [fgets_of_nil _ f hdata]
      simp only [List.append_nil]
      by_cases hs : line.length = 0
      · have : line = [] := List.length_eq_zero.1 hs
        simp [this, hdata]
      · have : line ≠ [] := fun h => hs (by simp [h])
        simp [hs, this, hdata]
    · have hne : f.data ≠ [] := by rw [hdata]; exact hnil
      have hlpos : 1 ≤ l.length := by
        cases l with
        | nil => exact absurd rfl hnil
        | cons c t => simp
      rw [fgets_of_ne_nil _ f hne, hdata]
      simp only []
      have hpos : 1 ≤ len - line.length - 1 := by omega
      by_cases hroom : l.length < len - line.length - 1
      · rw [fgets_bytes_eof _ l hl.1 hroom]
        simp only []
        have hz : 0 ∉ line ++ l := by
          intro h
          rcases List.mem_append.1 h with h | h
          · exact hline h
          · exact hl.2 h
        rw [cstr_of_buffer_eq _ hz]
        have h1 : ¬ List.length (line ++ l) = 0 := by
          simp only [strlen, List.length_append]; omega
        have h2 : (line ++ l).getLast? ≠ some NEWLINE := by
          intro h
          exact hl.1 (getLast?_append_mem _ _ _ hnil h)
        simp only [h1, h2, if_false, if_true, ne_eq, not_false_eq_true]
        rw [ih _ (line ++ l) (len + BUFLEN) [] rfl ⟨by simp, by simp⟩ hz
          (by simp only [strlen, List.length_append, BUFLEN]; omega) (by simp only [List.length_nil]; omega)]
        simp
      · have hroom2 : len - line.length - 1 ≤ l.length := by omega
        have hfull := fgets_bytes_full _ l [] hl.1 hroom2
        rw [List.append_nil] at hfull
        rw [hfull]
        simp only []
        have htake : l.take (len - line.length - 1) ≠ [] := by
          intro h
          have := congrArg List.length h
          simp only [List.length_take, List.length_nil] at this
          omega
        have hz : 0 ∉ line ++ l.take (len - line.length - 1) := by
          intro h
          rcases List.mem_append.1 h with h | h
          · exact hline h
          · exact hl.2 (List.mem_of_mem_take h)
        rw [cstr_of_buffer_eq _ hz]
        have h1 : ¬ List.length (line ++ l.take (len - line.length - 1)) = 0 := by
          simp only [strlen, List.length_append, List.length_take]
          omega
        have h2 : (line ++ l.take (len - line.length - 1)).getLast? ≠ some NEWLINE := by
          intro h
          exact hl.1 (List.mem_of_mem_take (getLast?_append_mem _ _ _ htake h))
        simp only [h1, h2, if_false, if_true, ne_eq, not_false_eq_true]
        rw [ih _ (line ++ l.take (len - line.length - 1)) (len + BUFLEN)
          (l.drop (len - line.length - 1)) (by simp)
          ⟨fun h => hl.1 (List.mem_of_mem_drop h), fun h => hl.2 (List.mem_of_mem_drop h)⟩ hz
          (by simp only [strlen, List.length_append, List.length_take, BUFLEN]; omega)
          (by simp only [List.length_drop]; omega)]
        simp [List.append_assoc]

/-- The function `local_fgets` on a stream that starts with a line and its
newline returns the line and leaves the stream behind the newline. -/
theorem local_fgets_line (f : FILE) (l rest : List Nat)
    (hdata : f.data = l ++ NEWLINE :: rest) (hl : IsLine l) :
    local_fgets f = .ok (some l, { data := rest, eof := f.eof }) := by
  unfold local_fgets
  rw [local_fgets_loop_line _ f [] BUFLEN l rest hdata hl (by simp) (by simp [strlen, BUFLEN])
    (by rw [hdata]; simp only [List.length_append, List.length_cons]; omega)]
  simp

/-- The function `local_fgets` on a stream whose remaining bytes hold no
newline returns them without the last byte. -/
theorem local_fgets_last (f : FILE) (l : List Nat) (hdata : f.data = l) (hl : IsLine l)
    (hne : l ≠ []) :
    local_fgets f = .ok (some l.dropLast, { data := [], eof := true }) := by
  unfold local_fgets
  rw [local_fgets_loop_last _ f [] BUFLEN l hdata hl (by simp) (by simp [strlen, BUFLEN])
    (by rw [hdata]; omega)]
  simp [hne]

/-- The function `local_fgets` on an exhausted stream returns null. -/
theorem local_fgets_exhausted (f : FILE) (hdata : f.data = []) :
    local_fgets f = .ok (none, { data := [], eof := true }) := by
  unfold local_fgets
  rw [local_fgets_loop_last _ f [] BUFLEN [] hdata ⟨by simp, by simp⟩ (by simp)
    (by simp [strlen, BUFLEN]) (by rw [hdata]; simp)]
  simp

theorem stream_of_lines_length (lines : List CStr) :
    lines.length ≤ (stream_of_lines lines).length := by
  induction lines with
  | nil => simp [stream_of_lines]
  | cons l rest ih =>
    simp only [stream_of_lines, List.length_cons, List.length_append]
    omega

/-- The read loop of `include_dirs_init` on a text whose lines all end in a
newline, followed by the bytes `last` without a newline: the entries are
the lines, and `last` without its final byte when `last` is not empty. -/
theorem include_dirs_read_stream : ∀ (lines : List CStr) (last : List Nat) (fuel : Nat)
    (f : FILE), f.eof = false → f.data = stream_of_lines lines ++ last →
    (∀ l ∈ lines, IsLine l) → IsLine last → lines.length + 2 ≤ fuel →
    include_dirs_read fuel f
      = .ok (lines ++ if last = [] then [] else [last.dropLast]) := by
  intro lines
  induction lines with
  | nil =>
    intro last fuel f heof hdata _ hlast hfuel
    obtain ⟨n, rfl⟩ : ∃ n, fuel = n + 2 := ⟨fuel - 2, by omega⟩
    simp only [stream_of_lines, List.nil_append] at hdata
    simp only [include_dirs_read, feof, heof, Bool.false_eq_true, if_false]
    by_cases hnil : last = []
    · rw [local_fgets_exhausted f (by rw [hdata, hnil])]
      simp [hnil]
    · rw [local_fgets_last f last hdata hlast hnil]
      simp [hnil]
  | cons l rest ih =>
    intro last fuel f heof hdata hlines hlast hfuel
    obtain ⟨n, rfl⟩ : ∃ n, fuel = n + 1 := ⟨fuel - 1, by simp at hfuel; omega⟩
    have hdata2 : f.data = l ++ NEWLINE :: (stream_of_lines rest ++ last) := by
      rw [hdata]; simp [stream_of_lines]
    simp only [include_dirs_read, feof, heof, Bool.false_eq_true, if_false]
    rw [local_fgets_line f l _ hdata2 (hlines l (List.mem_cons_self _ _))]
    simp only []
    rw [ih last n { data := stream_of_lines rest ++ last, eof := f.eof } heof rfl
      (fun x hx => hlines x (List.mem_cons_of_mem _ hx)) hlast
      (by simp only [List.length_cons] at hfuel; omega)]
    simp

/-- The entries `include_dirs_init` reads from a text whose lines all end in
a newline are the lines of the text, in order. -/
theorem include_dirs_read_lines (lines : List CStr) (hlines : ∀ l ∈ lines, IsLine l) :
    include_dirs_read ((stream_of_lines lines).length + 2)
        { data := stream_of_lines lines, eof := false }
      = .ok lines := by
  have h := include_dirs_read_stream lines [] ((stream_of_lines lines).length + 2)
    { data := stream_of_lines lines, eof := false } rfl (by simp) hlines ⟨by simp, by simp⟩
    (by have := stream_of_lines_length lines; omega)
  simpa using h

/-- C19: the include file with the bytes `a`, newline, `b`, `c` and no
newline at the end has the lines `a` and `bc`. The calls of `local_fgets`
return `a`, then `b` (the last byte of the unterminated line is
overwritten by the terminator), then null; `include_dirs_init` builds the
Include-Set `{a, b}`. With a newline at the end the entries are `a` and
`bc`. The count of the struct is zero on entry. -/
theorem local_fgets_drops_last_byte :
    local_fgets { data := [97, 10, 98, 99], eof := false }
      = .ok (some [97], { data := [98, 99], eof := false }) ∧
    local_fgets { data := [98, 99], eof := false }
      = .ok (some [98], { data := [], eof := true }) ∧
    local_fgets { data := [], eof := true } = .ok (none, { data := [], eof := true }) ∧
    include_dirs_init 0 (some { data := [97, 10, 98, 99], eof := false })
      = .ok { dirs := [[97], [98]] } ∧
    include_dirs_init 0 (some { data := [97, 10, 98, 99, 10], eof := false })
      = .ok { dirs := [[97], [98, 99]] } := by
  refine ⟨by decide, by decide, by decide, by decide, by decide⟩

/-! ## Theorems: configuration file -/

/-- The function `local_sprintf` returns the whole text unless the text has
exactly `BUFLEN` bytes. -/
theorem local_sprintf_eq (s : CStr) (h : s.length ≠ BUFLEN) : local_sprintf s = s := by
  unfold local_sprintf vsnprintf
  simp only []
  by_cases hgt : s.length > BUFLEN
  · simp only [hgt, if_true]
    exact List.take_of_length_le (by omega)
  · simp only [hgt, if_false]
    exact List.take_of_length_le (by omega)

/-- A text of exactly `BUFLEN` bytes comes back from `local_sprintf` without
its last byte: `vsnprintf` stored `BUFLEN - 1` bytes and returned `BUFLEN`,
which the test `cnt > BUFLEN` lets pass. -/
theorem local_sprintf_cut (s : CStr) (h : s.length = BUFLEN) :
    local_sprintf s = s.take (BUFLEN - 1) ∧ local_sprintf s ≠ s := by
  have hcut : local_sprintf s = s.take (BUFLEN - 1) := by
    unfold local_sprintf vsnprintf
    simp [h]
  refine ⟨hcut, ?_⟩
  intro heq
  have hlen := congrArg List.length heq
  rw [hcut, List.length_take, h] at hlen
  simp [BUFLEN] at hlen

/-- The include-file path `parse_config_file` records for a `FILT` line is the
path of the specification unless a base is set and base and path have
`BUFLEN` bytes together. -/
theorem parse_config_filt_path (base : Option CStr) (file : CStr)
    (h : base = none ∨ (include_path_spec base file).length ≠ BUFLEN) :
    (match (motive := Option CStr → CStr) base with
      | some b => local_sprintf (b ++ file)
      | none => file) = include_path_spec base file := by
  cases base with
  | none => rfl
  | some b =>
    rcases h with h | h
    · cases h
    · exact local_sprintf_eq _ h

set_option maxRecDepth 20000 in
/-- C15: the configuration file with a `BASE` line of 64 bytes and a `FILT`
line whose path has 64 bytes. `local_sprintf` asks `vsnprintf` for at most
`BUFLEN = 128` bytes with the terminator and enlarges the buffer only when
`cnt > BUFLEN`; here `cnt = BUFLEN`, so the recorded include-file path has
127 bytes: the concatenation without its last byte. With a path of 63 or
of 65 bytes the concatenation is recorded. -/
theorem parse_config_file_truncates :
    (parse_config_file (some (example_config example_base example_include_name))).map
        (fun st => (st.base, st.tf_list.map (fun tf => tf.include_file)))
      = .ok (some example_base, [example_base ++ List.replicate 63 102]) ∧
    (example_base ++ example_include_name).length = BUFLEN ∧
    example_base ++ List.replicate 63 102 ≠ example_base ++ example_include_name ∧
    (parse_config_file (some (example_config example_base (List.replicate 63 102)))).map
        (fun st => st.tf_list.map (fun tf => tf.include_file))
      = .ok [example_base ++ List.replicate 63 102] ∧
    (parse_config_file (some (example_config example_base (List.replicate 65 102)))).map
        (fun st => st.tf_list.map (fun tf => tf.include_file))
      = .ok [example_base ++ List.replicate 65 102] := by
  refine ⟨by decide, by decide, by decide, by decide, by decide⟩

/-! ## Theorems: finalisation -/

/-- The last loop of `main` does not test `tf->last`: at a filter for which
no commit was written it reads a pointer that was never assigned. -/
theorem main_finalize_unset ( git_tag_prefix : CStr) (writable : CStr → Bool)
    (tf : tree_filter) (rest : List tree_filter) (out : output_t) (hlast : tf.last = none) :
    main_finalize git_tag_prefix writable (tf :: rest) out = .error .undefined_behaviour := by
  simp only [main_finalize, hlast]

set_option maxRecDepth 20000 in
set_option maxHeartbeats 4000000 in
/-- C16: the run with one filter `n` whose include file names the path `c`,
over the three commits of the scenario (paths `a/x`, `a/y`, `b/z`). No
commit has an entry at `c`, so `create_commit` never writes a commit and
never assigns `last` of the filter. The last loop of `main` then calls
`git_commit_id(tf->last)` on the unassigned pointer: the program has no
test and no fatal exit of its own at this point. With the include file
naming `a` the same run creates the reference `refs/heads/tn`. -/
theorem main_finalize_reads_unset_last :
    (main_walk (example_walker REV_REF [109]) { commits := [] }
        [{ name := [110], include_file := [105], id := { dirs := [[99]] }, last := none,
           revdict := dict_init }]).map (fun r => r.2.map (fun tf => tf.last))
      = .ok [none] ∧
    main (some [99]) (example_files [99, 10]) (fun _ => true) example_walker []
      = .error .undefined_behaviour ∧
    (main (some [99]) (example_files [97, 10]) (fun _ => true) example_walker []).map
        (fun r => (r.1.commits, r.2.refs))
      = .ok ([example_derived_1, example_derived_3],
          [(REFS_HEADS ++ [116, 110], example_derived_3)]) := by
  refine ⟨by decide, by decide, by decide⟩

/-! ## Theorems: the open levels of the builder stack -/

theorem stack_open_is_open : StackOpen stack_open stack_open.depth := by
  refine ⟨Nat.le_refl _, ?_, ?_, ?_⟩
  · intro i hi
    have : i = 0 := by simp only [stack_open] at hi; omega
    subst this
    simp [stack_open]
  · intro i h1 hi
    simp only [stack_open] at hi
    omega
  · intro i hi
    have : ¬ i = 0 := by simp only [stack_open] at hi; omega
    simp [stack_open, this, dirstack_item_zero]

theorem stack_close_level_open (s : dirstack_t) (i : Nat) (hi : 1 ≤ i)
    (hs : StackOpen s (i + 1)) :
    ∃ s', stack_close_level s i = .ok s' ∧ StackOpen s' i ∧ s'.depth = s.depth ∧
      ∀ j, j < i → (s'.item j).name = (s.item j).name := by
  obtain ⟨_, h2, h3, h4⟩ := hs
  obtain ⟨tb, htb⟩ := Option.ne_none_iff_exists'.1 (h2 i (by omega))
  obtain ⟨ptb, hptb⟩ := Option.ne_none_iff_exists'.1 (h2 (i - 1) (by omega))
  obtain ⟨nm, hnm⟩ := Option.ne_none_iff_exists'.1 (h3 i hi (by omega))
  have hclose : stack_close_level s i = .ok (stack_set_item (stack_set_item s (i - 1)
      { s.item (i - 1) with
        tb := some (git_treebuilder_insert ptb nm (git_treebuilder_write tb)
          GIT_FILEMODE_TREE) }) i { tb := none, name := none }) := by
    simp only [stack_close_level, stack_get_item, htb, hnm, hptb]
  refine ⟨_, hclose, ⟨hi, ?_, ?_, ?_⟩, rfl, ?_⟩
  · intro j hj
    have hji : ¬ j = i := by omega
    simp only [stack_set_item, hji, if_false]
    by_cases hjp : j = i - 1
    · simp [hjp]
    · simp only [hjp, if_false]
      exact h2 j (by omega)
  · intro j hj1 hj
    have hji : ¬ j = i := by omega
    simp only [stack_set_item, hji, if_false]
    by_cases hjp : j = i - 1
    · simp only [hjp, if_true]
      rw [← hjp]
      exact h3 j hj1 (by omega)
    · simp only [hjp, if_false]
      exact h3 j hj1 (by omega)
  · intro j hj
    simp only [stack_set_item]
    by_cases hji : j = i
    · simp [hji]
    · have hjp : ¬ j = i - 1 := by omega
      simp only [hji, hjp, if_false]
      exact h4 j (by omega)
  · intro j hj
    have hji : ¬ j = i := by omega
    simp only [stack_set_item, hji, if_false]
    by_cases hjp : j = i - 1
    · simp [hjp]
    · simp [hjp]

theorem stack_close_loop_open (level : Nat) (hl : 1 ≤ level) :
    ∀ (n : Nat) (s : dirstack_t), StackOpen s (level + n) →
      ∃ s', stack_close_loop level n s = .ok s' ∧ StackOpen s' level ∧
        s'.depth = s.depth ∧ ∀ j, j < level → (s'.item j).name = (s.item j).name := by
  intro n
  induction n with
  | zero =>
    intro s hs
    exact ⟨s, rfl, hs, rfl, fun _ _ => rfl⟩
  | succ n ih =>
    intro s hs
    obtain ⟨s1, h1, hs1, hd1, hn1⟩ := stack_close_level_open s (level + n) (by omega) hs
    obtain ⟨s2, h2, hs2, hd2, hn2⟩ := ih s1 hs1
    refine ⟨s2, ?_, hs2, by rw [hd2, hd1], ?_⟩
    · simp only [stack_close_loop, h1]
      exact h2
    · intro j hj
      rw [hn2 j hj, hn1 j (by omega)]

theorem stack_close_to_open (s : dirstack_t) (level : Nat) (hl : 1 ≤ level)
    (hld : level ≤ s.depth) (hs : StackOpen s s.depth) :
    ∃ s', _stack_close_to s level = .ok s' ∧ StackOpen s' s'.depth ∧
      s'.depth = level ∧ ∀ j, j < level → (s'.item j).name = (s.item j).name := by
  have hs' : StackOpen s (level + (s.depth - level)) := by
    rw [Nat.add_sub_cancel' hld]; exact hs
  obtain ⟨s1, h1, hs1, _, hn1⟩ := stack_close_loop_open level hl _ s hs'
  refine ⟨{ s1 with depth := level }, ?_, hs1, rfl, hn1⟩
  simp only [_stack_close_to, h1]

theorem stack_open_level_open (s : dirstack_t) (level : Nat) (seg : CStr) (hl : 1 ≤ level)
    (hs : StackOpen s level) :
    StackOpen
      { stack_set_item s level { tb := some [], name := some seg } with depth := level + 1 }
      (level + 1) := by
  obtain ⟨_, h2, h3, h4⟩ := hs
  refine ⟨by omega, ?_, ?_, ?_⟩
  · intro j hj
    simp only [stack_set_item]
    by_cases hjl : j = level
    · simp [hjl]
    · simp only [hjl, if_false]
      exact h2 j (by omega)
  · intro j hj1 hj
    simp only [stack_set_item]
    by_cases hjl : j = level
    · simp [hjl]
    · simp only [hjl, if_false]
      exact h3 j hj1 (by omega)
  · intro j hj
    have hjl : ¬ j = level := by omega
    simp only [stack_set_item, hjl, if_false]
    exact h4 j (by omega)

/-- The loop of `_handle_stack` on a stack in the state `StackOpen`: it
returns; the levels from `level` on then hold the segments; when they
held them before, the stack is left as it was, and otherwise the last
segment is the topmost open level. -/
theorem handle_stack_loop_open :
    ∀ (segs : List CStr) (level : Nat) (s : dirstack_t), 1 ≤ level → level ≤ s.depth →
      StackOpen s s.depth →
      ∃ s', handle_stack_loop segs level s = .ok s' ∧ StackOpen s' s'.depth ∧
        level + segs.length ≤ s'.depth ∧ LevelsNamed s' level segs ∧
        (∀ j, j < level → (s'.item j).name = (s.item j).name) ∧
        (s.depth = level → s'.depth = level + segs.length) ∧
        (LevelsNamed s level segs → s' = s) ∧
        (¬ LevelsNamed s level segs → s'.depth = level + segs.length) := by
  intro segs
  induction segs with
  | nil =>
    intro level s _ hld hs
    refine ⟨s, rfl, hs, by simpa using hld, trivial, fun _ _ => rfl, ?_, fun _ => rfl, ?_⟩
    · intro h; simp [h]
    · intro h; exact absurd trivial h
  | cons seg rest ih =>
    intro level s hl hld hs
    have hopen : ∀ s0 : dirstack_t, StackOpen s0 level →
        (∀ j, j < level → (s0.item j).name = (s.item j).name) →
        ∃ s', handle_stack_loop rest (level + 1)
            { stack_set_item s0 level { tb := some [], name := some seg } with
              depth := level + 1 } = .ok s' ∧
          StackOpen s' s'.depth ∧
          level + (seg :: rest).length ≤ s'.depth ∧
          LevelsNamed s' level (seg :: rest) ∧
          (∀ j, j < level → (s'.item j).name = (s.item j).name) ∧
          s'.depth = level + (seg :: rest).length := by
      intro s0 hs0 hn0
      have hs1 := stack_open_level_open s0 level seg hl hs0
      obtain ⟨s', h1, h2, h3, h4, h5, h6, _, _⟩ := ih (level + 1)
        { stack_set_item s0 level { tb := some [], name := some seg } with depth := level + 1 }
        (by omega) (Nat.le_refl _) hs1
      have hd : s'.depth = level + (seg :: rest).length := by
        rw [h6 rfl]; simp only [List.length_cons]; omega
      refine ⟨s', h1, h2, by omega, ⟨?_, h4⟩, ?_, hd⟩
      · rw [h5 level (by omega)]
        simp [stack_set_item]
      · intro j hj
        rw [h5 j (by omega)]
        have hjl : ¬ j = level := by omega
        simp only [stack_set_item, hjl, if_false]
        exact hn0 j hj
    simp only [handle_stack_loop, stack_get_item]
    cases hname : (s.item level).name with
    | none =>
      have hdepth : s.depth = level := by
        by_contra hne
        exact hs.2.2.1 level hl (by omega) hname
      simp only []
      obtain ⟨s', h1, h2, h3, h4, h5, h6⟩ := hopen s (by rw [← hdepth]; exact hs)
        (fun _ _ => rfl)
      refine ⟨s', h1, h2, h3, h4, h5, fun _ => h6, ?_, fun _ => h6⟩
      intro hnamed
      rw [hnamed.1] at hname
      cases hname
    | some nm =>
      have hlt : level < s.depth := by
        by_contra hge
        have := (hs.2.2.2 level (by omega)).2
        rw [hname] at this
        cases this
      simp only []
      by_cases hsame : nm = seg
      · simp only [hsame, if_true]
        obtain ⟨s', h1, h2, h3, h4, h5, _, h7, h8⟩ := ih (level + 1) s (by omega) (by omega) hs
        refine ⟨s', h1, h2, ?_, ⟨?_, h4⟩, ?_, ?_, ?_, ?_⟩
        · simp only [List.length_cons]; omega
        · rw [h5 level (by omega), hname, hsame]
        · intro j hj
          exact h5 j (by omega)
        · intro hd; omega
        · intro hnamed
          exact h7 hnamed.2
        · intro hnot
          have hnr : ¬ LevelsNamed s (level + 1) rest := by
            intro hr
            exact hnot ⟨by rw [hname, hsame], hr⟩
          rw [h8 hnr]
          simp only [List.length_cons]; omega
      · have htb : ¬ (s.item level).tb = none := hs.2.1 level hlt
        obtain ⟨s1, hc1, hs1, hd1, hn1⟩ := stack_close_to_open s level hl (by omega) hs
        have hcl := hs1.2.2.2 level (by omega)
        simp only [hsame, if_false, htb, hc1, stack_get_item, hd1, hcl.1, hcl.2, ne_eq,
          not_true_eq_false]
        obtain ⟨s', h1, h2, h3, h4, h5, h6⟩ := hopen s1 (by rw [← hd1]; exact hs1) hn1
        refine ⟨s', h1, h2, h3, h4, h5, fun _ => h6, ?_, fun _ => h6⟩
        intro hnamed
        rw [hnamed.1] at hname
        injection hname with hname
        exact absurd hname.symm hsame

theorem levels_named_congr (s s' : dirstack_t)
    (h : ∀ j, (s'.item j).name = (s.item j).name) :
    ∀ (segs : List CStr) (level : Nat), LevelsNamed s level segs → LevelsNamed s' level segs := by
  intro segs
  induction segs with
  | nil => intro _ _; trivial
  | cons seg rest ih =>
    intro level hn
    exact ⟨by rw [h]; exact hn.1, ih _ hn.2⟩

theorem stack_set_tb_open (s : dirstack_t) (d i : Nat) (b : git_treebuilder)
    (hs : StackOpen s d) (hi : i < d) :
    StackOpen (stack_set_item s i { s.item i with tb := some b }) d := by
  obtain ⟨h1, h2, h3, h4⟩ := hs
  refine ⟨h1, ?_, ?_, ?_⟩
  · intro j hj
    simp only [stack_set_item]
    by_cases hji : j = i
    · simp [hji]
    · simp only [hji, if_false]
      exact h2 j hj
  · intro j hj1 hj
    simp only [stack_set_item]
    by_cases hji : j = i
    · simp only [hji, if_true]
      rw [← hji]
      exact h3 j hj1 hj
    · simp only [hji, if_false]
      exact h3 j hj1 hj
  · intro j hj
    have hji : ¬ j = i := by omega
    simp only [stack_set_item, hji, if_false]
    exact h4 j hj

theorem directory_segments_length (path : CStr) :
    (directory_segments path).length + 1 = (path_components path).length := by
  have hne : path_components path ≠ [] := path_components_from_ne_nil _ _
  have := List.length_pos.2 hne
  simp only [directory_segments, List.length_dropLast]
  omega

/-- The call of `_handle_stack` in `stack_add` on a stack in the state
`StackOpen`. -/
theorem stack_add_handle_open (s : dirstack_t) (path : CStr) (hs : StackOpen s s.depth) :
    ∃ s1, (if (path_components path).length > 1 then
          _handle_stack s (path_components path) ((path_components path).length - 1)
        else .ok s) = .ok s1 ∧ StackOpen s1 s1.depth ∧
      (directory_segments path).length + 1 ≤ s1.depth ∧
      LevelsNamed s1 1 (directory_segments path) ∧
      (LevelsNamed s 1 (directory_segments path) → s1 = s) ∧
      (¬ LevelsNamed s 1 (directory_segments path) →
        s1.depth = (directory_segments path).length + 1) := by
  have hlen := directory_segments_length path
  by_cases hcnt : (path_components path).length > 1
  · have hnz : ¬ (path_components path).length - 1 = 0 := by omega
    have htake : (path_components path).take ((path_components path).length - 1)
        = directory_segments path := by
      rw [directory_segments, List.dropLast_eq_take]
    simp only [hcnt, if_true, _handle_stack, hnz, if_false, htake]
    obtain ⟨s1, h1, h2, h3, h4, _, _, h7, h8⟩ :=
      handle_stack_loop_open (directory_segments path) 1 s (Nat.le_refl _) hs.1 hs
    refine ⟨s1, h1, h2, by omega, h4, h7, ?_⟩
    intro hnot
    rw [h8 hnot]
    omega
  · simp only [hcnt, if_false]
    have hnil : directory_segments path = [] := by
      apply List.length_eq_zero.1
      omega
    rw [hnil]
    refine ⟨s, rfl, hs, by simpa using hs.1, trivial, fun _ => rfl, ?_⟩
    intro hnot
    exact absurd trivial hnot

/-- The function `stack_add` on a stack in the state `StackOpen`, for a path
of fewer than `STACK_CHUNKS` components: it returns a stack in that state
whose levels `1..k` hold the directory segments of the path; when they
held them before, the depth and the names are left as they were, and
otherwise the depth is `k + 1`. -/
theorem stack_add_open (s : dirstack_t) (path : CStr) (ent : git_tree_entry)
    (hs : StackOpen s s.depth) (hdeep : (path_components path).length < STACK_CHUNKS) :
    ∃ s', stack_add s path ent = .ok s' ∧ StackOpen s' s'.depth ∧
      (directory_segments path).length + 1 ≤ s'.depth ∧
      LevelsNamed s' 1 (directory_segments path) ∧
      (LevelsNamed s 1 (directory_segments path) →
        s'.depth = s.depth ∧ ∀ i, (s'.item i).name = (s.item i).name) ∧
      (¬ LevelsNamed s 1 (directory_segments path) →
        s'.depth = (directory_segments path).length + 1) := by
  obtain ⟨s1, h1, h2, h3, h4, h5, h6⟩ := stack_add_handle_open s path hs
  have hlen := directory_segments_length path
  have hidx : (path_components path).length - 1 < s1.depth := by omega
  obtain ⟨tb, htb⟩ := Option.ne_none_iff_exists'.1 (h2.2.1 _ hidx)
  have hadd : stack_add s path ent = .ok (stack_set_item s1 ((path_components path).length - 1)
      { s1.item ((path_components path).length - 1) with
        tb := some (git_treebuilder_insert tb (git_tree_entry_name ent)
          (git_tree_entry_id ent) (git_tree_entry_filemode ent)) }) := by
    simp only [stack_add, split_path, hdeep, if_true, h1, stack_get_item, htb]
  have hnames : ∀ j, ((stack_set_item s1 ((path_components path).length - 1)
      { s1.item ((path_components path).length - 1) with
        tb := some (git_treebuilder_insert tb (git_tree_entry_name ent)
          (git_tree_entry_id ent) (git_tree_entry_filemode ent)) }).item j).name
      = (s1.item j).name := by
    intro j
    simp only [stack_set_item]
    by_cases hj : j = (path_components path).length - 1
    · simp [hj]
    · simp [hj]
  refine ⟨_, hadd, stack_set_tb_open s1 s1.depth _ _ h2 hidx, h3,
    levels_named_congr s1 _ hnames _ _ h4, ?_, h6⟩
  intro hnamed
  have hs1 := h5 hnamed
  refine ⟨by rw [hs1]; rfl, ?_⟩
  intro i
  rw [hnames i, hs1]

theorem filtered_tree_loop_open (tree : git_tree) :
    ∀ (dirs : List CStr) (s : dirstack_t), StackOpen s s.depth →
      (∀ p ∈ dirs, (path_components p).length < STACK_CHUNKS) →
      ∃ s', filtered_tree_loop tree dirs s = .ok s' ∧ StackOpen s' s'.depth := by
  intro dirs
  induction dirs with
  | nil => intro s hs _; exact ⟨s, rfl, hs⟩
  | cons p rest ih =>
    intro s hs hdeep
    simp only [filtered_tree_loop]
    have hrest : ∀ q ∈ rest, (path_components q).length < STACK_CHUNKS :=
      fun q hq => hdeep q (List.mem_cons_of_mem _ hq)
    cases hlook : git_tree_entry_bypath tree p with
    | none => exact ih s hs hrest
    | some out =>
      obtain ⟨s1, h1, h2, _⟩ := stack_add_open s p out hs (hdeep p (List.mem_cons_self _ _))
      simp only [h1]
      exact ih s1 h2 hrest

theorem stack_close_open (s : dirstack_t) (hs : StackOpen s s.depth) :
    ∃ t, stack_close s = .ok (.tree t) := by
  obtain ⟨s1, h1, h2, h3, _⟩ := stack_close_to_open s 1 (Nat.le_refl _) hs.1 hs
  obtain ⟨tb, htb⟩ := Option.ne_none_iff_exists'.1 (h2.2.1 0 (by omega))
  exact ⟨tb, by simp only [stack_close, h1, stack_get_item, htb, git_treebuilder_write]⟩

theorem stack_add_deep (s : dirstack_t) (path : CStr) (ent : git_tree_entry)
    (hdeep : ¬ (path_components path).length < STACK_CHUNKS) :
    stack_add s path ent = .error .undefined_behaviour := by
  simp only [stack_add, split_path, hdeep, if_false]

/-- The loop of `filtered_tree` on a stack in the state `StackOpen`: it
returns a stack in that state, or it ends in `split_path` at a path of
`STACK_CHUNKS` or more components. -/
theorem filtered_tree_loop_outcome (tree : git_tree) :
    ∀ (dirs : List CStr) (s : dirstack_t), StackOpen s s.depth →
      (∃ s', filtered_tree_loop tree dirs s = .ok s' ∧ StackOpen s' s'.depth) ∨
      (filtered_tree_loop tree dirs s = .error .undefined_behaviour ∧
        ∃ p ∈ dirs, STACK_CHUNKS ≤ (path_components p).length) := by
  intro dirs
  induction dirs with
  | nil => intro s hs; exact Or.inl ⟨s, rfl, hs⟩
  | cons p rest ih =>
    intro s hs
    have hlift : ∀ s1, StackOpen s1 s1.depth →
        (∃ s', filtered_tree_loop tree rest s1 = .ok s' ∧ StackOpen s' s'.depth) ∨
        (filtered_tree_loop tree rest s1 = .error .undefined_behaviour ∧
          ∃ q ∈ p :: rest, STACK_CHUNKS ≤ (path_components q).length) := by
      intro s1 hs1
      rcases ih s1 hs1 with h | ⟨h, q, hq, hlen⟩
      · exact Or.inl h
      · exact Or.inr ⟨h, q, List.mem_cons_of_mem _ hq, hlen⟩
    simp only [filtered_tree_loop]
    cases hlook : git_tree_entry_bypath tree p with
    | none => exact hlift s hs
    | some out =>
      simp only []
      by_cases hdeep : (path_components p).length < STACK_CHUNKS
      · obtain ⟨s1, h1, h2, _⟩ := stack_add_open s p out hs hdeep
        simp only [h1]
        exact hlift s1 h2
      · rw [stack_add_deep s p out hdeep]
        exact Or.inr ⟨rfl, p, List.mem_cons_self _ _, by omega⟩

/-- C14 (amended): a build never ends with the stack-order error. For every
tree and every list of paths, in whatever order, `filtered_tree` returns a
tree when every path has fewer than `STACK_CHUNKS` components; its only
fatal outcome is the one of `split_path` at a path of `STACK_CHUNKS` or
more components. -/
theorem filtered_tree_no_stack_error (id : include_dirs) (tree : git_tree) :
    ((∀ p ∈ id.dirs, (path_components p).length < STACK_CHUNKS) →
      ∃ new_tree, filtered_tree id tree = .ok new_tree) ∧
    (∀ e, filtered_tree id tree = .error e →
      e = .undefined_behaviour ∧ ∃ p ∈ id.dirs, STACK_CHUNKS ≤ (path_components p).length) := by
  rcases filtered_tree_loop_outcome tree id.dirs stack_open stack_open_is_open with
    ⟨s, hloop, hs⟩ | ⟨hloop, p, hp, hlen⟩
  · obtain ⟨t, ht⟩ := stack_close_open s hs
    have hok : filtered_tree id tree = .ok t := by
      simp only [filtered_tree, hloop, ht, git_tree_lookup]
    refine ⟨fun _ => ⟨t, hok⟩, ?_⟩
    intro e he
    rw [hok] at he
    cases he
  · have herr : filtered_tree id tree = .error .undefined_behaviour := by
      simp only [filtered_tree, hloop]
    refine ⟨?_, ?_⟩
    · intro hdeep
      have := hdeep p hp
      omega
    · intro e he
      rw [herr] at he
      injection he with he
      exact ⟨he.symm, p, hp, hlen⟩

/-- Witness of C14 (amended): the paths `a/x`, `b/y`, `a/z` in this order. -/
theorem filtered_tree_no_stack_error_witness :
    ∃ new_tree,
      filtered_tree { dirs := [[97, 47, 120], [98, 47, 121], [97, 47, 122]] }
        example_tree_reopen = .ok new_tree :=
  (filtered_tree_no_stack_error
    { dirs := [[97, 47, 120], [98, 47, 121], [97, 47, 122]] } example_tree_reopen).1
    (by decide)

/-- Counterexample to C14 as stated: the paths `a/x`, `b/y`, `a/z` in this
order. After `a/x` and `b/y` the level of `a` is closed (level 1 holds
`b`); `stack_add` of `a/z` does not end the build: the level is closed,
`a` is opened again with an empty builder, and `filtered_tree` returns a
tree, in which `a` holds `z` alone. -/
theorem filtered_tree_reopens_closed :
    (filtered_tree_loop example_tree_reopen [[97, 47, 120], [98, 47, 121]] stack_open).map
        (fun s => (s.depth, (s.item 1).name))
      = .ok (2, some [98]) ∧
    (filtered_tree_loop example_tree_reopen [[97, 47, 120], [98, 47, 121], [97, 47, 122]]
        stack_open).map (fun s => (s.depth, (s.item 1).name))
      = .ok (2, some [97]) ∧
    (filtered_tree_loop example_tree_reopen [[97, 47, 120], [98, 47, 121], [97, 47, 122]]
        stack_open).map (fun s => (s.item 1).tb)
      = .ok (some [([122], GIT_FILEMODE_BLOB, .raw 3)]) ∧
    filtered_tree { dirs := [[97, 47, 120], [98, 47, 121], [97, 47, 122]] } example_tree_reopen
      = .ok [([97], GIT_FILEMODE_TREE, .tree [([122], GIT_FILEMODE_BLOB, .raw 3)]),
             ([98], GIT_FILEMODE_TREE, .tree [([121], GIT_FILEMODE_BLOB, .raw 2)])] := by
  refine ⟨by decide, by decide, by decide, by decide⟩

/-- Counterexample to C17 as stated: the sorted paths `a/b/c` and `a/d`.
The path `a/d` has the one directory segment `a` (`k = 1`); after its
`stack_add` the depth is 3 and not 2, and level 2 still holds the name
`b` with its open builder: `_handle_stack` finds `a` at level 1 and
leaves the deeper level as it is. It is closed by `stack_close`, and the
tree returned is the source tree. -/
theorem stack_add_keeps_deeper_level :
    directory_segments [97, 47, 100] = [[97]] ∧
    (filtered_tree_loop example_tree_nested [[97, 47, 98, 47, 99], [97, 47, 100]]
        stack_open).map (fun s => (s.depth, (s.item 2).name))
      = .ok (3, some [98]) ∧
    (filtered_tree_loop example_tree_nested [[97, 47, 98, 47, 99], [97, 47, 100]]
        stack_open).map (fun s => (s.item 2).tb)
      = .ok (some [([99], GIT_FILEMODE_BLOB, .raw 1)]) ∧
    filtered_tree { dirs := [[97, 47, 98, 47, 99], [97, 47, 100]] } example_tree_nested
      = .ok example_tree_nested := by
  refine ⟨by decide, by decide, by decide, by decide⟩

/-! ## Theorems: the lines of the configuration file -/

/-- The loop of `parse_config_file` on a text whose lines all end in a
newline handles the lines of the text, in order. -/
theorem parse_config_loop_lines : ∀ (lines : List CStr) (fuel : Nat) (f : FILE)
    (st : config_t), f.eof = false → f.data = stream_of_lines lines →
    (∀ l ∈ lines, IsLine l) → lines.length + 1 ≤ fuel →
    parse_config_loop fuel f st = parse_config_lines lines st := by
  intro lines
  induction lines with
  | nil =>
    intro fuel f st heof hdata _ hfuel
    obtain ⟨n, rfl⟩ : ∃ n, fuel = n + 1 := ⟨fuel - 1, by simp at hfuel; omega⟩
    simp only [stream_of_lines] at hdata
    simp only [parse_config_loop, feof, heof, Bool.false_eq_true, if_false,
      local_fgets_exhausted f hdata, parse_config_lines]
  | cons l rest ih =>
    intro fuel f st heof hdata hlines hfuel
    obtain ⟨n, rfl⟩ : ∃ n, fuel = n + 1 := ⟨fuel - 1, by simp at hfuel; omega⟩
    have hdata2 : f.data = l ++ NEWLINE :: stream_of_lines rest := by
      rw [hdata]; rfl
    simp only [parse_config_loop, feof, heof, Bool.false_eq_true, if_false,
      local_fgets_line f l _ hdata2 (hlines l (List.mem_cons_self _ _)), parse_config_lines]
    cases hline : parse_config_line l { st with lineno := st.lineno + 1 } with
    | error err => rfl
    | ok st1 =>
      simp only []
      exact ih n { data := stream_of_lines rest, eof := false } st1 rfl rfl
        (fun x hx => hlines x (List.mem_cons_of_mem _ hx))
        (by simp only [List.length_cons] at hfuel; omega)

/-- A `BASE` line sets the base to the text after the key. -/
theorem parse_config_line_base (v : CStr) (st : config_t) :
    parse_config_line (KEY_BASE ++ v) st = .ok { st with base := some v } := by
  simp [parse_config_line, parse_config_repo, parse_config_tpfx, parse_config_revn,
    parse_config_base, parse_config_filt, KEY_BASE, KEY_REPO, KEY_TPFX, KEY_REVN, KEY_FILT,
    CONFIG_KEYLEN, strncmp, charAt, HASH, VALUE]

theorem strchr_first (name file : CStr) (c : Nat) (hname : c ∉ name) :
    strchr (name ++ c :: file) c = some name.length := by
  unfold strchr
  rw [List.indexOf_append_of_not_mem hname, List.indexOf_cons_self]
  simp

/-- A `FILT` line with the name `name` and the path `file` adds one filter:
its include-file path is `local_sprintf("%s%s", base, file)` when a base
is set, and `file` otherwise. -/
theorem parse_config_line_filt (name file : CStr) (st : config_t) (hname : BLANK ∉ name) :
    parse_config_line (KEY_FILT ++ (name ++ BLANK :: file)) st
      = .ok { st with
          tf_list := st.tf_list ++
            [{ name := name,
               include_file :=
                 (match st.base with
                  | some base => local_sprintf (base ++ file)
                  | none => file),
               id := { dirs := [] }, last := none, revdict := dict_init }] } := by
  have hchr := strchr_first name file BLANK hname
  have htake : List.take name.length (name ++ BLANK :: file) = name := List.take_left' rfl
  have hdrop : List.drop (name.length + 1) (name ++ BLANK :: file) = file := by
    rw [← List.drop_drop, List.drop_left' rfl]
    rfl
  simp [parse_config_line, parse_config_repo, parse_config_tpfx, parse_config_revn,
    parse_config_base, parse_config_filt, KEY_BASE, KEY_REPO, KEY_TPFX, KEY_REVN, KEY_FILT,
    CONFIG_KEYLEN, strncmp, charAt, HASH, VALUE, hchr, htake, hdrop]

/-- The include-file path recorded for a `FILT` line is the base followed by
the path of the line (the path alone without a base), unless base and path
have `BUFLEN` bytes together. -/
theorem parse_config_line_filt_spec (name file : CStr) (st : config_t) (hname : BLANK ∉ name)
    (hlen : st.base = none ∨ (include_path_spec st.base file).length ≠ BUFLEN) :
    parse_config_line (KEY_FILT ++ (name ++ BLANK :: file)) st
      = .ok { st with
          tf_list := st.tf_list ++
            [{ name := name, include_file := include_path_spec st.base file,
               id := { dirs := [] }, last := none, revdict := dict_init }] } := by
  rw [parse_config_line_filt name file st hname, parse_config_filt_path st.base file hlen]

/-! ## Theorems: a filter for which nothing is emitted -/

theorem parse_config_repo_tf_list (e : CStr) (st st' : config_t)
    (h : parse_config_repo e st = .ok st') : st'.tf_list = st.tf_list := by
  unfold parse_config_repo at h
  by_cases h1 : strncmp e KEY_REPO CONFIG_KEYLEN = 0
  · simp only [h1, if_true] at h
    by_cases h2 : st.git_repo_name = none
    · simp only [h2, ne_eq, not_true_eq_false, if_false, Except.ok.injEq] at h
      subst h; rfl
    · simp only [ne_eq, h2, not_false_eq_true, if_true] at h
      cases h
  · simp only [h1, if_false, Except.ok.injEq] at h
    subst h; rfl

theorem parse_config_tpfx_tf_list (e : CStr) (st st' : config_t)
    (h : parse_config_tpfx e st = .ok st') : st'.tf_list = st.tf_list := by
  unfold parse_config_tpfx at h
  by_cases h1 : strncmp e KEY_TPFX CONFIG_KEYLEN = 0
  · simp only [h1, if_true] at h
    by_cases h2 : st.git_tag_prefix = none
    · simp only [h2, ne_eq, not_true_eq_false, if_false, Except.ok.injEq] at h
      subst h; rfl
    · simp only [ne_eq, h2, not_false_eq_true, if_true] at h
      cases h
  · simp only [h1, if_false, Except.ok.injEq] at h
    subst h; rfl

theorem parse_config_revn_tf_list (e : CStr) (st st' : config_t)
    (h : parse_config_revn e st = .ok st') : st'.tf_list = st.tf_list := by
  unfold parse_config_revn at h
  by_cases h1 : strncmp e KEY_REVN CONFIG_KEYLEN = 0
  · simp only [h1, if_true] at h
    by_cases h2 : st.rev_type = none
    · simp only [h2, ne_eq, not_true_eq_false, if_false] at h
      cases hc : strchr (VALUE e) BLANK with
      | none => simp only [hc] at h; cases h
      | some i => simp only [hc, Except.ok.injEq] at h; subst h; rfl
    · simp only [ne_eq, h2, not_false_eq_true, if_true] at h
      cases h
  · simp only [h1, if_false, Except.ok.injEq] at h
    subst h; rfl

theorem parse_config_base_tf_list (e : CStr) (st st' : config_t)
    (h : parse_config_base e st = .ok st') : st'.tf_list = st.tf_list := by
  unfold parse_config_base at h
  by_cases h1 : strncmp e KEY_BASE CONFIG_KEYLEN = 0
  · simp only [h1, if_true, Except.ok.injEq] at h
    subst h; rfl
  · simp only [h1, if_false, Except.ok.injEq] at h
    subst h; rfl

theorem parse_config_filt_last (e : CStr) (st st' : config_t)
    (h : parse_config_filt e st = .ok st') (hst : ∀ tf ∈ st.tf_list, tf.last = none) :
    ∀ tf ∈ st'.tf_list, tf.last = none := by
  unfold parse_config_filt at h
  by_cases h1 : strncmp e KEY_FILT CONFIG_KEYLEN = 0
  · simp only [h1, if_true] at h
    cases hc : strchr (VALUE e) BLANK with
    | none => simp only [hc] at h; cases h
    | some i =>
      simp only [hc, Except.ok.injEq] at h
      subst h
      intro tf htf
      rcases List.mem_append.1 htf with htf | htf
      · exact hst tf htf
      · simp only [List.mem_singleton] at htf
        subst htf
        rfl
  · simp only [h1, if_false, Except.ok.injEq] at h
    subst h
    exact hst

/-- No line of the configuration file assigns `last` of a filter. -/
theorem parse_config_line_last (e : CStr) (st st' : config_t)
    (h : parse_config_line e st = .ok st') (hst : ∀ tf ∈ st.tf_list, tf.last = none) :
    ∀ tf ∈ st'.tf_list, tf.last = none := by
  unfold parse_config_line at h
  by_cases hhash : charAt e 0 = HASH
  · simp only [hhash, if_true, Except.ok.injEq] at h
    subst h
    exact hst
  · simp only [hhash, if_false] at h
    cases h1 : parse_config_repo e st with
    | error err => simp only [h1] at h; cases h
    | ok st1 =>
      simp only [h1] at h
      cases h2 : parse_config_tpfx e st1 with
      | error err => simp only [h2] at h; cases h
      | ok st2 =>
        simp only [h2] at h
        cases h3 : parse_config_revn e st2 with
        | error err => simp only [h3] at h; cases h
        | ok st3 =>
          simp only [h3] at h
          cases h4 : parse_config_base e st3 with
          | error err => simp only [h4] at h; cases h
          | ok st4 =>
            simp only [h4] at h
            refine parse_config_filt_last e st4 st' h ?_
            rw [parse_config_base_tf_list e st3 st4 h4, parse_config_revn_tf_list e st2 st3 h3,
              parse_config_tpfx_tf_list e st1 st2 h2, parse_config_repo_tf_list e st st1 h1]
            exact hst

theorem parse_config_loop_last : ∀ (fuel : Nat) (f : FILE) (st st' : config_t),
    parse_config_loop fuel f st = .ok st' → (∀ tf ∈ st.tf_list, tf.last = none) →
    ∀ tf ∈ st'.tf_list, tf.last = none := by
  intro fuel
  induction fuel with
  | zero => intro f st st' h _; simp [parse_config_loop] at h
  | succ n ih =>
    intro f st st' h hst
    simp only [parse_config_loop] at h
    by_cases heof : feof f = true
    · simp only [heof, if_true, Except.ok.injEq] at h
      subst h
      exact hst
    · simp only [heof, Bool.false_eq_true, if_false] at h
      cases hget : local_fgets f with
      | error err => simp only [hget] at h; cases h
      | ok r =>
        obtain ⟨line, f1⟩ := r
        cases line with
        | none =>
          simp only [hget, Except.ok.injEq] at h
          subst h
          exact hst
        | some e =>
          simp only [hget] at h
          cases hline : parse_config_line e { st with lineno := st.lineno + 1 } with
          | error err => simp only [hline] at h; cases h
          | ok st1 =>
            simp only [hline] at h
            exact ih f1 st1 st' h (parse_config_line_last e _ st1 hline hst)

/-- After `parse_config_file` there is a filter, and `last` is assigned for
no filter. -/
theorem parse_config_file_last (cfgfile : Option FILE) (cfg : config_t)
    (h : parse_config_file cfgfile = .ok cfg) :
    cfg.tf_list ≠ [] ∧ ∀ tf ∈ cfg.tf_list, tf.last = none := by
  unfold parse_config_file at h
  cases cfgfile with
  | none => cases h
  | some f =>
    simp only [] at h
    cases hloop : parse_config_loop (f.data.length + 2) f config_zero with
    | error err => simp only [hloop] at h; cases h
    | ok st =>
      simp only [hloop] at h
      by_cases h1 : st.rev_string = none
      · simp only [h1, if_true] at h; cases h
      · by_cases h2 : st.git_tag_prefix = none
        · simp only [h1, h2, if_true, if_false] at h; cases h
        · by_cases h3 : st.git_repo_name = none
          · simp only [h1, h2, h3, if_true, if_false] at h; cases h
          · by_cases h4 : st.tf_list.length = 0
            · simp only [h1, h2, h3, h4, if_true, if_false] at h; cases h
            · simp only [h1, h2, h3, h4, if_false, Except.ok.injEq] at h
              subst h
              refine ⟨fun hnil => h4 (by rw [hnil]; rfl), ?_⟩
              exact parse_config_loop_last _ f config_zero st hloop
                (fun tf htf => by simp [config_zero] at htf)

theorem main_init_last (files : CStr → Option FILE) :
    ∀ (tfs tfs1 : List tree_filter), main_init files tfs = .ok tfs1 →
      (∀ tf ∈ tfs, tf.last = none) →
      tfs1.length = tfs.length ∧ ∀ tf ∈ tfs1, tf.last = none := by
  intro tfs
  induction tfs with
  | nil =>
    intro tfs1 h _
    simp only [main_init, Except.ok.injEq] at h
    subst h
    exact ⟨rfl, fun tf htf => by simp at htf⟩
  | cons tf rest ih =>
    intro tfs1 h hlast
    simp only [main_init] at h
    cases hinit : tree_filter_init tf (files tf.include_file) with
    | error e => simp only [hinit] at h; cases h
    | ok tf1 =>
      simp only [hinit] at h
      cases hrest : main_init files rest with
      | error e => simp only [hrest] at h; cases h
      | ok rest1 =>
        simp only [hrest, Except.ok.injEq] at h
        subst h
        obtain ⟨hlen, hl⟩ := ih rest1 hrest (fun x hx => hlast x (List.mem_cons_of_mem _ hx))
        have htf1 : tf1.last = none := by
          unfold tree_filter_init at hinit
          cases hid : include_dirs_init tf.id.dirs.length (files tf.include_file) with
          | error e => simp only [hid] at hinit; cases hinit
          | ok id =>
            simp only [hid, Except.ok.injEq] at hinit
            subst hinit
            exact hlast tf (List.mem_cons_self _ _)
        refine ⟨by simp [hlen], ?_⟩
        intro x hx
        rcases List.mem_cons.1 hx with rfl | hx
        · exact htf1
        · exact hl x hx

theorem create_commit_absent (repo : git_repository) (tf : tree_filter) (tree : git_tree)
    (commit commit_id : git_commit)
    (h : ∀ p ∈ tf.id.dirs, git_tree_entry_bypath tree p = none) :
    create_commit repo tf tree commit commit_id = .ok (repo, tf) := by
  simp [create_commit, filtered_tree_absent tf.id tree h, git_tree_entrycount]

theorem main_create_commits_absent (tree : git_tree) (commit : git_commit) :
    ∀ (tfs : List tree_filter) (repo : git_repository),
      (∀ tf ∈ tfs, ∀ p ∈ tf.id.dirs, git_tree_entry_bypath tree p = none) →
      main_create_commits tree commit tfs repo = .ok (repo, tfs) := by
  intro tfs
  induction tfs with
  | nil => intro repo _; rfl
  | cons tf rest ih =>
    intro repo h
    simp only [main_create_commits,
      create_commit_absent repo tf tree commit _ (h tf (List.mem_cons_self _ _)),
      ih repo (fun x hx => h x (List.mem_cons_of_mem _ hx))]

/-- A walk over commits in which no path of any Include-Set has an entry
leaves the repository and the filters as they were. -/
theorem main_walk_absent : ∀ (walk : List git_commit) (repo : git_repository)
    (tfs : List tree_filter),
    (∀ c ∈ walk, ∀ tf ∈ tfs, ∀ p ∈ tf.id.dirs,
      git_tree_entry_bypath (git_commit_tree c) p = none) →
    main_walk walk repo tfs = .ok (repo, tfs) := by
  intro walk
  induction walk with
  | nil => intro repo tfs _; rfl
  | cons c rest ih =>
    intro repo tfs h
    simp only [main_walk,
      main_create_commits_absent (git_commit_tree c) c tfs repo (h c (List.mem_cons_self _ _))]
    exact ih repo tfs (fun x hx => h x (List.mem_cons_of_mem _ hx))

/-- A run of `main` in which the configuration is read, the filters are
initialised and the revision type is known, over a walk in which no path
of any Include-Set has an entry: the last loop of `main` reads the pointer
`tf->last` of the first filter, which was never assigned. -/
theorem main_nothing_included (path : CStr) (files : CStr → Option FILE)
    (writable : CStr → Bool) (walker : CStr → CStr → List git_commit) (refs : git_refdb)
    (cfg : config_t) (tfs : List tree_filter)
    (hcfg : parse_config_file (files path) = .ok cfg)
    (hinit : main_init files cfg.tf_list = .ok tfs)
    (hrev : strcmp (cfg.rev_type.getD []) REV_REF = 0 ∨
      strcmp (cfg.rev_type.getD []) REV_RANGE = 0)
    (hnone : ∀ c ∈ walker (cfg.rev_type.getD []) (cfg.rev_string.getD []), ∀ tf ∈ tfs,
      ∀ p ∈ tf.id.dirs, git_tree_entry_bypath (git_commit_tree c) p = none) :
    main (some path) files writable walker refs = .error .undefined_behaviour := by
  obtain ⟨hne, hlast⟩ := parse_config_file_last _ cfg hcfg
  obtain ⟨hlen, hlast1⟩ := main_init_last files cfg.tf_list tfs hinit hlast
  have hrev2 : ¬ (strcmp (cfg.rev_type.getD []) REV_REF ≠ 0 ∧
      strcmp (cfg.rev_type.getD []) REV_RANGE ≠ 0) := by
    rintro ⟨h1, h2⟩
    rcases hrev with h | h
    · exact h1 h
    · exact h2 h
  cases tfs with
  | nil =>
    simp only [List.length_nil] at hlen
    exact absurd (List.length_eq_zero.1 hlen.symm) hne
  | cons tf rest =>
    simp only [main, hcfg, hinit, hrev2, if_false, main_walk_absent _ _ _ hnone]
    rw [main_finalize_unset _ _ tf rest _ (hlast1 tf (List.mem_cons_self _ _))]

/-! ## Theorems: loading a valid or an empty include file -/

/-- C2 (amended): for an include file whose lines all end in a newline
(lines of text, without a NUL byte), read into a struct whose count is zero
on entry, in which no two lines are equal and no line is another line
followed by `'/'` (with or without more text behind the `'/'`),
`include_dirs_init` succeeds, and the Include-Set it builds is a
permutation of the lines of the file in strictly ascending `strcmp`
order. -/
theorem include_dirs_init_valid (lines : List CStr)
    (hlines : ∀ l ∈ lines, IsLine l)
    (hdup : lines.Nodup)
    (hsub : ∀ p ∈ lines, ∀ q ∈ lines, ¬ IsSubdirOf q p) :
    ∃ id : include_dirs,
      include_dirs_init 0 (some { data := stream_of_lines lines, eof := false }) = .ok id ∧
      id.dirs.Perm lines ∧ id.dirs.Pairwise (fun a b => strcmp a b < 0) := by
  have hread : include_dirs_read
      (({ data := stream_of_lines lines, eof := false } : FILE).data.length + 2)
      { data := stream_of_lines lines, eof := false } = .ok lines :=
    include_dirs_read_lines lines hlines
  have hperm := qsort_perm lines
  have hsorted := qsort_sorted lines
  have hdup2 : (qsort sort_string lines).Nodup := hperm.nodup_iff.2 hdup
  have hcheck : include_dirs_check (qsort sort_string lines) = .ok () :=
    include_dirs_check_ok _ hdup2
      (fun p hp q hq => hsub p (hperm.subset hp) q (hperm.subset hq))
  refine ⟨{ dirs := qsort sort_string lines }, ?_, hperm, ?_⟩
  · simp only [include_dirs_init, hread, hcheck, ne_eq, not_true_eq_false, if_false]
  · have hboth := List.Pairwise.and hsorted hdup2
    refine hboth.imp ?_
    intro a b hab
    have hne : strcmp a b ≠ 0 := fun h => hab.2 ((strcmp_eq_zero_iff a b).1 h)
    omega

/-- Witness of C2 (amended): the file with the lines `b/x`, `a`, `b.c`. -/
theorem include_dirs_init_valid_witness :
    ∃ id : include_dirs,
      include_dirs_init 0
          (some { data := stream_of_lines [[98, 47, 120], [97], [98, 46, 99]], eof := false })
        = .ok id ∧
      id.dirs.Perm [[98, 47, 120], [97], [98, 46, 99]] ∧
      id.dirs.Pairwise (fun a b => strcmp a b < 0) :=
  include_dirs_init_valid [[98, 47, 120], [97], [98, 46, 99]]
    (by
      intro l hl
      simp only [List.mem_cons, List.mem_singleton, List.not_mem_nil, or_false] at hl
      rcases hl with rfl | rfl | rfl <;> exact ⟨by decide, by decide⟩)
    (by decide)
    (by
      intro p hp q hq
      rintro ⟨r, hr⟩
      simp only [List.mem_cons, List.mem_singleton, List.not_mem_nil, or_false] at hp hq
      rcases hp with rfl | rfl | rfl <;> rcases hq with rfl | rfl | rfl <;>
        simp [SLASH] at hr)

/-- Counterexample to C2 as stated: the file with the lines `a` and `a/`.
The two entries are different, and neither is the other followed by `'/'`
and more text; `include_dirs_init` ends with the fatal
`'a/' is a subdir of 'a'`: its test asks for the `'/'` behind the shorter
entry and not for text behind the `'/'`. -/
theorem include_dirs_init_refuses_slash :
    include_dirs_init 0 (some { data := stream_of_lines [[97], [97, 47]], eof := false })
      = .error (.subdir [97, 47] [97]) ∧
    ([[97], [97, 47]] : List CStr).Nodup ∧
    (∀ p ∈ ([[97], [97, 47]] : List CStr), ∀ q ∈ ([[97], [97, 47]] : List CStr),
      ¬ DirectoryPrefix p q) := by
  refine ⟨by decide, by decide, ?_⟩
  intro p hp q hq
  rintro ⟨r, hr, heq⟩
  simp only [List.mem_cons, List.mem_singleton, List.not_mem_nil, or_false] at hp hq
  rcases hp with rfl | rfl <;> rcases hq with rfl | rfl <;> simp [SLASH] at heq
  exact hr heq

/-- C13 (amended): an include file without a byte, read into a struct whose
count is zero on entry, is not refused. `include_dirs_init` has no test of
the number of entries: the read loop ends at once, the sort and the
validation loop have nothing to do, and the Include-Set of length zero is
returned. -/
theorem include_dirs_init_empty (f : FILE) (hdata : f.data = []) :
    ∃ id : include_dirs, include_dirs_init 0 (some f) = .ok id ∧ id.dirs.length = 0 := by
  refine ⟨{ dirs := [] }, ?_, rfl⟩
  have hread : include_dirs_read (f.data.length + 2) f = .ok [] := by
    rw [hdata]
    simp only [List.length_nil, include_dirs_read]
    by_cases heof : feof f = true
    · simp [heof]
    · simp only [heof, Bool.false_eq_true, if_false]
      rw [local_fgets_exhausted f hdata]
  simp only [include_dirs_init, hread, qsort, include_dirs_check, ne_eq, not_true_eq_false,
    if_false]

/-- Witness of C13 (amended): the empty file whose end was not seen yet. -/
theorem include_dirs_init_empty_witness :
    ∃ id : include_dirs,
      include_dirs_init 0 (some { data := [], eof := true }) = .ok id ∧ id.dirs.length = 0 :=
  include_dirs_init_empty { data := [], eof := true } rfl

/-- Counterexample to C13 as stated: for the include file without any line,
read into a struct whose count is zero on entry, `include_dirs_init` returns
the Include-Set of length zero. -/
theorem include_dirs_init_accepts_empty :
    include_dirs_init 0 (some { data := [], eof := false }) = .ok { dirs := [] } ∧
    ({ dirs := [] } : include_dirs).dirs.length = 0 := by
  refine ⟨by decide, rfl⟩

/-- Whatever the count of the struct is on entry, `include_dirs_init` has no
fatal exit of its own for an include file without a byte: it returns the
Include-Set of length zero, or it runs on the count that was never
assigned. -/
theorem include_dirs_init_empty_outcome (len : Nat) (f : FILE) (hdata : f.data = []) :
    include_dirs_init len (some f) = .ok { dirs := [] } ∨
    include_dirs_init len (some f) = .error .undefined_behaviour := by
  have hread : include_dirs_read (f.data.length + 2) f = .ok [] := by
    rw [hdata]
    simp only [List.length_nil, include_dirs_read]
    by_cases heof : feof f = true
    · simp [heof]
    · simp only [heof, Bool.false_eq_true, if_false]
      rw [local_fgets_exhausted f hdata]
  by_cases hlen : len = 0
  · left
    simp only [include_dirs_init, hread, hlen, qsort, include_dirs_check, ne_eq,
      not_true_eq_false, if_false]
  · right
    simp only [include_dirs_init, hread, ne_eq, hlen, not_false_eq_true, if_true]

/-- A key line of exactly five bytes has the empty value: the line `BASE:`
sets the base to the empty string. -/
theorem parse_config_line_key_only (st : config_t) :
    parse_config_line [66, 65, 83, 69, 58] st = .ok { st with base := some [] } := by
  simp [parse_config_line, parse_config_repo, parse_config_tpfx, parse_config_revn,
    parse_config_base, parse_config_filt, KEY_BASE, KEY_REPO, KEY_TPFX, KEY_REVN, KEY_FILT,
    CONFIG_KEYLEN, strncmp, charAt, HASH, VALUE]

/-! ## Theorems: what a call of `stack_add` closes -/

theorem stack_close_level_exact (s s' : dirstack_t) (i : Nat) (hi : 1 ≤ i)
    (hs : StackOpen s (i + 1)) (hclose : stack_close_level s i = .ok s') :
    (∀ j, j < i - 1 → s'.item j = s.item j) ∧
    (s'.item (i - 1)).name = (s.item (i - 1)).name ∧
    (s'.item (i - 1)).tb = some (vbuilder s (i - 1) 1) := by
  obtain ⟨_, h2, h3, _⟩ := hs
  obtain ⟨tb, htb⟩ := Option.ne_none_iff_exists'.1 (h2 i (by omega))
  obtain ⟨ptb, hptb⟩ := Option.ne_none_iff_exists'.1 (h2 (i - 1) (by omega))
  obtain ⟨nm, hnm⟩ := Option.ne_none_iff_exists'.1 (h3 i hi (by omega))
  simp only [stack_close_level, stack_get_item, htb, hnm, hptb, Except.ok.injEq] at hclose
  have hne : ¬ i - 1 = i := by omega
  refine ⟨?_, ?_, ?_⟩
  · intro j hj
    have h1 : ¬ j = i := by omega
    have h2 : ¬ j = i - 1 := by omega
    rw [← hclose]
    simp only [stack_set_item, h1, h2, if_false]
  · rw [← hclose]
    simp only [stack_set_item, hne, if_false, if_true]
  · rw [← hclose]
    simp only [stack_set_item, hne, if_false, if_true, vbuilder, Nat.sub_add_cancel hi, hptb,
      hnm, htb, Option.getD_some, git_treebuilder_write]

theorem stack_close_loop_exact (level : Nat) (hl : 1 ≤ level) :
    ∀ (n : Nat) (s s' : dirstack_t), StackOpen s (level + n) →
      stack_close_loop level n s = .ok s' →
      (∀ j, j < level - 1 → s'.item j = s.item j) ∧
      (s'.item (level - 1)).name = (s.item (level - 1)).name ∧
      (s'.item (level - 1)).tb = some (vbuilder s (level - 1) n) := by
  intro n
  induction n with
  | zero =>
    intro s s' hs h
    simp only [stack_close_loop, Except.ok.injEq] at h
    subst h
    obtain ⟨b, hb⟩ := Option.ne_none_iff_exists'.1 (hs.2.1 (level - 1) (by omega))
    exact ⟨fun _ _ => rfl, rfl, by simp [vbuilder, hb]⟩
  | succ n ih =>
    intro s s' hs h
    obtain ⟨s1, h1, hs1, _, _⟩ := stack_close_level_open s (level + n) (by omega) hs
    obtain ⟨e1, e2, e3⟩ := stack_close_level_exact s s1 (level + n) (by omega) hs h1
    simp only [stack_close_loop, h1] at h
    obtain ⟨f1, f2, f3⟩ := ih s1 s' hs1 h
    have hidx : level - 1 + n = level + n - 1 := by omega
    refine ⟨?_, ?_, ?_⟩
    · intro j hj
      rw [f1 j hj, e1 j (by omega)]
    · rw [f2]
      by_cases hn : n = 0
      · subst hn
        exact e2
      · rw [e1 (level - 1) (by omega)]
    · rw [f3]
      have hc1 := vbuilder_chain s1 0 n (level - 1)
      have hc2 := vbuilder_chain s 1 n (level - 1)
      simp only [Nat.add_zero] at hc1
      rw [hc1, hc2]
      have hchain : stack_chain s1 (level - 1) n = stack_chain s (level - 1) n := by
        apply stack_chain_congr
        · intro t ht1 ht2
          rw [e1 t (by omega)]
        · intro t ht1 ht2
          by_cases htt : t = level + n - 1
          · rw [htt]; exact e2
          · rw [e1 t (by omega)]
      rw [hchain, hidx]
      congr 1
      simp only [vbuilder] at e3 ⊢
      rw [e3]
      rfl

/-- The function `_stack_close_to` on a stack in the state `StackOpen`: the
levels below `level - 1` are left as they were, and the builder of level
`level - 1` is the one it had with the levels above it written and
inserted under their names, from the top down. -/
theorem stack_close_to_exact (s s' : dirstack_t) (level : Nat) (hl : 1 ≤ level)
    (hld : level ≤ s.depth) (hs : StackOpen s s.depth)
    (h : _stack_close_to s level = .ok s') :
    (∀ j, j < level - 1 → s'.item j = s.item j) ∧
    (s'.item (level - 1)).name = (s.item (level - 1)).name ∧
    (s'.item (level - 1)).tb = some (vbuilder s (level - 1) (s.depth - level)) := by
  have hs' : StackOpen s (level + (s.depth - level)) := by
    rw [Nat.add_sub_cancel' hld]; exact hs
  unfold _stack_close_to at h
  cases hloop : stack_close_loop level (s.depth - level) s with
  | error e => simp [hloop] at h
  | ok s1 =>
    simp only [hloop, Except.ok.injEq] at h
    subst h
    exact stack_close_loop_exact level hl _ s s1 hs' hloop

/-- The loop of `_handle_stack` from a level on which no level has a name:
every segment opens a level with an empty builder. -/
theorem handle_stack_loop_fresh :
    ∀ (segs : List CStr) (level : Nat) (s : dirstack_t),
      (∀ i, level ≤ i → (s.item i).name = none) →
      ∃ s', handle_stack_loop segs level s = .ok s' ∧
        (segs = [] → s' = s) ∧
        (segs ≠ [] → s'.depth = level + segs.length) ∧
        (∀ j, j < level → s'.item j = s.item j) ∧
        (∀ i seg, segs.get? i = some seg →
          s'.item (level + i) = { tb := some [], name := some seg }) := by
  intro segs
  induction segs with
  | nil =>
    intro level s _
    exact ⟨s, rfl, fun _ => rfl, fun h => absurd rfl h, fun _ _ => rfl,
      fun i seg h => by simp at h⟩
  | cons seg rest ih =>
    intro level s hnone
    have hs1 : ∀ i, level + 1 ≤ i →
        (({ stack_set_item s level { tb := some [], name := some seg } with
            depth := level + 1 } : dirstack_t).item i).name = none := by
      intro i hi
      have hil : ¬ i = level := by omega
      simp only [stack_set_item, hil, if_false]
      exact hnone i (by omega)
    obtain ⟨s', h1, h2, h3, h4, h5⟩ := ih (level + 1)
      { stack_set_item s level { tb := some [], name := some seg } with depth := level + 1 } hs1
    refine ⟨s', ?_, ?_, ?_, ?_, ?_⟩
    · simp only [handle_stack_loop, stack_get_item, hnone level (Nat.le_refl _)]
      exact h1
    · intro h; cases h
    · intro _
      by_cases hr : rest = []
      · rw [h2 hr, hr]
        rfl
      · rw [h3 hr]
        simp only [List.length_cons]; omega
    · intro j hj
      rw [h4 j (by omega)]
      have hjl : ¬ j = level := by omega
      simp only [stack_set_item, hjl, if_false]
    · intro i sg hget
      cases i with
      | zero =>
        simp only [List.get?_cons_zero, Option.some.injEq] at hget
        subst hget
        rw [Nat.add_zero, h4 level (by omega)]
        simp [stack_set_item]
      | succ i =>
        simp only [List.get?_cons_succ] at hget
        have := h5 i sg hget
        have hidx : level + (i + 1) = level + 1 + i := by omega
        rw [hidx]
        exact this

/-- The loop of `_handle_stack` on a stack in the state `StackOpen` whose
levels do not hold all the segments: with `j` the number of leading
segments the levels hold, the levels below the last shared one are left
as they were, the last shared level has its builder with every level
above it written and inserted (from the top down), and a level with an
empty builder is opened for each segment from the `j`-th on. -/
theorem handle_stack_loop_exact :
    ∀ (segs : List CStr) (level : Nat) (s : dirstack_t), 1 ≤ level → level ≤ s.depth →
      StackOpen s s.depth → ¬ LevelsNamed s level segs →
      ∃ (j : Nat) (s' : dirstack_t), handle_stack_loop segs level s = .ok s' ∧
        j < segs.length ∧ LevelsNamed s level (segs.take j) ∧
        (s.item (level + j)).name ≠ segs.get? j ∧
        s'.depth = level + segs.length ∧
        (∀ i, i < level + j - 1 → s'.item i = s.item i) ∧
        (s'.item (level + j - 1)).name = (s.item (level + j - 1)).name ∧
        (s'.item (level + j - 1)).tb
          = some (vbuilder s (level + j - 1) (s.depth - (level + j))) ∧
        (∀ i seg, j ≤ i → segs.get? i = some seg →
          s'.item (level + i) = { tb := some [], name := some seg }) := by
  intro segs
  induction segs with
  | nil =>
    intro level s _ _ _ hnot
    exact absurd trivial hnot
  | cons seg rest ih =>
    intro level s hl hld hs hnot
    cases hname : (s.item level).name with
    | none =>
      have hdepth : s.depth = level := by
        by_contra hne
        exact hs.2.2.1 level hl (by omega) hname
      have hnone : ∀ i, level ≤ i → (s.item i).name = none :=
        fun i hi => (hs.2.2.2 i (by omega)).2
      obtain ⟨s', h1, _, h3, h4, h5⟩ := handle_stack_loop_fresh (seg :: rest) level s hnone
      obtain ⟨b, hb⟩ := Option.ne_none_iff_exists'.1 (hs.2.1 (level - 1) (by omega))
      refine ⟨0, s', h1, by simp, trivial, ?_, h3 (by simp), ?_, ?_, ?_, ?_⟩
      · rw [Nat.add_zero, hname]
        simp
      · intro i hi
        exact h4 i (by omega)
      · rw [Nat.add_zero, h4 (level - 1) (by omega)]
      · rw [Nat.add_zero, h4 (level - 1) (by omega), hb, hdepth, Nat.sub_self]
        simp [vbuilder, hb]
      · intro i sg _ hget
        exact h5 i sg hget
    | some nm =>
      have hlt : level < s.depth := by
        by_contra hge
        have := (hs.2.2.2 level (by omega)).2
        rw [hname] at this
        cases this
      by_cases hsame : nm = seg
      · have hunf : handle_stack_loop (seg :: rest) level s
            = handle_stack_loop rest (level + 1) s := by
          simp only [handle_stack_loop, stack_get_item, hname, hsame, if_true]
        have hnot2 : ¬ LevelsNamed s (level + 1) rest := by
          intro hr
          exact hnot ⟨by rw [hname, hsame], hr⟩
        obtain ⟨j, s', h1, h2, h3, h4, h5, h6, h7, h8, h9⟩ :=
          ih (level + 1) s (by omega) (by omega) hs hnot2
        have hidx : level + (j + 1) = level + 1 + j := by omega
        refine ⟨j + 1, s', by rw [hunf]; exact h1, by simp only [List.length_cons]; omega,
          ?_, ?_, ?_, ?_, ?_, ?_, ?_⟩
        · simp only [List.take_succ_cons]
          exact ⟨by rw [hname, hsame], h3⟩
        · rw [hidx]
          simpa using h4
        · rw [h5]
          simp only [List.length_cons]; omega
        · intro i hi
          exact h6 i (by omega)
        · rw [hidx]
          exact h7
        · rw [hidx]
          exact h8
        · intro i sg hji hget
          cases i with
          | zero => omega
          | succ i =>
            simp only [List.get?_cons_succ] at hget
            have := h9 i sg (by omega) hget
            have hidx2 : level + (i + 1) = level + 1 + i := by omega
            rw [hidx2]
            exact this
      · have htb : ¬ (s.item level).tb = none := hs.2.1 level hlt
        obtain ⟨s1, hc1, hs1, hd1, _⟩ := stack_close_to_open s level hl (by omega) hs
        obtain ⟨e1, e2, e3⟩ := stack_close_to_exact s s1 level hl (by omega) hs hc1
        have hcl := hs1.2.2.2 level (by omega)
        have hnone : ∀ i, level ≤ i → (s1.item i).name = none :=
          fun i hi => (hs1.2.2.2 i (by omega)).2
        have hunf : handle_stack_loop (seg :: rest) level s
            = handle_stack_loop (seg :: rest) level s1 := by
          simp only [handle_stack_loop, stack_get_item, hname, hsame, if_false, htb, hc1, hd1,
            hcl.1, hcl.2, ne_eq, not_true_eq_false]
        obtain ⟨s', h1, _, h3, h4, h5⟩ := handle_stack_loop_fresh (seg :: rest) level s1 hnone
        refine ⟨0, s', by rw [hunf]; exact h1, by simp, trivial, ?_, h3 (by simp), ?_, ?_, ?_,
          ?_⟩
        · rw [Nat.add_zero, hname]
          simp only [List.get?_cons_zero, ne_eq, Option.some.injEq]
          exact hsame
        · intro i hi
          rw [h4 i (by omega), e1 i (by omega)]
        · rw [Nat.add_zero, h4 (level - 1) (by omega), e2]
        · rw [Nat.add_zero, h4 (level - 1) (by omega), e3]
        · intro i sg _ hget
          exact h5 i sg hget

/-- The function `stack_add` on a stack in the state `StackOpen`, for a path
of fewer than `STACK_CHUNKS` components, with what it closes. -/
theorem stack_add_exact (s : dirstack_t) (path : CStr) (ent : git_tree_entry)
    (hs : StackOpen s s.depth) (hdeep : (path_components path).length < STACK_CHUNKS) :
    ∃ s', stack_add s path ent = .ok s' ∧ StackOpen s' s'.depth ∧
      (directory_segments path).length + 1 ≤ s'.depth ∧
      LevelsNamed s' 1 (directory_segments path) ∧
      (LevelsNamed s 1 (directory_segments path) →
        s'.depth = s.depth ∧ (∀ i, (s'.item i).name = (s.item i).name) ∧
        (∀ i, i ≠ (directory_segments path).length → (s'.item i).tb = (s.item i).tb) ∧
        ∃ tb, (s.item (directory_segments path).length).tb = some tb ∧
          (s'.item (directory_segments path).length).tb
            = some (git_treebuilder_insert tb (git_tree_entry_name ent)
                (git_tree_entry_id ent) (git_tree_entry_filemode ent))) ∧
      (¬ LevelsNamed s 1 (directory_segments path) →
        s'.depth = (directory_segments path).length + 1 ∧
        ∃ j, j < (directory_segments path).length ∧
          LevelsNamed s 1 ((directory_segments path).take j) ∧
          (s.item (j + 1)).name ≠ (directory_segments path).get? j ∧
          (∀ i, i < j → s'.item i = s.item i) ∧
          (s'.item j).name = (s.item j).name ∧
          (s'.item j).tb = some (vbuilder s j (s.depth - 1 - j)) ∧
          (∀ i seg, j ≤ i → i + 1 < (directory_segments path).length →
            (directory_segments path).get? i = some seg →
            s'.item (i + 1) = { tb := some [], name := some seg }) ∧
          (s'.item (directory_segments path).length).tb
            = some [(git_tree_entry_name ent, git_tree_entry_filemode ent,
                git_tree_entry_id ent)]) := by
  obtain ⟨s1, h1, h2, h3, h4, h5, h6⟩ := stack_add_handle_open s path hs
  have hlen := directory_segments_length path
  have hk : (path_components path).length - 1 = (directory_segments path).length := by omega
  have hidx : (path_components path).length - 1 < s1.depth := by omega
  obtain ⟨tb, htb⟩ := Option.ne_none_iff_exists'.1 (h2.2.1 _ hidx)
  have hadd : stack_add s path ent = .ok (stack_set_item s1 ((path_components path).length - 1)
      { s1.item ((path_components path).length - 1) with
        tb := some (git_treebuilder_insert tb (git_tree_entry_name ent)
          (git_tree_entry_id ent) (git_tree_entry_filemode ent)) }) := by
    simp only [stack_add, split_path, hdeep, if_true, h1, stack_get_item, htb]
  have hnames : ∀ i, ((stack_set_item s1 ((path_components path).length - 1)
      { s1.item ((path_components path).length - 1) with
        tb := some (git_treebuilder_insert tb (git_tree_entry_name ent)
          (git_tree_entry_id ent) (git_tree_entry_filemode ent)) }).item i).name
      = (s1.item i).name := by
    intro i
    simp only [stack_set_item]
    by_cases hi : i = (path_components path).length - 1
    · simp [hi]
    · simp [hi]
  have hother : ∀ i, i ≠ (directory_segments path).length →
      (stack_set_item s1 ((path_components path).length - 1)
      { s1.item ((path_components path).length - 1) with
        tb := some (git_treebuilder_insert tb (git_tree_entry_name ent)
          (git_tree_entry_id ent) (git_tree_entry_filemode ent)) }).item i = s1.item i := by
    intro i hi
    have hi2 : ¬ i = (path_components path).length - 1 := by omega
    simp only [stack_set_item, hi2, if_false]
  have htop : ((stack_set_item s1 ((path_components path).length - 1)
      { s1.item ((path_components path).length - 1) with
        tb := some (git_treebuilder_insert tb (git_tree_entry_name ent)
          (git_tree_entry_id ent) (git_tree_entry_filemode ent)) }).item
        (directory_segments path).length).tb
      = some (git_treebuilder_insert tb (git_tree_entry_name ent)
          (git_tree_entry_id ent) (git_tree_entry_filemode ent)) := by
    simp only [stack_set_item, hk, if_true]
  refine ⟨_, hadd, stack_set_tb_open s1 s1.depth _ _ h2 hidx, h3,
    levels_named_congr s1 _ hnames _ _ h4, ?_, ?_⟩
  · intro hnamed
    have hs1 := h5 hnamed
    refine ⟨by rw [hs1]; rfl, ?_, ?_, ?_⟩
    · intro i
      rw [hnames i, hs1]
    · intro i hi
      rw [hother i hi, hs1]
    · refine ⟨tb, ?_, htop⟩
      rw [← hs1, ← hk]
      exact htb
  · intro hnot
    have hcnt : (path_components path).length > 1 := by
      by_contra hle
      have hnil : directory_segments path = [] := by
        apply List.length_eq_zero.1
        omega
      rw [hnil] at hnot
      exact hnot trivial
    have hnz : ¬ (path_components path).length - 1 = 0 := by omega
    have htake : (path_components path).take ((path_components path).length - 1)
        = directory_segments path := by
      rw [directory_segments, List.dropLast_eq_take]
    simp only [hcnt, if_true, _handle_stack, hnz, if_false, htake] at h1
    obtain ⟨j, s1', g1, g2, g3, g4, g5, g6, g7, g8, g9⟩ :=
      handle_stack_loop_exact (directory_segments path) 1 s (Nat.le_refl _) hs.1 hs hnot
    rw [h1] at g1
    injection g1 with g1
    subst g1
    have hj1 : 1 + j - 1 = j := by omega
    have hj2 : 1 + j = j + 1 := by omega
    rw [hj1] at g6 g7 g8
    rw [hj2] at g4 g8
    obtain ⟨sg, hsg⟩ : ∃ sg, (directory_segments path).get? ((directory_segments path).length - 1)
        = some sg := by
      cases hget : (directory_segments path).get? ((directory_segments path).length - 1) with
      | none =>
        rw [List.get?_eq_none] at hget
        omega
      | some sg => exact ⟨sg, rfl⟩
    have hfresh := g9 ((directory_segments path).length - 1) sg (by omega) hsg
    have hk2 : 1 + ((directory_segments path).length - 1) = (path_components path).length - 1 := by
      omega
    rw [hk2] at hfresh
    have htb0 : tb = [] := by
      rw [hfresh] at htb
      simp only [Option.some.injEq] at htb
      exact htb.symm
    refine ⟨h6 hnot, j, g2, g3, g4, ?_, ?_, ?_, ?_, ?_⟩
    · intro i hi
      rw [hother i (by omega)]
      exact g6 i hi
    · rw [hnames j]
      exact g7
    · rw [hother j (by omega), g8]
      have : s.depth - (j + 1) = s.depth - 1 - j := by omega
      rw [this]
    · intro i seg hji hik hget
      rw [hother (i + 1) (by omega)]
      have := g9 i seg hji hget
      have hidx2 : 1 + i = i + 1 := by omega
      rw [hidx2] at this
      exact this
    · rw [htop, htb0]
      rfl

theorem example_stack_a_open : StackOpen example_stack_a example_stack_a.depth := by
  refine ⟨by decide, ?_, ?_, ?_⟩
  · intro i hi
    have : i = 0 ∨ i = 1 := by simp only [example_stack_a] at hi; omega
    rcases this with rfl | rfl <;> simp [example_stack_a]
  · intro i h1 hi
    have : i = 1 := by simp only [example_stack_a] at hi; omega
    subst this
    simp [example_stack_a]
  · intro i hi
    have h0 : ¬ i = 0 := by simp only [example_stack_a] at hi; omega
    have h1 : ¬ i = 1 := by simp only [example_stack_a] at hi; omega
    simp [example_stack_a, h0, h1, dirstack_item_zero]

/-- C17 (amended): `stack_add` of a path with the directory segments
`d1..dk` (fewer than `STACK_CHUNKS` components) on a builder stack whose
levels below `depth` are open and whose other slots are cleared returns a
stack in that state; its levels `1..k` hold the names `d1..dk` with open
builders, and its depth is at least `k + 1`. When the levels `1..k` held
`d1..dk` before the call, the call closes nothing: depth, names and the
builders of all levels but `k` are left as they were (deeper levels stay
open), and the entry is inserted in the builder of level `k`. Otherwise,
with `j < k` the number of leading segments the levels held, the depth is
`k + 1` and every level deeper than `j` has been closed by the call,
written and inserted into its parent: the levels below `j` are left as
they were, level `j` keeps its name and holds the builder it had with the
levels above it written and inserted under their names, from the top
down; the levels `j+1..k` are opened with empty builders under the names
`d(j+1)..dk`, and level `k` holds the entry alone. -/
theorem stack_add_levels (s : dirstack_t) (path : CStr) (ent : git_tree_entry)
    (hs : StackOpen s s.depth) (hdeep : (path_components path).length < STACK_CHUNKS) :
    ∃ s', stack_add s path ent = .ok s' ∧ StackOpen s' s'.depth ∧
      (directory_segments path).length + 1 ≤ s'.depth ∧
      LevelsNamed s' 1 (directory_segments path) ∧
      (LevelsNamed s 1 (directory_segments path) →
        s'.depth = s.depth ∧ (∀ i, (s'.item i).name = (s.item i).name) ∧
        (∀ i, i ≠ (directory_segments path).length → (s'.item i).tb = (s.item i).tb) ∧
        ∃ tb, (s.item (directory_segments path).length).tb = some tb ∧
          (s'.item (directory_segments path).length).tb
            = some (git_treebuilder_insert tb (git_tree_entry_name ent)
                (git_tree_entry_id ent) (git_tree_entry_filemode ent))) ∧
      (¬ LevelsNamed s 1 (directory_segments path) →
        s'.depth = (directory_segments path).length + 1 ∧
        ∃ j, j < (directory_segments path).length ∧
          LevelsNamed s 1 ((directory_segments path).take j) ∧
          (s.item (j + 1)).name ≠ (directory_segments path).get? j ∧
          (∀ i, i < j → s'.item i = s.item i) ∧
          (s'.item j).name = (s.item j).name ∧
          (s'.item j).tb = some (vbuilder s j (s.depth - 1 - j)) ∧
          (∀ i seg, j ≤ i → i + 1 < (directory_segments path).length →
            (directory_segments path).get? i = some seg →
            s'.item (i + 1) = { tb := some [], name := some seg }) ∧
          (s'.item (directory_segments path).length).tb
            = some [(git_tree_entry_name ent, git_tree_entry_filemode ent,
                git_tree_entry_id ent)]) :=
  stack_add_exact s path ent hs hdeep

/-- Witness of C17 (amended): the path `b/y` on the stack whose level 1 is
the open directory `a` holding `x`. Level 1 does not hold `b`, so the call
closes it: the builder of `a` is written and inserted in the root, which
then holds `a` with `x` below it, and level 1 is opened for `b`. -/
theorem stack_add_levels_witness :
    ¬ LevelsNamed example_stack_a 1 (directory_segments [98, 47, 121]) ∧
    vbuilder example_stack_a 0 (example_stack_a.depth - 1 - 0)
      = [([97], GIT_FILEMODE_TREE, .tree [([120], GIT_FILEMODE_BLOB, .raw 1)])] ∧
    (stack_add example_stack_a [98, 47, 121] ([121], GIT_FILEMODE_BLOB, .raw 2)).map
        (fun s => (s.depth, (s.item 0).tb))
      = .ok (2, some [([97], GIT_FILEMODE_TREE, .tree [([120], GIT_FILEMODE_BLOB, .raw 1)])]) ∧
    (stack_add example_stack_a [98, 47, 121] ([121], GIT_FILEMODE_BLOB, .raw 2)).map
        (fun s => ((s.item 1).name, (s.item 1).tb))
      = .ok (some [98], some [([121], GIT_FILEMODE_BLOB, .raw 2)]) ∧
    ∃ s', stack_add example_stack_a [98, 47, 121] ([121], GIT_FILEMODE_BLOB, .raw 2) = .ok s' ∧
      StackOpen s' s'.depth ∧
      (directory_segments [98, 47, 121]).length + 1 ≤ s'.depth ∧
      LevelsNamed s' 1 (directory_segments [98, 47, 121]) ∧
      (LevelsNamed example_stack_a 1 (directory_segments [98, 47, 121]) →
        s'.depth = example_stack_a.depth ∧
        (∀ i, (s'.item i).name = (example_stack_a.item i).name) ∧
        (∀ i, i ≠ (directory_segments [98, 47, 121]).length →
          (s'.item i).tb = (example_stack_a.item i).tb) ∧
        ∃ tb, (example_stack_a.item (directory_segments [98, 47, 121]).length).tb = some tb ∧
          (s'.item (directory_segments [98, 47, 121]).length).tb
            = some (git_treebuilder_insert tb
                (git_tree_entry_name ([121], GIT_FILEMODE_BLOB, .raw 2))
                (git_tree_entry_id ([121], GIT_FILEMODE_BLOB, .raw 2))
                (git_tree_entry_filemode ([121], GIT_FILEMODE_BLOB, .raw 2)))) ∧
      (¬ LevelsNamed example_stack_a 1 (directory_segments [98, 47, 121]) →
        s'.depth = (directory_segments [98, 47, 121]).length + 1 ∧
        ∃ j, j < (directory_segments [98, 47, 121]).length ∧
          LevelsNamed example_stack_a 1 ((directory_segments [98, 47, 121]).take j) ∧
          (example_stack_a.item (j + 1)).name ≠ (directory_segments [98, 47, 121]).get? j ∧
          (∀ i, i < j → s'.item i = example_stack_a.item i) ∧
          (s'.item j).name = (example_stack_a.item j).name ∧
          (s'.item j).tb = some (vbuilder example_stack_a j (example_stack_a.depth - 1 - j)) ∧
          (∀ i seg, j ≤ i → i + 1 < (directory_segments [98, 47, 121]).length →
            (directory_segments [98, 47, 121]).get? i = some seg →
            s'.item (i + 1) = { tb := some [], name := some seg }) ∧
          (s'.item (directory_segments [98, 47, 121]).length).tb
            = some [(git_tree_entry_name ([121], GIT_FILEMODE_BLOB, .raw 2),
                git_tree_entry_filemode ([121], GIT_FILEMODE_BLOB, .raw 2),
                git_tree_entry_id ([121], GIT_FILEMODE_BLOB, .raw 2))]) :=
  ⟨by
      have hseg : directory_segments [98, 47, 121] = [[98]] := by decide
      rw [hseg]
      intro h
      have := h.1
      simp [example_stack_a] at this,
   by decide, by decide, by decide,
   stack_add_levels example_stack_a [98, 47, 121] ([121], GIT_FILEMODE_BLOB, .raw 2)
     example_stack_a_open (by decide)⟩

/-- The stack `example_stack_a` is the one `stack_add` of `a/x` leaves: the
same depth and, at the levels 0, 1 and 2, the same names and builders. -/
theorem example_stack_a_reached :
    (stack_add stack_open [97, 47, 120] ([120], GIT_FILEMODE_BLOB, .raw 1)).map
        (fun s => (s.depth, (s.item 0).name, (s.item 1).name, (s.item 2).name))
      = .ok (example_stack_a.depth, (example_stack_a.item 0).name,
          (example_stack_a.item 1).name, (example_stack_a.item 2).name) ∧
    (stack_add stack_open [97, 47, 120] ([120], GIT_FILEMODE_BLOB, .raw 1)).map
        (fun s => (s.item 0).tb) = .ok (example_stack_a.item 0).tb ∧
    (stack_add stack_open [97, 47, 120] ([120], GIT_FILEMODE_BLOB, .raw 1)).map
        (fun s => (s.item 1).tb) = .ok (example_stack_a.item 1).tb ∧
    (stack_add stack_open [97, 47, 120] ([120], GIT_FILEMODE_BLOB, .raw 1)).map
        (fun s => (s.item 2).tb) = .ok (example_stack_a.item 2).tb := by
  refine ⟨by decide, by decide, by decide, by decide⟩

/-- The include file with the lines `a` and `ab` and no newline at the end:
the two lines are different and neither lies inside the other, but the
last line loses its last byte in `local_fgets`, and `include_dirs_init`
ends with `duplicate entries for 'a'`. With a newline at the end the
Include-Set `{a, ab}` is built. -/
theorem include_dirs_init_unterminated_duplicate :
    include_dirs_init 0 (some { data := [97, 10, 97, 98], eof := false })
      = .error (.duplicate_entries [97]) ∧
    include_dirs_init 0 (some { data := [97, 10, 97, 98, 10], eof := false })
      = .ok { dirs := [[97], [97, 98]] } := by
  refine ⟨by decide, by decide⟩

/-- A count that is not zero on entry: `include_dirs_init` sorts and checks
slots that were never assigned, whatever the file holds. -/
theorem include_dirs_init_unassigned_len (len : Nat) (f : FILE) (hlen : len ≠ 0) :
    ∀ id : include_dirs, include_dirs_init len (some f) ≠ .ok id := by
  intro id h
  unfold include_dirs_init at h
  cases hread : include_dirs_read (f.data.length + 2) f with
  | error e => simp [hread] at h
  | ok entries => simp [hread, hlen] at h

end GitFilter
